import Mathlib

/-!
Shallow embedding of the eincheck shape-constraint solver
(`eincheck/parser/expressions.py`, `eincheck/parser/dim_spec.py`,
`eincheck/parser/shape_spec.py`, `eincheck/parser/grammar.py`,
`eincheck/checks/shapes.py`) together with proofs about it.

Python machine model used throughout:
* Python `int` is unbounded, embedded as `Int`.
* A shape is a tuple of optional ints (`None` marks an unknown size),
  embedded as `List (Option Int)`.
* A Python `dict` is embedded as an association list in insertion order;
  lookup returns the first (equivalently only, keys are unique) match and
  `setdefault` appends a fresh key at the end.
* Exceptions are embedded as `Except String`; the message is the formatted
  exception text (ValueError / RuntimeError / KeyError distinctions are not
  tracked, only the message).
* The global enable flag (`eincheck/contexts.py`) is assumed on: the solver
  body below is `check_shapes` after its `_should_do_checks` early return.
-/

deriving instance DecidableEq for Except

namespace Eincheck

/-! ### Python string formatting helpers -/

/-- Decimal digits of a natural number, most significant first; the fuel
bounds the number of digits (helper). -/
def natDigitsAux : Nat → Nat → List Char
  | 0, _ => []
  | fuel + 1, n =>
    if n < 10 then [Char.ofNat (n + 48)]
    else natDigitsAux fuel (n / 10) ++ [Char.ofNat (n % 10 + 48)]

/-- Decimal digits of a natural number, most significant first (helper). -/
def natDigitsChars (n : Nat) : List Char := natDigitsAux (n + 1) n

/-- Python `str` of a natural number. -/
def pyNat (n : Nat) : String := String.mk (natDigitsChars n)

/-- Python `str` of an int (decimal, with a leading minus sign if negative). -/
def pyInt (n : Int) : String :=
  if n < 0 then "-" ++ pyNat n.natAbs else pyNat n.natAbs

/-- Join a list of strings with a separator (Python `sep.join(xs)`). -/
def joinSep (sep : String) : List String → String
  | [] => ""
  | [x] => x
  | x :: rest => x ++ sep ++ joinSep sep rest

/-- Python `str` of a tuple given rendered elements: `()`, `(x,)`, `(x, y)`. -/
def pyTupleOf : List String → String
  | [] => "()"
  | [x] => "(" ++ x ++ ",)"
  | xs => "(" ++ joinSep ", " xs ++ ")"

/-- Python `str` of a list given rendered elements: `[]`, `[x]`, `[x, y]`. -/
def pyListOf (xs : List String) : String :=
  "[" ++ joinSep ", " xs ++ "]"

/-- Python `str` of a tuple of ints. -/
def pyIntTuple (xs : List Int) : String := pyTupleOf (xs.map pyInt)

/-- Python `str` of a tuple of optional ints (`None` for absent entries). -/
def pyOptIntTuple (xs : List (Option Int)) : String :=
  pyTupleOf (xs.map (fun x => match x with | some v => pyInt v | none => "None"))

/-- Python `str` of a tuple of naturals. -/
def pyNatTuple (xs : List Nat) : String := pyTupleOf (xs.map pyNat)

/-- Python `str` of a list of naturals. -/
def pyNatList (xs : List Nat) : String := pyListOf (xs.map pyNat)

/-- Left-justify to a given width with spaces (Python `f"{s:<{w}}"`). -/
def padRight (s : String) (w : Nat) : String :=
  s ++ String.mk (List.replicate (w - s.length) ' ')

/-- Insert into a ≤-sorted list of strings, dropping duplicates (helper). -/
def sortedInsert (x : String) : List String → List String
  | [] => [x]
  | y :: rest =>
    if x = y then y :: rest
    else if x < y then x :: y :: rest
    else y :: sortedInsert x rest

/-- Sort a list of strings, dropping duplicates: Python `sorted(set(xs))`. -/
def sortDedup : List String → List String
  | [] => []
  | x :: rest => sortedInsert x (sortDedup rest)

/-- Join char lists with a single separator character (helper). -/
def joinCharsSep (sep : Char) : List (List Char) → List Char
  | [] => []
  | [x] => x
  | x :: rest => x ++ sep :: joinCharsSep sep rest

/-- The list of integers `[s, s+1, ..., e-1]` (Python `range(s, e)`). -/
def rangeList (s e : Nat) : List Nat :=
  (List.range (e - s)).map (fun i => s + i)

/-! ### Data model: `ShapeVariable`, bindings -/

/-- A `ShapeVariable` (eincheck/types.py): either an int or a tuple of ints. -/
inductive ShapeVariable where
  | int (n : Int)
  | tup (t : List Int)
deriving DecidableEq, Repr

/-- Python `str` of a `ShapeVariable`. -/
def ShapeVariable.pyStr : ShapeVariable → String
  | .int n => pyInt n
  | .tup t => pyIntTuple t

/-- Variable bindings: a Python dict from names to values, in insertion
order. Keys are unique (dict semantics); only first-match lookup and
append-if-absent are used, so uniqueness is a derived invariant. -/
abbrev Bindings := List (String × ShapeVariable)

/-- First-match lookup in a bindings dict. -/
def lookupB : Bindings → String → Option ShapeVariable
  | [], _ => none
  | p :: rest, x => if p.1 = x then some p.2 else lookupB rest x

/-- The key list of a bindings dict. -/
def keysB (b : Bindings) : List String := b.map Prod.fst

/-- Python `dict.setdefault`: keep an existing value, else append. -/
def setdefaultB (b : Bindings) (x : String) (v : ShapeVariable) : Bindings :=
  if (lookupB b x).isSome then b else b ++ [(x, v)]

/-- The trailing binding dump used by dimension-mismatch errors:
`"".join(f"\n    {k}={v}" for k, v in bindings.items())`. -/
def bindingsDump (b : Bindings) : String :=
  String.join (b.map (fun p => "\n    " ++ p.1 ++ "=" ++ p.2.pyStr))

/-- The binding rows used by rank-mismatch errors:
one `f"  {k} = {v}"` row per binding. -/
def bindingsRows (b : Bindings) : List String :=
  b.map (fun p => "  " ++ p.1 ++ " = " ++ p.2.pyStr)

/-! ### Expressions (eincheck/parser/expressions.py)

The Python classes `Literal`, `Variable`, `AddOp`, `SubOp`, `MulOp`,
`ConcatOp`, `BroadcastOp`, `DataExpr` form a closed variant set with
structural equality, embedded as one inductive type. -/

inductive Expr where
  | lit (n : Int)
  | var (x : String)
  | add (a b : Expr)
  | sub (a b : Expr)
  | mul (a b : Expr)
  | concat (a b : Expr)
  | broadcast (a b : Expr)
  | data
deriving DecidableEq, Repr

namespace Expr

/-- Characters of the Python `str` of an expression (helper: `toStr` below
packs them into a `String`). -/
def toChars : Expr → List Char
  | .lit n => (pyInt n).data
  | .var x => x.data
  | .add a b => '(' :: (a.toChars ++ '+' :: (b.toChars ++ [')']))
  | .sub a b => '(' :: (a.toChars ++ '-' :: (b.toChars ++ [')']))
  | .mul a b => '(' :: (a.toChars ++ '*' :: (b.toChars ++ [')']))
  | .concat a b => '(' :: (a.toChars ++ '|' :: '|' :: (b.toChars ++ [')']))
  | .broadcast a b => '(' :: (a.toChars ++ '^' :: (b.toChars ++ [')']))
  | .data => ['$']

/-- Python `str` of an expression (`Literal.__str__`, `Variable.__str__`,
`_BinaryOp.__str__` = `f"({x}{op}{y})"`, `DataExpr.__str__` = `"$"`). -/
def toStr (e : Expr) : String := String.mk e.toChars

/-- The variables referenced by an expression (`Expr.variables`, as a list
whose membership is the Python set membership). -/
def varList : Expr → List String
  | .lit _ => []
  | .var x => [x]
  | .add a b => a.varList ++ b.varList
  | .sub a b => a.varList ++ b.varList
  | .mul a b => a.varList ++ b.varList
  | .concat a b => a.varList ++ b.varList
  | .broadcast a b => a.varList ++ b.varList
  | .data => []

/-- `Expr.is_defined(values)`: all referenced variables are in the set. -/
def is_defined (e : Expr) (values : List String) : Bool :=
  e.varList.all (fun v => values.contains v)

end Expr

namespace BroadcastOp

/-- `BroadcastOp.broadcast`: right-align two int tuples, pad the shorter
with leading 1s, and combine positionwise; a position where both sides are
non-1 and unequal raises naming the index and both values (helper for the
positionwise loop, carrying the current index). -/
def broadcastGo (i : Nat) : List Int → List Int → Except String (List Int)
  | [], [] => .ok []
  | xx :: xs, yy :: ys => do
    let v ←
      if xx = 1 then .ok yy
      else if yy = 1 then .ok xx
      else if xx ≠ yy then
        .error ("Shape mismatch in dim " ++ pyNat i ++ ": " ++ pyInt xx ++
          " vs " ++ pyInt yy)
      else .ok xx
    let rest ← broadcastGo (i + 1) xs ys
    .ok (v :: rest)
  | _, _ => .ok []

/-- `BroadcastOp.broadcast(x, y)`. The extra `zip` truncation branch of
`broadcastGo` is unreachable: after padding both lists have equal length. -/
def broadcast (x y : List Int) : Except String (List Int) :=
  let px := List.replicate (y.length - x.length) (1 : Int) ++ x
  let py := List.replicate (x.length - y.length) (1 : Int) ++ y
  broadcastGo 0 px py

end BroadcastOp

namespace Expr

/-- Error text of `_BinaryOp.eval` when an operand has the wrong kind. -/
def kindErr (expected : String) (operand whole : Expr) (v : ShapeVariable) :
    String :=
  "Expected " ++ expected ++ " for " ++ operand.toStr ++ " in " ++
    whole.toStr ++ ", got " ++ v.pyStr

/-- Kind check and combination of `_ScalarBinaryOp.eval` on two already
evaluated operand values. -/
def applyScalar (whole a b : Expr) (x y : ShapeVariable) (f : Int → Int → Int) :
    Except String ShapeVariable :=
  match x with
  | .tup _ => .error (kindErr "int" a whole x)
  | .int xv =>
    match y with
    | .tup _ => .error (kindErr "int" b whole y)
    | .int yv => .ok (.int (f xv yv))

/-- Kind check and combination of `_TupleBinaryOp.eval` on two already
evaluated operand values. -/
def applyTuple (whole a b : Expr) (x y : ShapeVariable)
    (f : List Int → List Int → Except String (List Int)) :
    Except String ShapeVariable :=
  match x with
  | .int _ => .error (kindErr "tuple" a whole x)
  | .tup xv =>
    match y with
    | .int _ => .error (kindErr "tuple" b whole y)
    | .tup yv => do
      let r ← f xv yv
      .ok (.tup r)

/-- `Expr.eval(values)`. Scalar ops require both operands to be ints, tuple
ops require both to be tuples; `Variable.eval` raises a `KeyError` when the
name is unbound; `DataExpr.eval` always raises. Operands are evaluated
(left, then right) before either kind check, as in `_BinaryOp.eval`. -/
def eval (β : Bindings) : Expr → Except String ShapeVariable
  | .lit n => .ok (.int n)
  | .var x =>
    match lookupB β x with
    | some v => .ok v
    | none => .error ("KeyError: " ++ x)
  | .add a b => do
    let x ← eval β a
    let y ← eval β b
    applyScalar (.add a b) a b x y (fun u v => u + v)
  | .sub a b => do
    let x ← eval β a
    let y ← eval β b
    applyScalar (.sub a b) a b x y (fun u v => u - v)
  | .mul a b => do
    let x ← eval β a
    let y ← eval β b
    applyScalar (.mul a b) a b x y (fun u v => u * v)
  | .concat a b => do
    let x ← eval β a
    let y ← eval β b
    applyTuple (.concat a b) a b x y (fun u v => .ok (u ++ v))
  | .broadcast a b => do
    let x ← eval β a
    let y ← eval β b
    applyTuple (.broadcast a b) a b x y BroadcastOp.broadcast
  | .data => .error "Tried to evaluate DataExpr"

end Expr

/-! ### Character classes of the grammar (eincheck/parser/grammar.py)

The grammar's `NAME` terminal is Python's identifier regex; it is embedded
here over ASCII: a leading letter or underscore followed by letters, digits
or underscores. `INT` is a digit run. -/

/-- Can a character start a `NAME` token. -/
def isNameStart (c : Char) : Bool := c.isAlpha || c = '_'

/-- Can a character continue a `NAME` token. -/
def isNameChar (c : Char) : Bool := c.isAlphanum || c = '_'

/-- Value of a digit run (`int(x)` on the `INT` token text). -/
def digitsToNat (cs : List Char) : Nat :=
  cs.foldl (fun a c => a * 10 + (c.toNat - 48)) 0

/-- Drop leading spaces (the grammar's explicit `" "*` runs). -/
def skipSpaces (cs : List Char) : List Char := cs.dropWhile (fun c => c = ' ')

/-! ### DimSpec (eincheck/parser/dim_spec.py) -/

/-- `DimType`: how many dimensions a `DimSpec` matches. -/
inductive DimType where
  | single
  | variadic
  | repeated
deriving DecidableEq, Repr

/-- `DimSpec`: one slot of a shape specification. `value = none` is the
unconstrained slot (`_`, or `...` when repeated). -/
structure DimSpec where
  value : Option Expr
  type : DimType := .single
  can_broadcast : Bool := false
deriving DecidableEq, Repr

namespace DimSpec

/-- Characters of the Python `str` of a `DimSpec` (helper for `toStr`). -/
def toChars (d : DimSpec) : List Char :=
  let s := match d.value with
    | some e => e.toChars
    | none => ['_']
  let s := match d.type with
    | .variadic => '*' :: s
    | .repeated => s ++ ['*']
    | .single => s
  if d.can_broadcast then s ++ ['!'] else s

/-- `DimSpec.__str__`: `*value` for variadic, `value*` for repeated, a
trailing `!` when broadcastable, `_` for an absent expression. -/
def toStr (d : DimSpec) : String := String.mk d.toChars

/-- `DimSpec.matches_multiple`. -/
def matches_multiple (d : DimSpec) : Bool := d.type ≠ .single

/-- `DimSpec.make_variadic` (requires the default `SINGLE` state). -/
def make_variadic (d : DimSpec) : DimSpec := { d with type := .variadic }

/-- `DimSpec.make_repeated` (requires the default `SINGLE` state). -/
def make_repeated (d : DimSpec) : DimSpec := { d with type := .repeated }

/-- `DimSpec.make_can_broadcast`. -/
def make_can_broadcast (d : DimSpec) : DimSpec := { d with can_broadcast := true }

/-- `DimSpec.create_literal`. -/
def create_literal (x : Int) : DimSpec := { value := some (.lit x) }

/-- `DimSpec.create_variable`. -/
def create_variable (x : String) : DimSpec := { value := some (.var x) }

/-- The variables referenced by the slot's expression (empty for `None`). -/
def varList (d : DimSpec) : List String :=
  match d.value with
  | some e => e.varList
  | none => []

/-- `DimSpec.is_defined(values)`. -/
def is_defined (d : DimSpec) (values : List String) : Bool :=
  match d.value with
  | none => true
  | some e => e.is_defined values

/-- `DimSpec.is_checkable(values)`: the value is a bare `Variable` with
broadcast tolerance off, or every referenced variable is defined. -/
def is_checkable (d : DimSpec) (values : List String) : Bool :=
  (match d.value with
    | some (.var _) => !d.can_broadcast
    | _ => false) ||
  d.is_defined values

/-- `DimSpec.n_dims(bindings)`: 1 for `SINGLE`, `None` for `REPEATED`, and
for `VARIADIC` the tuple length when the expression is defined and
evaluates to a tuple (exceptions from the evaluation propagate). -/
def n_dims (d : DimSpec) (β : Bindings) : Except String (Option Nat) :=
  match d.type with
  | .single => .ok (some 1)
  | .repeated => .ok none
  | .variadic =>
    match d.value with
    | some e =>
      if e.is_defined (keysB β) then do
        let got ← e.eval β
        match got with
        | .tup t => .ok (some t.length)
        | .int _ => .ok none
      else .ok none
    | none => .ok none

end DimSpec

/-! ### ShapeSpec (eincheck/parser/shape_spec.py)

The `_unknown_n_dims_indices_cache` field is a pure memoization of
`unknown_n_dims_indices` keyed by `hash(tuple(bindings.items()))` and is
not modelled; the uncached function is used directly. -/

structure ShapeSpec where
  dims : List DimSpec
deriving DecidableEq, Repr

/-- Indices at which a list holds `none`, starting from index `i`. -/
def noneIdxs : List (Option Nat) → Nat → List Nat
  | [], _ => []
  | none :: rest, i => i :: noneIdxs rest (i + 1)
  | some _ :: rest, i => noneIdxs rest (i + 1)

/-- Sum of the known entries of a list of optional counts. -/
def sumKnown : List (Option Nat) → Nat
  | [] => 0
  | none :: rest => sumKnown rest
  | some x :: rest => x + sumKnown rest

/-- The allocation loop of `ShapeSpec.matched_indices`: assign each spec
`n_dims` consecutive indices, the unknown-width spec getting `slack`;
returns the `(spec, start, end)` list and the final index. -/
def allocGo : List (DimSpec × Option Nat) → Nat → Nat →
    List (DimSpec × Nat × Nat) × Nat
  | [], i, _ => ([], i)
  | (d, w) :: rest, i, slack =>
    let y := match w with
      | some x => x
      | none => slack
    let (o, fin) := allocGo rest (i + y) slack
    ((d, i, i + y) :: o, fin)

/-- The list `[d.n_dims(bindings) for d in dims]`, the first exception
propagating, shared by `min_rank`, `unknown_n_dims_indices` and
`matched_indices`. -/
def nDimsList (β : Bindings) : List DimSpec → Except String (List (Option Nat))
  | [] => .ok []
  | d :: rest => do
    let x ← d.n_dims β
    let xs ← nDimsList β rest
    .ok (x :: xs)

namespace ShapeSpec

/-- Characters of the Python `str` of a `ShapeSpec` (helper for `toStr`):
space-joined dims inside square brackets. -/
def toChars (s : ShapeSpec) : List Char :=
  '[' :: joinCharsSep ' ' (s.dims.map DimSpec.toChars) ++ [']']

/-- `ShapeSpec.__str__`: space-joined dims inside square brackets. -/
def toStr (s : ShapeSpec) : String := String.mk s.toChars

/-- `ShapeSpec.variables` (as a list whose membership is set membership). -/
def varList (s : ShapeSpec) : List String :=
  (s.dims.map DimSpec.varList).flatten

/-- `ShapeSpec.unknown_n_dims_indices(bindings)`: indices of dims whose
`n_dims` is `None` (evaluation exceptions propagate). -/
def unknown_n_dims_indices (s : ShapeSpec) (β : Bindings) :
    Except String (List Nat) := do
  let nds ← nDimsList β s.dims
  .ok (noneIdxs nds 0)

/-- `ShapeSpec.min_rank(bindings)`: sum of the determined `n_dims`. -/
def min_rank (s : ShapeSpec) (β : Bindings) : Except String Nat := do
  let nds ← nDimsList β s.dims
  .ok (sumKnown nds)

/-- `ShapeSpec.is_checkable(bindings)`: at most one unknown-width index and
every dim individually checkable. -/
def is_checkable (s : ShapeSpec) (β : Bindings) : Except String Bool := do
  let u ← s.unknown_n_dims_indices β
  if u.length > 1 then .ok false
  else .ok (s.dims.all (fun d => d.is_checkable (keysB β)))

/-- `ShapeSpec.matched_indices(bindings, n_dims)`: allocate `n` observed
dimensions across the dims in order; fails when the minimum rank exceeds
`n`, when several dims have unknown width, or when the allocated total is
not exactly `n`. -/
def matched_indices (s : ShapeSpec) (β : Bindings) (n : Nat) :
    Except String (List (DimSpec × Nat × Nat)) := do
  let nds ← nDimsList β s.dims
  let mr := sumKnown nds
  if mr > n then
    .error ("Expected rank at least " ++ pyNat mr ++ ", got " ++ pyNat n)
  else
    let noneInds := noneIdxs nds 0
    if noneInds.length > 1 then
      .error ("Cannot determine matched indices: " ++
        "multiple DimSpec with unknown n_dims " ++ pyNatList noneInds)
    else
      let (out, fin) := allocGo (s.dims.zip nds) 0 (n - mr)
      if fin ≠ n then
        .error ("Expected rank " ++ pyNat fin ++ ", got " ++ pyNat n)
      else .ok out

/-- `ShapeSpec.is_data_expr`: a single dim whose value is the `$` marker. -/
def is_data_expr (s : ShapeSpec) : Bool :=
  match s.dims with
  | [d] => d.value = some .data
  | _ => false

end ShapeSpec

/-! ### The parser (eincheck/parser/grammar.py)

`parse_shape_spec` runs a Lark parser over the grammar string in the
source and transforms the tree with `TreeToSpec`. The grammar is embedded
as a fuel-indexed recursive-descent parser producing the same `ShapeSpec`s:

  shape : can_broadcast_dim? (" "+ can_broadcast_dim)* | "$" | "."
  expr : value_expr | "_"
  value_expr : INT | NAME | math
  can_broadcast_dim : dim "!" | dim
  dim : expr "*" | "*" expr | expr | "..."
  math : "(" " "* value_expr " "* (("+"|"-"|"*"|"||"|"^") " "* value_expr " "*)? ")"

Lexing follows Lark's standard longest-match rule with literal terminals
preferred, so a lone `_` is the wildcard terminal (never a `NAME`) while
`_a` is a `NAME`. Fuel only bounds `math` nesting and the dim count; it is
set from the input length, which always suffices. -/

/-- Does the remaining input not continue a `NAME`/`INT` token (i.e. the
previous token ended here). -/
def nextNotName (cs : List Char) : Bool :=
  match cs with
  | [] => true
  | c :: _ => !isNameChar c

/-- What follows the first operand inside a `math` node: the closing
paren, a binary operator, or a lexing failure. -/
inductive MathTail where
  | close (rest : List Char)
  | op (mk : Expr → Expr → Expr) (rest : List Char)
  | bad

/-- Lex the token after the first operand of a `math` node. -/
def mathOp : List Char → MathTail
  | ')' :: r => .close r
  | '+' :: r => .op .add r
  | '-' :: r => .op .sub r
  | '*' :: r => .op .mul r
  | '^' :: r => .op .broadcast r
  | '|' :: '|' :: r => .op .concat r
  | _ => .bad

/-- Parse the grammar's `value_expr`: an `INT`, a `NAME`, or a
parenthesized `math` expression (fuel bounds nesting). -/
def parseValueExpr : Nat → List Char → Except String (Expr × List Char)
  | 0, _ => .error "parse error: expression too deeply nested"
  | fuel + 1, cs =>
    match cs with
    | [] => .error "parse error: unexpected end of input"
    | c :: rest =>
      if c.isDigit then
        let ds := (c :: rest).takeWhile Char.isDigit
        let r := (c :: rest).dropWhile Char.isDigit
        .ok (.lit (Int.ofNat (digitsToNat ds)), r)
      else if isNameStart c then
        let nm := (c :: rest).takeWhile isNameChar
        let r := (c :: rest).dropWhile isNameChar
        if nm = ['_'] then .error "parse error: _ is not a value expression"
        else .ok (.var (String.mk nm), r)
      else if c = '(' then do
        let (x, cs2) ← parseValueExpr fuel (skipSpaces rest)
        (match mathOp (skipSpaces cs2) with
         | .close r => .ok (x, r)
         | .op mk r => do
           let (y, cs4) ← parseValueExpr fuel (skipSpaces r)
           (match skipSpaces cs4 with
            | ')' :: r2 => .ok (mk x y, r2)
            | _ => .error "parse error: expected closing paren")
         | .bad => .error "parse error: expected an operator or closing paren")
      else .error "parse error: unexpected character"

/-- Parse the grammar's `expr`: a `value_expr` or the `_` wildcard
(`none`). A lone `_` is the wildcard terminal; `_a` is a `NAME`. -/
def parseExprU (fuel : Nat) (cs : List Char) :
    Except String (Option Expr × List Char) :=
  if cs.head? = some '_' && nextNotName cs.tail then .ok (none, cs.tail)
  else do
    let (e, r) ← parseValueExpr fuel cs
    .ok (some e, r)

/-- Parse the grammar's `dim`: `...`, `*expr` (variadic), `expr*`
(repeated) or a plain `expr`. -/
def parseDim (fuel : Nat) (cs : List Char) :
    Except String (DimSpec × List Char) :=
  if cs.take 3 = ['.', '.', '.'] then .ok (⟨none, .repeated, false⟩, cs.drop 3)
  else if cs.head? = some '*' then do
    let (v, r) ← parseExprU fuel cs.tail
    .ok ((DimSpec.mk v .single false).make_variadic, r)
  else do
    let (v, r) ← parseExprU fuel cs
    if r.head? = some '*' then
      .ok ((DimSpec.mk v .single false).make_repeated, r.tail)
    else .ok (DimSpec.mk v .single false, r)

/-- Parse the grammar's `can_broadcast_dim`: a `dim` with an optional
trailing `!`. -/
def parseCBDim (fuel : Nat) (cs : List Char) :
    Except String (DimSpec × List Char) := do
  let (d, r) ← parseDim fuel cs
  if r.head? = some '!' then .ok (d.make_can_broadcast, r.tail)
  else .ok (d, r)

/-- Parse one or more space-separated `can_broadcast_dim`s up to the end
of input (`loopFuel` bounds the dim count). -/
def parseDimsGo (exprFuel : Nat) : Nat → List Char →
    Except String (List DimSpec)
  | 0, _ => .error "parse error: too many dimensions"
  | loopFuel + 1, cs => do
    let (d, r) ← parseCBDim exprFuel cs
    if r.isEmpty then .ok [d]
    else if r.head? = some ' ' then do
      let rest ← parseDimsGo exprFuel loopFuel (skipSpaces r.tail)
      .ok (d :: rest)
    else .error "parse error: unexpected character after dimension"

/-- `parse_shape_spec(s)`: strip spaces, special-case the `$` and `.` (and
empty) whole-spec forms, else parse space-separated dims. -/
def parse_shape_spec (s : String) : Except String ShapeSpec :=
  let cs := (s.data.dropWhile (fun c => c = ' ')).reverse.dropWhile
    (fun c => c = ' ') |>.reverse
  if cs = [] then .ok ⟨[]⟩
  else if cs = ['$'] then .ok ⟨[⟨some .data, .single, false⟩]⟩
  else if cs = ['.'] then .ok ⟨[]⟩
  else do
    let dims ← parseDimsGo (cs.length + 1) (cs.length + 1) cs
    .ok ⟨dims⟩

/-! ### Validity: specs expressible in the mini-language

`Variable` names are Python identifiers, embedded over ASCII; a bare `_`
is the wildcard token in the grammar, and literals produced by the grammar
are the nonnegative `INT` tokens; `$` only occurs as a whole-spec form. -/

/-- A valid variable name: an ASCII identifier other than the reserved
wildcard `_`. -/
def validName (s : String) : Bool :=
  (match s.data with
   | [] => false
   | c :: rest => isNameStart c && rest.all isNameChar) &&
  s ≠ "_"

/-- Expressions expressible in the grammar: nonnegative literals, valid
names, binary operators; the `$` marker is a whole-spec form, not an
expression. -/
def Expr.validSrc : Expr → Bool
  | .lit n => 0 ≤ n
  | .var x => validName x
  | .add a b => a.validSrc && b.validSrc
  | .sub a b => a.validSrc && b.validSrc
  | .mul a b => a.validSrc && b.validSrc
  | .concat a b => a.validSrc && b.validSrc
  | .broadcast a b => a.validSrc && b.validSrc
  | .data => false

/-- DimSpecs expressible in the grammar. -/
def DimSpec.validSrc (d : DimSpec) : Bool :=
  match d.value with
  | none => true
  | some e => e.validSrc

/-- ShapeSpecs expressible in the grammar: the `$` form, or dims that are
each expressible. -/
def ShapeSpec.validSrc (s : ShapeSpec) : Bool :=
  s.dims = [⟨some .data, .single, false⟩] || s.dims.all DimSpec.validSrc

/-- The bracket-stripped string form used by the repository's own parser
round-trip test: Python `str(spec)[1:-1]`. -/
def pyStr1m1 (s : String) : String := String.mk (s.data.drop 1).dropLast

/-! ### The constraint solver (eincheck/checks/shapes.py)

The named entries of one invocation: name, observed shape (optional ints),
spec. This is the `tensors` dict of `check_shapes` after
`_get_tensors_and_bindings`, in insertion order. -/

abbrev Tensors := List (String × (List (Option Int) × ShapeSpec))

/-- Python slice `got[s:e]` for `s ≤ e`. -/
def sliceOpt (got : List (Option Int)) (s e : Nat) : List (Option Int) :=
  (got.drop s).take (e - s)

/-- Membership of `g` in the broadcast-acceptable set of `_check_dim_spec`:
for an int expectation the set `{expected, 1}`, for a tuple expectation the
product of `{x, 1}` over its entries. Mixed kinds are never members, as in
Python set membership. -/
def broadcastOk (expected g : ShapeVariable) : Bool :=
  match expected, g with
  | .int e, .int gi => gi = e || gi = 1
  | .tup es, .tup gs =>
    gs.length = es.length && (gs.zip es).all (fun p => p.1 = p.2 || p.1 = 1)
  | _, _ => false

/-- The single-value check (`do_check`) inside `_check_dim_spec`: compare
one observed value against the expectation, with `dimStr` naming the
offending index or indices. -/
def doCheck (d : DimSpec) (valueStr : String) (expected : ShapeVariable)
    (β : Bindings) (name msg dimStr : String) (g : ShapeVariable) :
    Except String Unit :=
  let firstLine :=
    if d.can_broadcast && !broadcastOk expected g then
      some ("expected can broadcast to " ++ valueStr ++ "=" ++
        expected.pyStr ++ " got " ++ g.pyStr)
    else if !d.can_broadcast && g ≠ expected then
      some ("expected " ++ valueStr ++ "=" ++ expected.pyStr ++ " got " ++
        g.pyStr)
    else none
  match firstLine with
  | some line =>
    .error (name ++ " " ++ dimStr ++ ": " ++ line ++ bindingsDump β ++ msg)
  | none => .ok ()

/-- The per-element loop of `_check_dim_spec` for `REPEATED` dims. -/
def doCheckRepeated (d : DimSpec) (valueStr : String)
    (expected : ShapeVariable) (β : Bindings) (name msg : String) :
    Nat → List Int → Except String Unit
  | _, [] => .ok ()
  | i, g :: rest => do
    doCheck d valueStr expected β name msg ("dim " ++ pyNat i) (.int g)
    doCheckRepeated d valueStr expected β name msg (i + 1) rest

/-- `_check_dim_spec(got_shape, d, bindings, name, msg, start_idx)`:
evaluate the slot's expression and check the observed slice against it. -/
def _check_dim_spec (gotShape : List Int) (d : DimSpec) (β : Bindings)
    (name msg : String) (startIdx : Nat) : Except String Unit :=
  match d.value with
  | none => .ok ()
  | some v => do
    let expected ← v.eval β
    match d.type, expected with
    | .variadic, .int _ =>
      .error (name ++ ": expected variadic DimSpec " ++ d.toStr ++
        " to evaluate to a tuple, got " ++ expected.pyStr ++ msg)
    | .single, .tup _ =>
      .error (name ++ ": expected non-variadic DimSpec " ++ d.toStr ++
        " to evaluate to an integer, got " ++ expected.pyStr ++ msg)
    | .repeated, .tup _ =>
      .error (name ++ ": expected non-variadic DimSpec " ++ d.toStr ++
        " to evaluate to an integer, got " ++ expected.pyStr ++ msg)
    | .repeated, _ =>
      doCheckRepeated d v.toStr expected β name msg startIdx gotShape
    | .variadic, _ =>
      doCheck d v.toStr expected β name msg
        ("dims " ++ pyNatTuple (rangeList startIdx (startIdx + gotShape.length)))
        (.tup gotShape)
    | .single, _ =>
      (match gotShape with
       | [g] => doCheck d v.toStr expected β name msg
          ("dim " ++ pyNat startIdx) (.int g)
       | _ =>
        .error (name ++ ": expected a single dimension for " ++ d.toStr ++
          ", got " ++ pyIntTuple gotShape ++ msg))

/-- One iteration of the `_bind_shape` loop body, for the slot `(d, s, e)`
of `matched_indices`: bind a bare unbound non-broadcast variable slot to
its observed slice, skip everything else. -/
def bindStep (got : List (Option Int)) (name msg : String) (d : DimSpec)
    (s e : Nat) (β : Bindings) : Except String Bindings :=
  match d.value with
  | some (.var x) =>
    if (lookupB β x).isSome then .ok β
    else
      let gSlice := sliceOpt got s e
      if gSlice.contains none then
        .error (name ++ ": tried to match " ++ pyOptIntTuple gSlice ++
          " to " ++ d.toStr ++ ", found None" ++ msg)
      else
        let gs := gSlice.filterMap id
        if d.can_broadcast then .ok β
        else
          match d.type with
          | .variadic => .ok (setdefaultB β x (.tup gs))
          | .repeated =>
            (match gs with
             | g0 :: _ => .ok (setdefaultB β x (.int g0))
             | [] => .ok β)
          | .single =>
            (match gs with
             | [g0] => .ok (setdefaultB β x (.int g0))
             | _ =>
               .error (name ++ ": expected a single dimension for " ++
                 d.toStr ++ ", got " ++ pyOptIntTuple got ++ msg))
  | _ => .ok β

/-- The per-slot loop of `_bind_shape` over `matched_indices`. -/
def bindFold (got : List (Option Int)) (name msg : String) :
    List (DimSpec × Nat × Nat) → Bindings → Except String Bindings
  | [], β => .ok β
  | (d, s, e) :: rest, β => do
    let β1 ← bindStep got name msg d s e β
    bindFold got name msg rest β1

/-- `_bind_shape(got_shape, s, bindings, name, msg)`: walk the matched
slices and bind bare unbound variables (first-binding-wins, broadcast
slots never bind). -/
def _bind_shape (got : List (Option Int)) (s : ShapeSpec) (β : Bindings)
    (name msg : String) : Except String Bindings := do
  let m ← s.matched_indices β got.length
  bindFold got name msg m β

/-- `_check_rank(name, got_shape, shape_spec, bindings, msg)`: observed
rank must be at least the minimum rank when an unknown-width dim exists,
else exactly equal. -/
def _check_rank (name : String) (got : List (Option Int)) (s : ShapeSpec)
    (β : Bindings) (msg : String) : Except String Unit := do
  let expectedRank ← s.min_rank β
  let unk ← s.unknown_n_dims_indices β
  let atLeast := !unk.isEmpty
  if (if atLeast then got.length < expectedRank
      else got.length ≠ expectedRank) then
    .error (joinSep "\n"
      ((name ++ ": expected rank " ++ (if atLeast then "at least " else "") ++
        pyNat expectedRank ++ ", got shape " ++ pyOptIntTuple got) ::
        bindingsRows β) ++ "\n" ++ msg)
  else .ok ()

/-- The per-slot loop of `_check_shape` over `matched_indices`: skip
unconstrained slots and zero-width repeated slices, reject unresolved
(`None`) sizes, and run `_check_dim_spec` on the rest. -/
def checkFold (got : List (Option Int)) (β : Bindings) (name msg : String) :
    List (DimSpec × Nat × Nat) → Except String Unit
  | [] => .ok ()
  | (d, s, e) :: rest =>
    if d.value = none then checkFold got β name msg rest
    else if d.type = .repeated && s == e then checkFold got β name msg rest
    else
      let gSlice := sliceOpt got s e
      if gSlice.contains none then
        .error (name ++ " " ++
          (if e = s + 1 then "dim " ++ pyNat s
            else "dims " ++ pyNatTuple (rangeList s e)) ++
          ": tried to check " ++ d.toStr ++ " against " ++
          pyOptIntTuple gSlice ++ ", found None" ++ msg)
      else do
        _check_dim_spec (gSlice.filterMap id) d β name msg s
        checkFold got β name msg rest

/-- `_check_shape(got_shape, s, bindings, name, msg)`: rank check, then the
multiple-unknown-size guard, then the per-slot value checks. The text of
the multiple-unknown-size error embeds Python `repr`s of the offending
`DimSpec`s, which include object addresses; it is rendered here with a
fixed placeholder per dim (the branch is unreachable from `check_shapes`,
whose loop only submits specs with at most one unknown-width dim). -/
def _check_shape (got : List (Option Int)) (s : ShapeSpec) (β : Bindings)
    (name msg : String) : Except String Bindings := do
  let msg := if msg ≠ "" then "\n" ++ msg else msg
  _check_rank name got s β msg
  let unk ← s.unknown_n_dims_indices β
  if unk.length > 1 then
    .error (name ++ " has multiple DimSpec of unknown size: " ++
      pyListOf (unk.map (fun _ => "DimSpec")) ++ msg)
  else do
    let m ← s.matched_indices β got.length
    checkFold got β name msg m
    .ok β

/-- Names of pre-bound variables holding an int (`_check_variable_types`). -/
def bindingIntVars (β : Bindings) : List String :=
  β.filterMap (fun p => match p.2 with | .int _ => some p.1 | .tup _ => none)

/-- Names of pre-bound variables holding a tuple. -/
def bindingTupleVars (β : Bindings) : List String :=
  β.filterMap (fun p => match p.2 with | .tup _ => some p.1 | .int _ => none)

/-- Variables referenced by non-`VARIADIC` dims across all entries. -/
def specIntVars (T : Tensors) : List String :=
  (T.map (fun e => ((e.2.2.dims.filter (fun d => d.type ≠ .variadic)).map
    DimSpec.varList).flatten)).flatten

/-- Variables referenced by `VARIADIC` dims across all entries. -/
def specTupleVars (T : Tensors) : List String :=
  (T.map (fun e => ((e.2.2.dims.filter (fun d => d.type = .variadic)).map
    DimSpec.varList).flatten)).flatten

/-- The int-kind variable set of `_check_variable_types` (bindings first,
then the specs, as in the source; list membership is set membership). -/
def intVarsList (T : Tensors) (β : Bindings) : List String :=
  bindingIntVars β ++ specIntVars T

/-- The tuple-kind variable set of `_check_variable_types`. -/
def tupleVarsList (T : Tensors) (β : Bindings) : List String :=
  bindingTupleVars β ++ specTupleVars T

/-- The error message of `_check_variable_types` for a given conflict set
(space-joined sorted names appended to the fixed text). -/
def varKindErrorMsg (both : List String) : String :=
  "Found variables in both variadic and non-variadic expressions: " ++
    joinSep " " both

/-- The conflict set `int_vars & tuple_vars` of `_check_variable_types`,
rendered as Python `sorted(...)` renders it. -/
def varKindConflicts (T : Tensors) (β : Bindings) : List String :=
  sortDedup ((intVarsList T β).filter (fun v => (tupleVarsList T β).contains v))

/-- `_check_variable_types(tensors, bindings)`: a name classified both as
int-kind and tuple-kind is fatal. -/
def _check_variable_types (T : Tensors) (β : Bindings) :
    Except String Unit :=
  if (varKindConflicts T β).isEmpty then .ok ()
  else .error (varKindErrorMsg (varKindConflicts T β))

/-- The mutable state of the `check_shapes` fixed-point loop. -/
structure SolverState where
  bindings : Bindings
  binded : List String
  checked : List String
deriving DecidableEq, Repr

/-- One entry of the inner loop of `check_shapes`: skip checked entries and
entries with several unknown-width dims; rank-check and bind an entry the
first time it is seen; value-check it once its spec is checkable. -/
def processEntry (msg : String) (st : SolverState)
    (entry : String × (List (Option Int) × ShapeSpec)) :
    Except String SolverState := do
  let name := entry.1
  let got := entry.2.1
  let spec := entry.2.2
  if st.checked.contains name then .ok st else do
  let unk ← spec.unknown_n_dims_indices st.bindings
  if unk.length > 1 then .ok st else do
  let st1 ←
    if st.binded.contains name then .ok st
    else do
      _check_rank name got spec st.bindings msg
      let β ← _bind_shape got spec st.bindings name msg
      .ok { st with bindings := β, binded := st.binded ++ [name] }
  let ck ← spec.is_checkable st1.bindings
  if !ck then .ok st1 else do
  let _ ← _check_shape got spec st1.bindings name msg
  .ok { st1 with checked := st1.checked ++ [name] }

/-- One full pass of the fixed-point loop over all entries in order. -/
def onePass (msg : String) : Tensors → SolverState →
    Except String SolverState
  | [], st => .ok st
  | e :: rest, st => do
    let st1 ← processEntry msg st e
    onePass msg rest st1

/-- The fixed-point loop of `check_shapes`: up to `fuel` passes, stopping
early when a pass adds no new binding. -/
def solverLoop (msg : String) (T : Tensors) :
    Nat → SolverState → Except String SolverState
  | 0, st => .ok st
  | fuel + 1, st => do
    let st1 ← onePass msg T st
    if st1.bindings.length = st.bindings.length then .ok st1
    else solverLoop msg T fuel st1

/-- The per-entry rows of the trailing context message of `check_shapes`:
`f"  {name}: got {got:<{width}} expected {spec}"`, with the observed shape
column padded to the widest observed shape. -/
def contextMsg (T : Tensors) : String :=
  let gotMsgs := T.map (fun e => pyOptIntTuple e.2.1)
  let gotLen := (gotMsgs.map String.length).foldl max 0
  joinSep "\n" ((T.zip gotMsgs).map (fun p =>
    "  " ++ p.1.1 ++ ": got " ++ padRight p.2 gotLen ++ " expected " ++
      p.1.2.2.toStr))

/-- `check_shapes` after `_get_tensors_and_bindings` and with checks
enabled: variable-kind check, fixed-point loop, residue checks, and the
final bindings. The entries never bound (`unbound`) are reported in entry
order (the CPython source renders that one message from an unordered set;
`unchecked` names and missing variables are sorted as in the source). -/
def check_shapes_core (T : Tensors) (β : Bindings) :
    Except String Bindings := do
  _check_variable_types T β
  if T.isEmpty then .ok β else do
  let msg := contextMsg T
  let st ← solverLoop msg T T.length ⟨β, [], []⟩
  let unbound := T.filterMap (fun e =>
    if st.binded.contains e.1 then none else some e.1)
  if !unbound.isEmpty then
    .error ("Unable to determine bindings for: " ++ joinSep " " unbound ++
      "\n" ++ msg)
  else
    let unchecked := T.filterMap (fun e =>
      if st.checked.contains e.1 then none else some e.1)
    if !unchecked.isEmpty then
      let missing := sortDedup ((T.filterMap (fun e =>
        if st.checked.contains e.1 then none
        else some e.2.2.varList)).flatten)
      .error ("Unable to check: [" ++ joinSep " " (sortDedup unchecked) ++
        "] missing variables: [" ++ joinSep " " missing ++ "]\n" ++ msg)
    else .ok st.bindings

/-! ### Keyword-argument dispatch of `_get_tensors_and_bindings`

A small universe of Python values, enough to express the dynamic type
tests `isinstance(v, int)`, `isinstance(v, tuple)` and `len(v) == 2`
performed on each keyword argument. -/

inductive PyVal where
  | int (n : Int)
  | tup (xs : List PyVal)
  | str (s : String)
  | obj
  | none

/-- `isinstance(v, int)`. -/
def PyVal.isInt : PyVal → Bool
  | .int _ => true
  | _ => false

/-- The three possible fates of one keyword argument in
`_get_tensors_and_bindings`. -/
inductive KwargCase where
  | binding (v : ShapeVariable)
  | tensorPair (fst snd : PyVal)
  | unexpectedKwarg

/-- The int values of a list of Python ints (the `cast` to
`ShapeVariable` on an all-int tuple). -/
def pyInts (xs : List PyVal) : List Int :=
  xs.filterMap (fun v => match v with | .int n => some n | _ => none)

/-- The keyword-argument dispatch of `_get_tensors_and_bindings`: an int,
or a tuple whose elements are all ints, becomes a pre-bound variable
value; otherwise a 2-tuple becomes a (tensor, spec) entry; anything else
raises the unexpected-kwarg error. -/
def classifyKwarg : PyVal → KwargCase
  | .int n => .binding (.int n)
  | .tup xs =>
    if xs.all PyVal.isInt then .binding (.tup (pyInts xs))
    else
      (match xs with
       | [a, b] => .tensorPair a b
       | _ => .unexpectedKwarg)
  | _ => .unexpectedKwarg

/-! ### Small Python-semantics helpers used only in theorem statements -/

/-- Does `sub` occur at the start of `s` (helper for `containsChars`). -/
def startsWithChars : List Char → List Char → Bool
  | [], _ => true
  | _ :: _, [] => false
  | a :: as, b :: bs => a = b && startsWithChars as bs

/-- Python `sub in s` on character lists. -/
def containsChars (sub : List Char) : List Char → Bool
  | [] => sub.isEmpty
  | c :: rest => startsWithChars sub (c :: rest) || containsChars sub rest

/-- Did a computation fail with a message mentioning `sub`. -/
def errMentions {α : Type} (r : Except String α) (sub : String) : Bool :=
  match r with
  | .error m => containsChars sub.data m.data
  | .ok _ => false

/-! ### Derived measures, allocations and relations used by the proofs -/

/-- Nesting depth of an expression: the parser fuel it needs. -/
def Expr.depth : Expr → Nat
  | .lit _ => 0
  | .var _ => 0
  | .data => 0
  | .add a b => max a.depth b.depth + 1
  | .sub a b => max a.depth b.depth + 1
  | .mul a b => max a.depth b.depth + 1
  | .concat a b => max a.depth b.depth + 1
  | .broadcast a b => max a.depth b.depth + 1

/-- Fuel needed for an optional dim expression. -/
def valDepth : Option Expr → Nat
  | some e => e.depth
  | none => 0

/-- Fuel needed for a dim's expression. -/
def DimSpec.depthD (d : DimSpec) : Nat := valDepth d.value

/-- The characters of a dim's base: its expression or the wildcard. -/
def dimBase (v : Option Expr) : List Char :=
  match v with
  | some e => e.toChars
  | none => ['_']

/-- The characters of a dim before the optional broadcast suffix. -/
def dimCore (d : DimSpec) : List Char :=
  match d.type with
  | .variadic => '*' :: dimBase d.value
  | .repeated => dimBase d.value ++ ['*']
  | .single => dimBase d.value

/-- What may follow a dim core: the broadcast suffix, a separating space,
or the end of input. -/
def postDim (cs : List Char) : Bool :=
  match cs with
  | [] => true
  | c :: _ => c = '!' || c = ' '

/-- What may follow a whole dim inside a shape: a separating space or the
end of input. -/
def dimBoundary (cs : List Char) : Bool :=
  match cs with
  | [] => true
  | c :: _ => c = ' '

/-- The value an observation binds a bare variable slot to: the whole
slice tuple for `VARIADIC`, the first element for `REPEATED` (nothing for
an empty slice), the sole element for `SINGLE`. -/
def bindValueOf : DimType → List Int → Option ShapeVariable
  | .variadic, gs => some (.tup gs)
  | .repeated, g0 :: _ => some (.int g0)
  | .repeated, [] => none
  | .single, [g0] => some (.int g0)
  | .single, _ => none

/-- The contiguous allocation of index ranges for the given slot widths,
starting at `i`: slot `j` owns `[i + w_0 + ... + w_(j-1), i + w_0 + ... + w_j)`. -/
def allocSpec : List DimSpec → List Nat → Nat → List (DimSpec × Nat × Nat)
  | d :: ds, w :: ws, i => (d, i, i + w) :: allocSpec ds ws (i + w)
  | _, _, _ => []

/-- One bindings dict extends to another: every binding of the first is
visible (first match) in the second. The states of one `check_shapes` run
grow along this relation. -/
def extendsB (β B : Bindings) : Prop :=
  ∀ x v, lookupB β x = some v → lookupB B x = some v

/-- A dim's width is stable under binding extension once any variadic
expression it has is already defined (the situation after the dim's entry
has been bound and value-checked). -/
def variadicDefined (β : Bindings) (d : DimSpec) : Prop :=
  d.type = .variadic → d.value = none ∨
    ∃ e, d.value = some e ∧ e.is_defined (keysB β) = true

/-- The check witness of an entry: some state the final bindings extend
at which the entry's spec was checkable and its value check passed. -/
def ChkW (msg : String) (e : String × (List (Option Int) × ShapeSpec))
    (B : Bindings) : Prop :=
  ∃ β, extendsB β B ∧ e.2.2.is_checkable β = .ok true ∧
    _check_shape e.2.1 e.2.2 β e.1 msg = .ok β

/-- Provenance of the bindings accumulated by one run: the pre-bindings
followed by observation bindings, each an int for a variable referenced by
a non-variadic dim or a tuple for one referenced by a variadic dim. -/
def ProvB (T : Tensors) (pre β : Bindings) : Prop :=
  ∃ Δ, β = pre ++ Δ ∧ ∀ p ∈ Δ,
    ((∃ n, p.2 = ShapeVariable.int n) ∧ p.1 ∈ specIntVars T) ∨
    ((∃ t, p.2 = ShapeVariable.tup t) ∧ p.1 ∈ specTupleVars T)

/-- The invariant carried by the fixed-point loop of `check_shapes`:
provenance of the accumulated bindings, and a check witness for every
already-checked entry. -/
def LoopInv (T : Tensors) (pre : Bindings) (msg : String)
    (st : SolverState) : Prop :=
  ProvB T pre st.bindings ∧
  ∀ e ∈ T, e.1 ∈ st.checked → ChkW msg e st.bindings

/-- Everything the rerun's first pass needs from an entry at the returned
bindings. -/
def EntryOk (msg : String) (e : String × (List (Option Int) × ShapeSpec))
    (B : Bindings) : Prop :=
  (∃ u, e.2.2.unknown_n_dims_indices B = .ok u ∧ ¬ u.length > 1) ∧
  (∀ msg2, _check_rank e.1 e.2.1 e.2.2 B msg2 = .ok ()) ∧
  _bind_shape e.2.1 e.2.2 B e.1 msg = .ok B ∧
  e.2.2.is_checkable B = .ok true ∧
  _check_shape e.2.1 e.2.2 B e.1 msg = .ok B

/-! ### Generic lemmas about the `Except` monad plumbing -/

@[simp]
theorem ok_bind {α β : Type} (a : α) (f : α → Except String β) :
    (Except.ok a >>= f) = f a := rfl

@[simp]
theorem error_bind {α β : Type} (e : String) (f : α → Except String β) :
    ((Except.error e : Except String α) >>= f) = .error e := rfl

@[simp]
theorem pure_eq_ok {α : Type} (a : α) :
    (pure a : Except String α) = .ok a := rfl

/-! ### C1 -/

/-- Splitting a bounded forall over the membership union of two lists. -/
theorem forall_mem_append_or {α : Type} {A B : List α} {P : α → Prop} :
    ((∀ x ∈ A, P x) ∧ (∀ x ∈ B, P x)) ↔ (∀ v, v ∈ A ∨ v ∈ B → P v) := by
  constructor
  · rintro ⟨h1, h2⟩ v (hv | hv)
    exacts [h1 v hv, h2 v hv]
  · intro h
    exact ⟨fun v hv => h v (Or.inl hv), fun v hv => h v (Or.inr hv)⟩

/-- C1 counterexample: a `DimSpec` holding the bare variable `i` with
broadcast tolerance enabled is not checkable under empty bindings, though
the claim predicts `is_checkable` is true for a bare variable with
broadcast tolerance enabled. -/
theorem C1_counterexample :
    (DimSpec.mk (some (.var "i")) .single true).value = some (.var "i") ∧
    (DimSpec.mk (some (.var "i")) .single true).can_broadcast = true ∧
    (DimSpec.mk (some (.var "i")) .single true).is_checkable [] = false :=
  ⟨rfl, rfl, rfl⟩

/-- C1 amended: `DimSpec.is_checkable(bindings)` returns true iff the
slot's value is a bare variable with broadcast tolerance DISABLED, or all
variables referenced by the slot's expression are present in the
bindings. -/
theorem C1_is_checkable (d : DimSpec) (vals : List String) :
    d.is_checkable vals = true ↔
      ((∃ x, d.value = some (Expr.var x)) ∧ d.can_broadcast = false) ∨
      (∀ v ∈ d.varList, v ∈ vals) := by
  obtain ⟨val, ty, bc⟩ := d
  cases val with
  | none =>
    simp [DimSpec.is_checkable, DimSpec.is_defined, DimSpec.varList]
  | some e =>
    cases bc <;> cases e <;>
      simp [DimSpec.is_checkable, DimSpec.is_defined, DimSpec.varList,
        Expr.is_defined, Expr.varList, List.all_eq_true,
        forall_mem_append_or]

/-- C1 witness: the amended characterization applied to the bare
non-broadcast variable slot `i` under empty bindings. -/
theorem C1_is_checkable_witness :
    (DimSpec.mk (some (.var "i")) .single false).is_checkable [] = true :=
  (C1_is_checkable (DimSpec.mk (some (.var "i")) .single false) []).mpr
    (Or.inl ⟨⟨"i", rfl⟩, rfl⟩)

/-! ### C2 -/

/-- C2: checking shapes (3,4) against "i j" and (3,7) against "i k"
succeeds with exactly i=3, j=4, k=7; replacing the second shape with (5,7)
fails with an error naming the decisive mismatch on variable i. -/
theorem C2_shared_variable :
    parse_shape_spec "i j" =
      .ok ⟨[DimSpec.create_variable "i", DimSpec.create_variable "j"]⟩ ∧
    parse_shape_spec "i k" =
      .ok ⟨[DimSpec.create_variable "i", DimSpec.create_variable "k"]⟩ ∧
    check_shapes_core
      [("arg0", ([some 3, some 4],
        ⟨[DimSpec.create_variable "i", DimSpec.create_variable "j"]⟩)),
       ("arg1", ([some 3, some 7],
        ⟨[DimSpec.create_variable "i", DimSpec.create_variable "k"]⟩))] [] =
      .ok [("i", .int 3), ("j", .int 4), ("k", .int 7)] ∧
    errMentions (check_shapes_core
      [("arg0", ([some 3, some 4],
        ⟨[DimSpec.create_variable "i", DimSpec.create_variable "j"]⟩)),
       ("arg1", ([some 5, some 7],
        ⟨[DimSpec.create_variable "i", DimSpec.create_variable "k"]⟩))] [])
      "expected i=3 got 5" = true :=
  ⟨by decide, by decide, by decide, by decide⟩

/-! ### C6 -/

/-- The positionwise broadcast loop succeeds on compatible aligned lists,
returning the non-1 value at each position. -/
theorem broadcastGo_ok_of_compat (xs : List Int) :
    ∀ (k : Nat) (ys : List Int),
    (∀ p ∈ xs.zip ys, p.1 = 1 ∨ p.2 = 1 ∨ p.1 = p.2) →
    BroadcastOp.broadcastGo k xs ys =
      .ok (List.zipWith (fun a b => if a = 1 then b else a) xs ys) := by
  induction xs with
  | nil => intro k ys h; cases ys <;> rfl
  | cons a as ih =>
    intro k ys h
    cases ys with
    | nil => rfl
    | cons b bs =>
      have hhead := h (a, b) (by simp)
      have htail : ∀ p ∈ as.zip bs, p.1 = 1 ∨ p.2 = 1 ∨ p.1 = p.2 := by
        intro p hp
        exact h p (by simp [hp])
      simp only [BroadcastOp.broadcastGo, List.zipWith]
      rw [ih (k + 1) bs htail]
      by_cases ha : a = 1
      · simp [ha]
      · by_cases hb : b = 1
        · simp [ha, hb]
        · have hab : a = b := by
            rcases hhead with h1 | h1 | h1
            exacts [absurd h1 ha, absurd h1 hb, h1]
          simp [ha, hb, hab]

/-- The positionwise broadcast loop fails at the first genuinely
incompatible position, naming its index and both values. -/
theorem broadcastGo_error_at (i : Nat) :
    ∀ (k : Nat) (xs ys : List Int) (hi : i < (xs.zip ys).length),
    (∀ j (hj : j < i), ((xs.zip ys).get ⟨j, Nat.lt_trans hj hi⟩).1 = 1 ∨
      ((xs.zip ys).get ⟨j, Nat.lt_trans hj hi⟩).2 = 1 ∨
      ((xs.zip ys).get ⟨j, Nat.lt_trans hj hi⟩).1 =
        ((xs.zip ys).get ⟨j, Nat.lt_trans hj hi⟩).2) →
    ((xs.zip ys).get ⟨i, hi⟩).1 ≠ 1 →
    ((xs.zip ys).get ⟨i, hi⟩).2 ≠ 1 →
    ((xs.zip ys).get ⟨i, hi⟩).1 ≠ ((xs.zip ys).get ⟨i, hi⟩).2 →
    BroadcastOp.broadcastGo k xs ys = .error ("Shape mismatch in dim " ++
      pyNat (k + i) ++ ": " ++ pyInt ((xs.zip ys).get ⟨i, hi⟩).1 ++ " vs " ++
      pyInt ((xs.zip ys).get ⟨i, hi⟩).2) := by
  induction i with
  | zero =>
    intro k xs ys hi hpre h1 h2 h3
    cases xs with
    | nil => simp at hi
    | cons a as =>
      cases ys with
      | nil => simp at hi
      | cons b bs =>
        simp only [List.zip_cons_cons, List.get] at h1 h2 h3 ⊢
        simp [BroadcastOp.broadcastGo, h1, h2, h3]
  | succ n ih =>
    intro k xs ys hi hpre h1 h2 h3
    cases xs with
    | nil => simp at hi
    | cons a as =>
      cases ys with
      | nil => simp at hi
      | cons b bs =>
        have hhead := hpre 0 (Nat.succ_pos n)
        simp only [List.zip_cons_cons, List.get] at hhead h1 h2 h3 ⊢
        have hi' : n < (as.zip bs).length := by
          simpa using Nat.lt_of_succ_lt_succ hi
        have hpre' : ∀ j (hj : j < n),
            ((as.zip bs).get ⟨j, Nat.lt_trans hj hi'⟩).1 = 1 ∨
            ((as.zip bs).get ⟨j, Nat.lt_trans hj hi'⟩).2 = 1 ∨
            ((as.zip bs).get ⟨j, Nat.lt_trans hj hi'⟩).1 =
              ((as.zip bs).get ⟨j, Nat.lt_trans hj hi'⟩).2 := by
          intro j hj
          have := hpre (j + 1) (Nat.succ_lt_succ hj)
          simpa using this
        have hrec := ih (k + 1) as bs hi' hpre' h1 h2 h3
        have harith : k + 1 + n = k + (n + 1) := by omega
        rw [harith] at hrec
        simp only [BroadcastOp.broadcastGo]
        rw [hrec]
        by_cases ha : a = 1
        · simp [ha]
        · by_cases hb : b = 1
          · simp [ha, hb]
          · have hab : a = b := by
              rcases hhead with hh | hh | hh
              exacts [absurd hh ha, absurd hh hb, hh]
            simp [ha, hb, hab]

/-- C6: the broadcast-union operator right-aligns its two int tuples by
padding the shorter with leading 1s; when every aligned position is
compatible (some side 1 or both equal) it yields positionwise the non-1
value, and at the first incompatible position (both non-1 and unequal) it
raises an error naming that index and both values. -/
theorem C6_broadcast_union (x y px py : List Int)
    (hpx : px = List.replicate (y.length - x.length) 1 ++ x)
    (hpy : py = List.replicate (x.length - y.length) 1 ++ y) :
    ((∀ p ∈ px.zip py, p.1 = 1 ∨ p.2 = 1 ∨ p.1 = p.2) →
      BroadcastOp.broadcast x y =
        .ok (List.zipWith (fun a b => if a = 1 then b else a) px py)) ∧
    (∀ i (hi : i < (px.zip py).length),
      (∀ j (hj : j < i), ((px.zip py).get ⟨j, Nat.lt_trans hj hi⟩).1 = 1 ∨
        ((px.zip py).get ⟨j, Nat.lt_trans hj hi⟩).2 = 1 ∨
        ((px.zip py).get ⟨j, Nat.lt_trans hj hi⟩).1 =
          ((px.zip py).get ⟨j, Nat.lt_trans hj hi⟩).2) →
      ((px.zip py).get ⟨i, hi⟩).1 ≠ 1 →
      ((px.zip py).get ⟨i, hi⟩).2 ≠ 1 →
      ((px.zip py).get ⟨i, hi⟩).1 ≠ ((px.zip py).get ⟨i, hi⟩).2 →
      BroadcastOp.broadcast x y = .error ("Shape mismatch in dim " ++
        pyNat i ++ ": " ++ pyInt ((px.zip py).get ⟨i, hi⟩).1 ++ " vs " ++
        pyInt ((px.zip py).get ⟨i, hi⟩).2)) := by
  subst hpx hpy
  constructor
  · intro h
    exact broadcastGo_ok_of_compat _ 0 _ h
  · intro i hi hpre h1 h2 h3
    simpa using broadcastGo_error_at i 0 _ _ hi hpre h1 h2 h3

/-- C6 witness: (2,3) broadcast (3,) yields (2,3); (2,) broadcast (3,)
fails naming dim 0 with values 2 and 3. -/
theorem C6_broadcast_union_witness :
    BroadcastOp.broadcast [2, 3] [3] = .ok [2, 3] ∧
    BroadcastOp.broadcast [2] [3] =
      .error "Shape mismatch in dim 0: 2 vs 3" := by
  constructor
  · have := (C6_broadcast_union [2, 3] [3] [2, 3] [1, 3] (by decide)
      (by decide)).1 (by decide)
    simpa using this
  · have := (C6_broadcast_union [2] [3] [2] [3] (by decide) (by decide)).2
      0 (by decide) (fun j hj => absurd hj (Nat.not_lt_zero j))
      (by decide) (by decide) (by decide)
    simpa using this

/-! ### Bindings dictionary lemmas (shared) -/

theorem lookupB_append_isSome {β : Bindings} {x : String}
    (h : (lookupB β x).isSome) (Δ : Bindings) :
    lookupB (β ++ Δ) x = lookupB β x := by
  induction β with
  | nil => exact Bool.noConfusion h
  | cons p rest ih =>
    by_cases hp : p.1 = x
    · simp [lookupB, hp]
    · simp only [lookupB, hp, if_false, List.cons_append] at h ⊢
      exact ih h

theorem lookupB_append_none {β : Bindings} {x : String}
    (h : lookupB β x = none) (Δ : Bindings) :
    lookupB (β ++ Δ) x = lookupB Δ x := by
  induction β with
  | nil => rfl
  | cons p rest ih =>
    by_cases hp : p.1 = x
    · simp [lookupB, hp] at h
    · simp only [lookupB, hp, if_false] at h
      simp only [List.cons_append, lookupB, hp, if_false]
      exact ih h

theorem lookupB_single_eq (x : String) (v : ShapeVariable) :
    lookupB [(x, v)] x = some v := by simp [lookupB]

theorem lookupB_single_ne {x y : String} (h : y ≠ x) (v : ShapeVariable) :
    lookupB [(x, v)] y = none := by
  have hxy : ¬(x = y) := fun hh => h hh.symm
  simp [lookupB, hxy]

/-! ### C4 -/

/-- A successful binding step returns the bindings unchanged, or appends
one binding read off a bare unbound non-broadcast variable slot's observed
slice. -/
theorem bindStep_cases {got : List (Option Int)} {name msg : String}
    {d : DimSpec} {a b : Nat} {β β1 : Bindings}
    (h : bindStep got name msg d a b β = .ok β1) :
    β1 = β ∨
    (∃ x v, d.value = some (Expr.var x) ∧ d.can_broadcast = false ∧
      lookupB β x = none ∧
      bindValueOf d.type ((sliceOpt got a b).filterMap id) = some v ∧
      β1 = β ++ [(x, v)]) := by
  obtain ⟨val, ty, bc⟩ := d
  cases val with
  | none =>
    simp only [bindStep] at h
    left; cases h; rfl
  | some e =>
    cases e with
    | var x =>
      simp only [bindStep] at h
      by_cases hx : (lookupB β x).isSome
      · rw [if_pos hx] at h
        left; cases h; rfl
      · have hxnone : lookupB β x = none :=
          Option.not_isSome_iff_eq_none.mp hx
        rw [if_neg hx] at h
        by_cases hnone : (sliceOpt got a b).contains none = true
        · rw [if_pos hnone] at h
          cases h
        · rw [if_neg hnone] at h
          have hset : ∀ v, setdefaultB β x v = β ++ [(x, v)] := by
            intro v
            simp [setdefaultB, hxnone]
          cases hbc : bc with
          | true =>
            rw [hbc] at h
            rw [if_pos rfl] at h
            left; cases h; rfl
          | false =>
            rw [hbc] at h
            simp only [Bool.false_eq_true, if_false] at h
            cases ty with
            | variadic =>
              simp only at h
              cases h
              right
              exact ⟨x, _, rfl, rfl, hxnone, rfl, hset _⟩
            | repeated =>
              simp only at h
              cases hgs : (sliceOpt got a b).filterMap id with
              | nil =>
                rw [hgs] at h
                simp only at h
                left; cases h; rfl
              | cons g0 tl =>
                rw [hgs] at h
                simp only at h
                cases h
                right
                exact ⟨x, _, rfl, rfl, hxnone,
                  by simp [bindValueOf, hgs], hset _⟩
            | single =>
              simp only at h
              cases hgs : (sliceOpt got a b).filterMap id with
              | nil =>
                rw [hgs] at h
                simp only at h
                cases h
              | cons g0 tl =>
                cases tl with
                | nil =>
                  rw [hgs] at h
                  simp only at h
                  cases h
                  right
                  exact ⟨x, _, rfl, rfl, hxnone,
                    by simp [bindValueOf, hgs], hset _⟩
                | cons g1 tl2 =>
                  rw [hgs] at h
                  simp only at h
                  cases h
    | lit n => simp only [bindStep] at h; left; cases h; rfl
    | add p q => simp only [bindStep] at h; left; cases h; rfl
    | sub p q => simp only [bindStep] at h; left; cases h; rfl
    | mul p q => simp only [bindStep] at h; left; cases h; rfl
    | concat p q => simp only [bindStep] at h; left; cases h; rfl
    | broadcast p q => simp only [bindStep] at h; left; cases h; rfl
    | data => simp only [bindStep] at h; left; cases h; rfl

/-- A successful binding step binds a bare unbound non-broadcast variable
slot whenever its mode admits a value from the slice. -/
theorem bindStep_binds {got : List (Option Int)} {name msg : String}
    {d : DimSpec} {a b : Nat} {β β1 : Bindings} {x : String}
    (h : bindStep got name msg d a b β = .ok β1)
    (hval : d.value = some (Expr.var x)) (hbc : d.can_broadcast = false)
    (hsome : (bindValueOf d.type ((sliceOpt got a b).filterMap id)).isSome) :
    (lookupB β1 x).isSome := by
  rcases bindStep_cases h with rfl | ⟨x0, v0, hval0, _, hx0none, hbind0, rfl⟩
  · -- no new binding: show x was already bound
    by_contra hx
    have hxnone : lookupB β1 x = none :=
      Option.not_isSome_iff_eq_none.mp hx
    -- with x unbound, a bindable slot cannot leave the bindings unchanged
    obtain ⟨valx, ty, bc⟩ := d
    obtain rfl : valx = some (Expr.var x) := hval
    have hbc2 : bc = false := hbc
    have hsome2 :
        (bindValueOf ty ((sliceOpt got a b).filterMap id)).isSome := hsome
    simp only [bindStep, hxnone, Option.isSome_none, Bool.false_eq_true,
      if_false] at h
    by_cases hnone : (sliceOpt got a b).contains none = true
    · rw [if_pos hnone] at h
      cases h
    · rw [if_neg hnone] at h
      rw [hbc2] at h
      simp only [Bool.false_eq_true, if_false] at h
      cases ty with
      | variadic =>
        simp only at h
        have hgrow := congrArg List.length (Except.ok.inj h)
        simp [setdefaultB, hxnone] at hgrow
      | repeated =>
        cases hgs : (sliceOpt got a b).filterMap id with
        | nil => rw [hgs] at hsome2; simp [bindValueOf] at hsome2
        | cons g0 tl =>
          rw [hgs] at h
          simp only at h
          have hgrow := congrArg List.length (Except.ok.inj h)
          simp [setdefaultB, hxnone] at hgrow
      | single =>
        cases hgs : (sliceOpt got a b).filterMap id with
        | nil => rw [hgs] at hsome2; simp [bindValueOf] at hsome2
        | cons g0 tl =>
          cases tl with
          | nil =>
            rw [hgs] at h
            simp only at h
            have hgrow := congrArg List.length (Except.ok.inj h)
            simp [setdefaultB, hxnone] at hgrow
          | cons g1 tl2 =>
            rw [hgs] at hsome2
            simp [bindValueOf] at hsome2
  · -- a binding (x0, v0) was appended; x0 must be x or x was bound before
    by_cases hxx : x0 = x
    · subst hxx
      rw [lookupB_append_none hx0none, lookupB_single_eq]
      rfl
    · by_cases hx : (lookupB β x).isSome
      · rwa [lookupB_append_isSome hx]
      · -- x unbound and the step bound some other variable x0:
        -- impossible since the slot's value is the variable x
        rw [hval] at hval0
        cases hval0
        exact absurd rfl hxx

/-- The binding loop only appends to the bindings dict. -/
theorem bindFold_extends (got : List (Option Int)) (name msg : String) :
    ∀ (m : List (DimSpec × Nat × Nat)) (β β' : Bindings),
    bindFold got name msg m β = .ok β' → ∃ Δ, β' = β ++ Δ := by
  intro m
  induction m with
  | nil =>
    intro β β' h
    simp only [bindFold] at h
    cases h
    exact ⟨[], by simp⟩
  | cons slot rest ih =>
    intro β β' h
    obtain ⟨d, a, b⟩ := slot
    simp only [bindFold] at h
    cases hstep : bindStep got name msg d a b β with
    | error e => rw [hstep] at h; cases h
    | ok β1 =>
      rw [hstep] at h
      simp only [ok_bind] at h
      rcases bindStep_cases hstep with rfl | ⟨x, v, _, _, _, _, rfl⟩
      · exact ih β1 β' h
      · rcases ih _ _ h with ⟨Δ1, rfl⟩
        exact ⟨[(x, v)] ++ Δ1, by simp⟩

/-- Already-present bindings are never overwritten by the binding loop. -/
theorem bindFold_preserves (got : List (Option Int)) (name msg : String)
    (m : List (DimSpec × Nat × Nat)) (β β' : Bindings)
    (h : bindFold got name msg m β = .ok β') (y : String)
    (hy : (lookupB β y).isSome) : lookupB β' y = lookupB β y := by
  rcases bindFold_extends got name msg m β β' h with ⟨Δ, rfl⟩
  exact lookupB_append_isSome hy Δ

/-- Every binding added by the binding loop comes from a bare unbound
non-broadcast variable slot, and holds that slot's observed-slice value. -/
theorem bindFold_new_key (got : List (Option Int)) (name msg : String) :
    ∀ (m : List (DimSpec × Nat × Nat)) (β β' : Bindings),
    bindFold got name msg m β = .ok β' →
    ∀ x v, lookupB β x = none → lookupB β' x = some v →
    ∃ d a b, (d, a, b) ∈ m ∧ d.value = some (Expr.var x) ∧
      d.can_broadcast = false ∧
      bindValueOf d.type ((sliceOpt got a b).filterMap id) = some v := by
  intro m
  induction m with
  | nil =>
    intro β β' h x v hx hxv
    simp only [bindFold] at h
    cases h
    rw [hx] at hxv
    cases hxv
  | cons slot rest ih =>
    intro β β' h x v hx hxv
    obtain ⟨d, a, b⟩ := slot
    simp only [bindFold] at h
    cases hstep : bindStep got name msg d a b β with
    | error e => rw [hstep] at h; cases h
    | ok β1 =>
      rw [hstep] at h
      simp only [ok_bind] at h
      rcases bindStep_cases hstep with rfl |
        ⟨x0, v0, hval0, hbc0, hx0, hbind0, rfl⟩
      · rcases ih β1 β' h x v hx hxv with ⟨d2, a2, b2, hmem, hr1, hr2, hr3⟩
        exact ⟨d2, a2, b2, List.mem_cons_of_mem _ hmem, hr1, hr2, hr3⟩
      · by_cases hxx : x0 = x
        · subst hxx
          have h1 : lookupB (β ++ [(x0, v0)]) x0 = some v0 := by
            rw [lookupB_append_none hx0, lookupB_single_eq]
          have h2 : lookupB β' x0 = some v0 := by
            rw [bindFold_preserves got name msg rest _ β' h x0
              (by simp [h1]), h1]
          rw [hxv] at h2
          cases h2
          exact ⟨d, a, b, List.mem_cons_self _ _, hval0, hbc0, hbind0⟩
        · have hxne : x ≠ x0 := fun he => hxx he.symm
          have hx1 : lookupB (β ++ [(x0, v0)]) x = none := by
            rw [lookupB_append_none hx, lookupB_single_ne hxne]
          rcases ih _ β' h x v hx1 hxv with ⟨d2, a2, b2, hmem, hr1, hr2, hr3⟩
          exact ⟨d2, a2, b2, List.mem_cons_of_mem _ hmem, hr1, hr2, hr3⟩

/-- Every bare non-broadcast variable slot whose mode admits a value from
its slice ends up bound after the binding loop. -/
theorem bindFold_mem_binds (got : List (Option Int)) (name msg : String) :
    ∀ (m : List (DimSpec × Nat × Nat)) (β β' : Bindings),
    bindFold got name msg m β = .ok β' →
    ∀ d a b x, (d, a, b) ∈ m → d.value = some (Expr.var x) →
    d.can_broadcast = false →
    (bindValueOf d.type ((sliceOpt got a b).filterMap id)).isSome →
    (lookupB β' x).isSome := by
  intro m
  induction m with
  | nil =>
    intro β β' h d a b x hmem
    simp at hmem
  | cons slot rest ih =>
    intro β β' h d a b x hmem hval hbc hsome
    obtain ⟨d0, a0, b0⟩ := slot
    simp only [bindFold] at h
    cases hstep : bindStep got name msg d0 a0 b0 β with
    | error e => rw [hstep] at h; cases h
    | ok β1 =>
      rw [hstep] at h
      simp only [ok_bind] at h
      rcases List.mem_cons.mp hmem with heq | hmem2
      · have hcomp : d = d0 ∧ a = a0 ∧ b = b0 := by
          simpa [Prod.ext_iff] using heq
        obtain ⟨rfl, rfl, rfl⟩ := hcomp
        have hb1 := bindStep_binds hstep hval hbc hsome
        rcases bindFold_extends got name msg rest β1 β' h with ⟨Δ, rfl⟩
        rw [lookupB_append_isSome hb1]
        exact hb1
      · exact ih β1 β' h d a b x hmem2 hval hbc hsome

/-- C4: during one `_bind_shape` call over the matched slots, (i) a
variable already bound — pre-bound or bound earlier — keeps its value,
(ii) every newly bound variable comes from a bare non-broadcast variable
slot and receives that slot's observed slice value (the slice tuple for
VARIADIC, its first element for REPEATED, its sole element for SINGLE, as
`bindValueOf` states), so broadcast-tolerant slots never bind, and (iii)
every bare unbound non-broadcast variable slot whose mode admits a value
does get bound. -/
theorem C4_bind_shape (got : List (Option Int)) (s : ShapeSpec)
    (β β' : Bindings) (name msg : String)
    (m : List (DimSpec × Nat × Nat))
    (hm : s.matched_indices β got.length = .ok m)
    (h : _bind_shape got s β name msg = .ok β') :
    (∀ y, (lookupB β y).isSome → lookupB β' y = lookupB β y) ∧
    (∀ x v, lookupB β x = none → lookupB β' x = some v →
      ∃ d a b, (d, a, b) ∈ m ∧ d.value = some (Expr.var x) ∧
        d.can_broadcast = false ∧
        bindValueOf d.type ((sliceOpt got a b).filterMap id) = some v) ∧
    (∀ d a b x, (d, a, b) ∈ m → d.value = some (Expr.var x) →
      d.can_broadcast = false →
      (bindValueOf d.type ((sliceOpt got a b).filterMap id)).isSome →
      (lookupB β' x).isSome) := by
  have hfold : bindFold got name msg m β = .ok β' := by
    simp only [_bind_shape, hm, ok_bind] at h
    exact h
  exact ⟨fun y hy => bindFold_preserves got name msg m β β' hfold y hy,
    fun x v hx hxv => bindFold_new_key got name msg m β β' hfold x v hx hxv,
    fun d a b x hmem hval hbc hsome =>
      bindFold_mem_binds got name msg m β β' hfold d a b x hmem hval hbc
        hsome⟩

/-- C4 witness: binding (3,4) against "i j" with `i` pre-bound to 9 keeps
`i = 9` (first-binding-wins) and binds `j` from the observation. -/
theorem C4_bind_shape_witness :
    lookupB [("i", ShapeVariable.int 9), ("j", ShapeVariable.int 4)] "i" =
      some (.int 9) ∧
    (lookupB [("i", ShapeVariable.int 9), ("j", ShapeVariable.int 4)]
      "j").isSome = true := by
  have h := C4_bind_shape [some 3, some 4]
    ⟨[DimSpec.create_variable "i", DimSpec.create_variable "j"]⟩
    [("i", .int 9)] [("i", .int 9), ("j", .int 4)] "arg0" ""
    [(DimSpec.create_variable "i", 0, 1),
     (DimSpec.create_variable "j", 1, 2)]
    (by decide) (by decide)
  constructor
  · rw [h.1 "i" (by decide)]
    decide
  · exact h.2.2 (DimSpec.create_variable "j") 1 2 "j" (by decide) rfl rfl
      (by decide)

/-! ### C5 -/

/-- A successful `nDimsList` has one entry per dim. -/
theorem nDimsList_ok_length (β : Bindings) :
    ∀ (l : List DimSpec) (r : List (Option Nat)),
    nDimsList β l = .ok r → r.length = l.length := by
  intro l
  induction l with
  | nil =>
    intro r h
    simp only [nDimsList] at h
    cases h
    rfl
  | cons d ds ih =>
    intro r h
    simp only [nDimsList] at h
    cases hfa : d.n_dims β with
    | error e => simp [hfa] at h
    | ok b =>
      simp only [hfa, ok_bind] at h
      cases hrest : nDimsList β ds with
      | error e => simp [hrest] at h
      | ok bs =>
        simp only [hrest, ok_bind] at h
        cases h
        simp [ih bs hrest]

/-- The allocation loop produces the contiguous allocation whose widths
are the known `n_dims`, with `slack` for the unknown ones, and whose final
index is the start plus the total width. -/
theorem allocGo_spec (slack : Nat) :
    ∀ (dims : List DimSpec) (nds : List (Option Nat)) (i : Nat),
    dims.length = nds.length →
    allocGo (dims.zip nds) i slack =
      (allocSpec dims (nds.map (fun w => w.getD slack)) i,
       i + (nds.map (fun w => w.getD slack)).sum) := by
  intro dims
  induction dims with
  | nil =>
    intro nds i hlen
    cases nds with
    | nil => simp [allocGo, allocSpec]
    | cons b bs => simp at hlen
  | cons d ds ih =>
    intro nds i hlen
    cases nds with
    | nil => simp at hlen
    | cons w ws =>
      simp only [List.length_cons, Nat.succ.injEq] at hlen
      cases w with
      | none =>
        have hrec := ih ws (i + slack) hlen
        simp only [List.zip] at hrec
        simp only [List.zip_cons_cons, List.zip, allocGo, hrec,
          List.map_cons, allocSpec, List.sum_cons, Option.getD_none,
          Nat.add_assoc]
      | some x =>
        have hrec := ih ws (i + x) hlen
        simp only [List.zip] at hrec
        simp only [List.zip_cons_cons, List.zip, allocGo, hrec,
          List.map_cons, allocSpec, List.sum_cons, Option.getD_some,
          Nat.add_assoc]

/-- Total allocated width: the known widths plus `slack` per unknown slot. -/
theorem widths_sum (slack : Nat) :
    ∀ (nds : List (Option Nat)) (k : Nat),
    (nds.map (fun w => w.getD slack)).sum =
      sumKnown nds + (noneIdxs nds k).length * slack := by
  intro nds
  induction nds with
  | nil => intro k; simp [sumKnown, noneIdxs]
  | cons w ws ih =>
    intro k
    cases w with
    | none => simp [sumKnown, noneIdxs, ih (k + 1)]; ring
    | some x => simp [sumKnown, noneIdxs, ih (k + 1)]; ring

/-- C5: `matched_indices` allocates the observed dimensions across the
DimSpecs in order — each known-width slot receives exactly its width, the
single unknown-width slot (if any) receives `observed_rank - min_rank` —
and fails when `min_rank` exceeds the observed rank, when more than one
slot has unknown width, or when the allocated total differs from the
observed rank. Stated relative to the per-slot width computations
succeeding with `nds` (their exceptions propagate first). -/
theorem C5_matched_indices (s : ShapeSpec) (β : Bindings) (n : Nat)
    (nds : List (Option Nat))
    (hnds : nDimsList β s.dims = .ok nds) :
    (sumKnown nds > n →
      s.matched_indices β n = .error ("Expected rank at least " ++
        pyNat (sumKnown nds) ++ ", got " ++ pyNat n)) ∧
    (sumKnown nds ≤ n → (noneIdxs nds 0).length > 1 →
      s.matched_indices β n = .error ("Cannot determine matched indices: " ++
        "multiple DimSpec with unknown n_dims " ++ pyNatList (noneIdxs nds 0))) ∧
    (sumKnown nds ≤ n → (noneIdxs nds 0).length = 1 →
      s.matched_indices β n = .ok (allocSpec s.dims
        (nds.map (fun w => w.getD (n - sumKnown nds))) 0) ∧
      (nds.map (fun w => w.getD (n - sumKnown nds))).sum = n) ∧
    ((noneIdxs nds 0).length = 0 → sumKnown nds = n →
      s.matched_indices β n = .ok (allocSpec s.dims
        (nds.map (fun w => w.getD (n - sumKnown nds))) 0) ∧
      (nds.map (fun w => w.getD (n - sumKnown nds))).sum = n) ∧
    ((noneIdxs nds 0).length = 0 → sumKnown nds < n →
      s.matched_indices β n = .error ("Expected rank " ++
        pyNat (sumKnown nds) ++ ", got " ++ pyNat n)) := by
  have hlen : s.dims.length = nds.length :=
    (nDimsList_ok_length _ _ _ hnds).symm
  have halloc := allocGo_spec (n - sumKnown nds) s.dims nds 0 hlen
  have hsum := widths_sum (n - sumKnown nds) nds 0
  simp only [ShapeSpec.matched_indices, hnds, ok_bind]
  refine ⟨?_, ?_, ?_, ?_, ?_⟩
  · intro hgt
    simp [hgt]
  · intro hle hmany
    rw [if_neg (by omega)]
    simp only [gt_iff_lt]
    rw [if_pos (by omega)]
  · intro hle hone
    have hfin : (nds.map (fun w => w.getD (n - sumKnown nds))).sum = n := by
      rw [hsum, hone]; omega
    refine ⟨?_, hfin⟩
    rw [if_neg (by omega)]
    simp only [gt_iff_lt]
    rw [if_neg (by omega)]
    rw [halloc]
    simp [hfin]
  · intro hzero heq
    have hfin : (nds.map (fun w => w.getD (n - sumKnown nds))).sum = n := by
      rw [hsum, hzero]; omega
    refine ⟨?_, hfin⟩
    rw [if_neg (by omega)]
    simp only [gt_iff_lt]
    rw [if_neg (by omega)]
    rw [halloc]
    simp [hfin]
  · intro hzero hlt
    have hfin : (nds.map (fun w => w.getD (n - sumKnown nds))).sum =
        sumKnown nds := by
      rw [hsum, hzero]; omega
    rw [if_neg (by omega)]
    simp only [gt_iff_lt]
    rw [if_neg (by omega)]
    rw [halloc]
    simp only [Nat.zero_add, hfin]
    rw [if_pos (by omega)]

/-- C5 witness: the allocation of rank 4 across "i *j k" with j bound to
(4, 5): the variadic slot owns [1, 3), the singles own [0, 1) and [3, 4). -/
theorem C5_matched_indices_witness :
    ShapeSpec.matched_indices
      ⟨[DimSpec.create_variable "i",
        (DimSpec.create_variable "j").make_variadic,
        DimSpec.create_variable "k"]⟩ [("j", .tup [4, 5])] 4 =
      .ok [(DimSpec.create_variable "i", 0, 1),
           ((DimSpec.create_variable "j").make_variadic, 1, 3),
           (DimSpec.create_variable "k", 3, 4)] := by
  have h := (C5_matched_indices
    ⟨[DimSpec.create_variable "i",
      (DimSpec.create_variable "j").make_variadic,
      DimSpec.create_variable "k"]⟩ [("j", .tup [4, 5])] 4
    [some 1, some 2, some 1] (by decide)).2.2.2.1 (by decide) (by decide)
  rw [h.1]
  decide

/-! ### C7 -/

/-- Membership in `sortedInsert`. -/
theorem mem_sortedInsert (x y : String) (l : List String) :
    y ∈ sortedInsert x l ↔ y = x ∨ y ∈ l := by
  induction l with
  | nil => simp [sortedInsert]
  | cons a as ih =>
    by_cases h1 : x = a
    · subst h1
      simp only [sortedInsert, if_pos rfl]
      constructor
      · intro h; exact Or.inr h
      · rintro (rfl | h)
        · exact List.mem_cons_self _ _
        · exact h
    · by_cases h2 : x < a <;>
        · simp [sortedInsert, h1, h2, ih]
          try tauto

/-- `sortDedup` preserves membership. -/
theorem mem_sortDedup (y : String) (l : List String) :
    y ∈ sortDedup l ↔ y ∈ l := by
  induction l with
  | nil => simp [sortDedup]
  | cons a as ih => simp [sortDedup, mem_sortedInsert, ih]

/-- Permuting the entries permutes no membership in a flattened map. -/
theorem mem_flatten_map_of_perm {α : Type} (f : α → List String)
    {T T' : List α} (hperm : T.Perm T') (x : String)
    (h : x ∈ (T.map f).flatten) : x ∈ (T'.map f).flatten := by
  rw [List.mem_flatten] at h ⊢
  rcases h with ⟨l, hl, hx⟩
  rcases List.mem_map.mp hl with ⟨e, he, rfl⟩
  exact ⟨f e, List.mem_map.mpr ⟨e, hperm.mem_iff.mp he, rfl⟩, hx⟩

/-- C7: when a variable is classified both int-kind and tuple-kind (by the
pre-bindings and the VARIADIC vs non-VARIADIC dims across all entries),
`check_shapes_core` fails with the variable-kind-conflict error — in any
supplied entry order, and independent of the shapes themselves: the
conflict is detected by `_check_variable_types` before any rank check,
binding, or value check runs. -/
theorem C7_variable_kind_conflict (T T' : Tensors) (β : Bindings)
    (x : String) (hperm : T.Perm T')
    (hint : x ∈ intVarsList T β) (htup : x ∈ tupleVarsList T β) :
    check_shapes_core T' β =
      .error (varKindErrorMsg (varKindConflicts T' β)) ∧
    x ∈ varKindConflicts T' β := by
  have hint' : x ∈ intVarsList T' β := by
    rcases List.mem_append.mp hint with h | h
    · exact List.mem_append.mpr (Or.inl h)
    · exact List.mem_append.mpr
        (Or.inr (mem_flatten_map_of_perm _ hperm x h))
  have htup' : x ∈ tupleVarsList T' β := by
    rcases List.mem_append.mp htup with h | h
    · exact List.mem_append.mpr (Or.inl h)
    · exact List.mem_append.mpr
        (Or.inr (mem_flatten_map_of_perm _ hperm x h))
  have hconf : x ∈ varKindConflicts T' β := by
    rw [varKindConflicts, mem_sortDedup]
    refine List.mem_filter.mpr ⟨hint', ?_⟩
    simpa using htup'
  have hne : (varKindConflicts T' β).isEmpty = false := by
    cases hs : varKindConflicts T' β with
    | nil => rw [hs] at hconf; simp at hconf
    | cons a as => rfl
  refine ⟨?_, hconf⟩
  simp [check_shapes_core, _check_variable_types, hne]

/-- C7 witness: "*i" in one entry and "i j" in another conflict on `i`, in
the order opposite to the one the conflict was stated for. -/
theorem C7_variable_kind_conflict_witness :
    check_shapes_core
      [("arg1", ([some 3, some 4],
        ⟨[DimSpec.create_variable "i", DimSpec.create_variable "j"]⟩)),
       ("arg0", ([some 2, some 1],
        ⟨[(DimSpec.create_variable "i").make_variadic]⟩))] [] =
      .error "Found variables in both variadic and non-variadic expressions: i" := by
  have h := C7_variable_kind_conflict
    [("arg0", ([some 2, some 1],
      ⟨[(DimSpec.create_variable "i").make_variadic]⟩)),
     ("arg1", ([some 3, some 4],
      ⟨[DimSpec.create_variable "i", DimSpec.create_variable "j"]⟩))]
    [("arg1", ([some 3, some 4],
      ⟨[DimSpec.create_variable "i", DimSpec.create_variable "j"]⟩)),
     ("arg0", ([some 2, some 1],
      ⟨[(DimSpec.create_variable "i").make_variadic]⟩))]
    [] "i" (List.Perm.swap _ _ _) (by decide) (by decide)
  rw [h.1]
  decide

/-! ### C8: character class lemmas -/

/-- Letters are not digits. -/
theorem alpha_not_digit {c : Char} (h : c.isAlpha = true) :
    c.isDigit = false := by
  cases hd : c.isDigit with
  | false => rfl
  | true =>
    exfalso
    simp only [Char.isDigit, Bool.and_eq_true, decide_eq_true_eq] at hd
    obtain ⟨hd1, hd2⟩ := hd
    simp only [Char.isAlpha, Char.isUpper, Char.isLower, Bool.or_eq_true,
      Bool.and_eq_true, decide_eq_true_eq] at h
    rcases h with ⟨h1, h2⟩ | ⟨h1, h2⟩ <;>
    · simp only [ge_iff_le, UInt32.le_def, BitVec.le_def] at hd1 hd2 h1 h2
      norm_num at hd1 hd2 h1 h2
      omega

/-- A name-start character is not a digit. -/
theorem nameStart_not_digit {c : Char} (h : isNameStart c = true) :
    c.isDigit = false := by
  by_cases ha : c.isAlpha = true
  · exact alpha_not_digit ha
  · have ha2 : c.isAlpha = false := by
      cases hh : c.isAlpha
      · rfl
      · exact absurd hh ha
    have he : c = '_' := by
      simp only [isNameStart, ha2, Bool.false_or] at h
      simpa using h
    subst he
    decide

/-- A name-start character is a name character. -/
theorem nameStart_isNameChar {c : Char} (h : isNameStart c = true) :
    isNameChar c = true := by
  by_cases ha : c.isAlpha = true
  · simp [isNameChar, Char.isAlphanum, ha]
  · have ha2 : c.isAlpha = false := by
      cases hh : c.isAlpha
      · rfl
      · exact absurd hh ha
    have he : c = '_' := by
      simp only [isNameStart, ha2, Bool.false_or] at h
      simpa using h
    simp [isNameChar, he]

/-- A digit is a name character. -/
theorem digit_isNameChar {c : Char} (h : c.isDigit = true) :
    isNameChar c = true := by
  simp [isNameChar, Char.isAlphanum, h]

/-- `takeWhile`/`dropWhile` cut a concatenation exactly at the boundary
when all of the prefix satisfies the predicate and the suffix's head does
not. -/
theorem takeWhile_append_all (p : Char → Bool) :
    ∀ (l rest : List Char), (∀ c ∈ l, p c = true) →
    (∀ c, rest.head? = some c → p c = false) →
    (l ++ rest).takeWhile p = l ∧ (l ++ rest).dropWhile p = rest := by
  intro l
  induction l with
  | nil =>
    intro rest hall hrest
    cases rest with
    | nil => simp
    | cons c cs =>
      simp [List.takeWhile_cons, List.dropWhile_cons, hrest c rfl]
  | cons a l2 ih =>
    intro rest hall hrest
    have hpa : p a = true := hall a (by simp)
    have hih := ih rest (fun c hc => hall c (by simp [hc])) hrest
    simp [List.takeWhile_cons, List.dropWhile_cons, hpa, hih.1, hih.2]

/-! ### C8: decimal digit codec lemmas -/

/-- Every character emitted by `natDigitsAux` is a digit. -/
theorem natDigitsAux_digits :
    ∀ (fuel n : Nat), ∀ c ∈ natDigitsAux fuel n, c.isDigit = true := by
  intro fuel
  induction fuel with
  | zero => intro n c hc; simp [natDigitsAux] at hc
  | succ f ih =>
    intro n c hc
    simp only [natDigitsAux] at hc
    by_cases h : n < 10
    · rw [if_pos h] at hc
      simp only [List.mem_singleton] at hc
      subst hc
      interval_cases n <;> decide
    · rw [if_neg h] at hc
      rcases List.mem_append.mp hc with h1 | h1
      · exact ih _ c h1
      · simp only [List.mem_singleton] at h1
        subst h1
        have hm : n % 10 < 10 := Nat.mod_lt _ (by norm_num)
        set m := n % 10 with hmm
        interval_cases m <;> decide

/-- `natDigitsAux` never returns the empty list for positive fuel. -/
theorem natDigitsAux_ne_nil (f n : Nat) : natDigitsAux (f + 1) n ≠ [] := by
  simp only [natDigitsAux]
  by_cases h : n < 10 <;> simp [h]

/-- Decoding one digit character. -/
theorem digit_decode {d : Nat} (hd : d < 10) :
    (Char.ofNat (d + 48)).toNat - 48 = d := by
  interval_cases d <;> decide

/-- Folding the decimal decoder over `natDigitsAux` recovers the number. -/
theorem natDigitsAux_decode :
    ∀ (fuel n : Nat), n < 10 ^ fuel → ∀ acc,
    List.foldl (fun a c => a * 10 + (c.toNat - 48)) acc
      (natDigitsAux fuel n) =
      acc * 10 ^ (natDigitsAux fuel n).length + n := by
  intro fuel
  induction fuel with
  | zero =>
    intro n hn acc
    interval_cases n
    simp [natDigitsAux]
  | succ f ih =>
    intro n hn acc
    simp only [natDigitsAux]
    by_cases h : n < 10
    · rw [if_pos h]
      simp [digit_decode h]
    · rw [if_neg h]
      have hdiv : n / 10 < 10 ^ f := by
        rw [Nat.div_lt_iff_lt_mul (by norm_num)]
        calc n < 10 ^ (f + 1) := hn
        _ = 10 ^ f * 10 := by ring
      rw [List.foldl_append, ih (n / 10) hdiv acc]
      have hmod : n % 10 < 10 := Nat.mod_lt _ (by norm_num)
      simp only [List.foldl_cons, List.foldl_nil, List.length_append,
        List.length_cons, List.length_nil, digit_decode hmod]
      rw [pow_succ, ← mul_assoc, add_mul]
      omega

/-- Every character of `natDigitsChars` is a digit. -/
theorem natDigitsChars_digits (n : Nat) :
    ∀ c ∈ natDigitsChars n, c.isDigit = true :=
  natDigitsAux_digits (n + 1) n

/-- `natDigitsChars` is never empty. -/
theorem natDigitsChars_ne_nil (n : Nat) : natDigitsChars n ≠ [] :=
  natDigitsAux_ne_nil n n

/-- Decoding `natDigitsChars` recovers the number. -/
theorem natDigitsChars_decode (n : Nat) :
    digitsToNat (natDigitsChars n) = n := by
  have hlt : n < 10 ^ (n + 1) :=
    Nat.lt_of_lt_of_le (Nat.lt_pow_self (by norm_num) n)
      (Nat.pow_le_pow_right (by norm_num) (Nat.le_succ n))
  have h := natDigitsAux_decode (n + 1) n hlt 0
  simpa [digitsToNat, natDigitsChars] using h

/-! ### C8: expression string-form lemmas -/

/-- `String.mk` undoes `String.data`. -/
theorem stringMk_data (x : String) : String.mk x.data = x := rfl

/-- Unpacking a valid variable name. -/
theorem validName_spec {x : String} (h : validName x = true) :
    ∃ c t, x.data = c :: t ∧ isNameStart c = true ∧
      (∀ d ∈ t, isNameChar d = true) ∧ x ≠ "_" := by
  simp only [validName, Bool.and_eq_true, decide_eq_true_eq] at h
  obtain ⟨h1, h2⟩ := h
  rcases hd : x.data with _ | ⟨c, t⟩
  · rw [hd] at h1
    cases h1
  · rw [hd] at h1
    simp only [Bool.and_eq_true, List.all_eq_true] at h1
    exact ⟨c, t, rfl, h1.1, fun d hdm => h1.2 d hdm, h2⟩

/-- The string form of a valid expression starts with a digit, a name
start, or an opening paren. -/
theorem toChars_head_class (e : Expr) (hv : Expr.validSrc e = true) :
    ∃ c t, e.toChars = c :: t ∧
      (c.isDigit = true ∨ isNameStart c = true ∨ c = '(') := by
  cases e with
  | lit n =>
    have hnn : ¬ n < 0 := by
      simp only [Expr.validSrc, decide_eq_true_eq] at hv
      omega
    have hpy : Expr.toChars (.lit n) = natDigitsChars n.natAbs := by
      simp [Expr.toChars, pyInt, hnn, pyNat]
    rcases hne : natDigitsChars n.natAbs with _ | ⟨c, t⟩
    · exact absurd hne (natDigitsChars_ne_nil _)
    · exact ⟨c, t, by rw [hpy, hne],
        Or.inl (natDigitsChars_digits _ c (by rw [hne]; simp))⟩
  | var x =>
    have hvn : validName x = true := by simpa [Expr.validSrc] using hv
    rcases validName_spec hvn with ⟨c, t, hdx, hstart, _, _⟩
    exact ⟨c, t, by simp [Expr.toChars, hdx], Or.inr (Or.inl hstart)⟩
  | data => simp [Expr.validSrc] at hv
  | add a b =>
    exact ⟨'(', a.toChars ++ '+' :: (b.toChars ++ [')']), rfl,
      Or.inr (Or.inr rfl)⟩
  | sub a b =>
    exact ⟨'(', a.toChars ++ '-' :: (b.toChars ++ [')']), rfl,
      Or.inr (Or.inr rfl)⟩
  | mul a b =>
    exact ⟨'(', a.toChars ++ '*' :: (b.toChars ++ [')']), rfl,
      Or.inr (Or.inr rfl)⟩
  | concat a b =>
    exact ⟨'(', a.toChars ++ '|' :: '|' :: (b.toChars ++ [')']), rfl,
      Or.inr (Or.inr rfl)⟩
  | broadcast a b =>
    exact ⟨'(', a.toChars ++ '^' :: (b.toChars ++ [')']), rfl,
      Or.inr (Or.inr rfl)⟩

/-- Expression-head characters are not spaces. -/
theorem class_ne_space {c : Char}
    (h : c.isDigit = true ∨ isNameStart c = true ∨ c = '(') : c ≠ ' ' := by
  rintro rfl
  rcases h with h | h | h
  · exact absurd h (by decide)
  · exact absurd h (by decide)
  · exact absurd h (by decide)

/-- `skipSpaces` does nothing when the input does not start with a
space. -/
theorem skipSpaces_noop {cs : List Char}
    (h : ∀ c, cs.head? = some c → c ≠ ' ') : skipSpaces cs = cs := by
  cases cs with
  | nil => rfl
  | cons c l =>
    have hc := h c rfl
    simp [skipSpaces, List.dropWhile_cons, hc]

/-- `skipSpaces` does nothing in front of a valid expression. -/
theorem skipSpaces_toChars (e : Expr) (hv : Expr.validSrc e = true)
    (rest : List Char) :
    skipSpaces (e.toChars ++ rest) = e.toChars ++ rest := by
  rcases toChars_head_class e hv with ⟨c, t, hct, hcls⟩
  rw [hct]
  exact skipSpaces_noop (by
    intro d hdm
    simp only [List.cons_append, List.head?] at hdm
    cases hdm
    exact class_ne_space hcls)

/-- A `nextNotName` suffix never starts with a digit. -/
theorem follower_not_digit {rest : List Char}
    (h : nextNotName rest = true) :
    ∀ d, rest.head? = some d → d.isDigit = false := by
  intro d hdm
  cases rest with
  | nil => cases hdm
  | cons r rs =>
    cases hdm
    simp only [nextNotName, Bool.not_eq_true'] at h
    cases hdig : d.isDigit
    · rfl
    · rw [digit_isNameChar hdig] at h
      cases h

/-- A `nextNotName` suffix never starts with a name character. -/
theorem follower_not_nameChar {rest : List Char}
    (h : nextNotName rest = true) :
    ∀ d, rest.head? = some d → isNameChar d = false := by
  intro d hdm
  cases rest with
  | nil => cases hdm
  | cons r rs =>
    cases hdm
    simpa only [nextNotName, Bool.not_eq_true'] using h

/-- Parsing the string form of a valid `value_expr` with any sufficient
fuel consumes exactly it and returns the expression. -/
theorem parseValueExpr_roundtrip :
    ∀ (e : Expr) (fuel : Nat) (rest : List Char),
    Expr.validSrc e = true → Expr.depth e < fuel →
    nextNotName rest = true →
    parseValueExpr fuel (e.toChars ++ rest) = .ok (e, rest) := by
  intro e
  induction e with
  | lit n =>
    intro fuel rest hv hd hrest
    cases fuel with
    | zero => omega
    | succ f =>
      have hnn : ¬ n < 0 := by
        simp only [Expr.validSrc, decide_eq_true_eq] at hv
        omega
      have hpy : Expr.toChars (.lit n) = natDigitsChars n.natAbs := by
        simp [Expr.toChars, pyInt, hnn, pyNat]
      rcases hne : natDigitsChars n.natAbs with _ | ⟨c, t⟩
      · exact absurd hne (natDigitsChars_ne_nil _)
      have hcd : c.isDigit = true :=
        natDigitsChars_digits _ c (by rw [hne]; simp)
      have hall : ∀ d ∈ (c :: t), d.isDigit = true := by
        intro d hdm
        exact natDigitsChars_digits _ d (by rw [hne]; exact hdm)
      have htake := takeWhile_append_all Char.isDigit (c :: t) rest hall
        (follower_not_digit hrest)
      rw [hpy, hne]
      simp only [List.cons_append, parseValueExpr]
      rw [if_pos hcd]
      simp only [← List.cons_append, htake.1, htake.2]
      rw [← hne, natDigitsChars_decode]
      have : Int.ofNat n.natAbs = n := Int.natAbs_of_nonneg (by omega)
      rw [this]
  | var x =>
    intro fuel rest hv hd hrest
    cases fuel with
    | zero => omega
    | succ f =>
      have hvn : validName x = true := by simpa [Expr.validSrc] using hv
      rcases validName_spec hvn with ⟨c, t, hdx, hstart, htall, hne⟩
      have hchars : Expr.toChars (.var x) = c :: t := by
        simp [Expr.toChars, hdx]
      have hcd : c.isDigit = false := nameStart_not_digit hstart
      have hall : ∀ d ∈ (c :: t), isNameChar d = true := by
        intro d hdm
        rcases List.mem_cons.mp hdm with rfl | hdm2
        · exact nameStart_isNameChar hstart
        · exact htall d hdm2
      have htake := takeWhile_append_all isNameChar (c :: t) rest hall
        (follower_not_nameChar hrest)
      have hnu : ¬ ((c :: t : List Char) = ['_']) := by
        intro he2
        apply hne
        have hxd : x.data = ['_'] := by rw [hdx, he2]
        rw [← stringMk_data x, hxd]
      rw [hchars]
      simp only [List.cons_append, parseValueExpr]
      rw [if_neg (by simp [hcd])]
      rw [if_pos hstart]
      simp only [← List.cons_append, htake.1, htake.2]
      rw [if_neg hnu]
      rw [← hdx]
  | data =>
    intro fuel rest hv
    simp [Expr.validSrc] at hv
  | add a b iha ihb =>
    intro fuel rest hv hd hrest
    cases fuel with
    | zero => omega
    | succ f =>
      simp only [Expr.validSrc, Bool.and_eq_true] at hv
      simp only [Expr.depth] at hd
      have hchars : Expr.toChars (.add a b) ++ rest =
          '(' :: (a.toChars ++ ('+' :: (b.toChars ++ (')' :: rest)))) := by
        simp [Expr.toChars]
      rw [hchars]
      simp only [parseValueExpr]
      rw [if_neg (by decide), if_neg (by decide)]
      simp only [if_true]
      rw [skipSpaces_toChars a hv.1]
      rw [iha f _ hv.1 (by omega) (by simp only [nextNotName]; decide)]
      simp only [ok_bind]
      rw [skipSpaces_noop (by intro d hdm; cases hdm; decide)]
      simp only [mathOp]
      rw [skipSpaces_toChars b hv.2]
      rw [ihb f _ hv.2 (by omega) (by simp only [nextNotName]; decide)]
      simp only [ok_bind]
      rw [skipSpaces_noop (by intro d hdm; cases hdm; decide)]
      rfl
  | sub a b iha ihb =>
    intro fuel rest hv hd hrest
    cases fuel with
    | zero => omega
    | succ f =>
      simp only [Expr.validSrc, Bool.and_eq_true] at hv
      simp only [Expr.depth] at hd
      have hchars : Expr.toChars (.sub a b) ++ rest =
          '(' :: (a.toChars ++ ('-' :: (b.toChars ++ (')' :: rest)))) := by
        simp [Expr.toChars]
      rw [hchars]
      simp only [parseValueExpr]
      rw [if_neg (by decide), if_neg (by decide)]
      simp only [if_true]
      rw [skipSpaces_toChars a hv.1]
      rw [iha f _ hv.1 (by omega) (by simp only [nextNotName]; decide)]
      simp only [ok_bind]
      rw [skipSpaces_noop (by intro d hdm; cases hdm; decide)]
      simp only [mathOp]
      rw [skipSpaces_toChars b hv.2]
      rw [ihb f _ hv.2 (by omega) (by simp only [nextNotName]; decide)]
      simp only [ok_bind]
      rw [skipSpaces_noop (by intro d hdm; cases hdm; decide)]
      rfl
  | mul a b iha ihb =>
    intro fuel rest hv hd hrest
    cases fuel with
    | zero => omega
    | succ f =>
      simp only [Expr.validSrc, Bool.and_eq_true] at hv
      simp only [Expr.depth] at hd
      have hchars : Expr.toChars (.mul a b) ++ rest =
          '(' :: (a.toChars ++ ('*' :: (b.toChars ++ (')' :: rest)))) := by
        simp [Expr.toChars]
      rw [hchars]
      simp only [parseValueExpr]
      rw [if_neg (by decide), if_neg (by decide)]
      simp only [if_true]
      rw [skipSpaces_toChars a hv.1]
      rw [iha f _ hv.1 (by omega) (by simp only [nextNotName]; decide)]
      simp only [ok_bind]
      rw [skipSpaces_noop (by intro d hdm; cases hdm; decide)]
      simp only [mathOp]
      rw [skipSpaces_toChars b hv.2]
      rw [ihb f _ hv.2 (by omega) (by simp only [nextNotName]; decide)]
      simp only [ok_bind]
      rw [skipSpaces_noop (by intro d hdm; cases hdm; decide)]
      rfl
  | concat a b iha ihb =>
    intro fuel rest hv hd hrest
    cases fuel with
    | zero => omega
    | succ f =>
      simp only [Expr.validSrc, Bool.and_eq_true] at hv
      simp only [Expr.depth] at hd
      have hchars : Expr.toChars (.concat a b) ++ rest =
          '(' :: (a.toChars ++
            ('|' :: '|' :: (b.toChars ++ (')' :: rest)))) := by
        simp [Expr.toChars]
      rw [hchars]
      simp only [parseValueExpr]
      rw [if_neg (by decide), if_neg (by decide)]
      simp only [if_true]
      rw [skipSpaces_toChars a hv.1]
      rw [iha f _ hv.1 (by omega) (by simp only [nextNotName]; decide)]
      simp only [ok_bind]
      rw [skipSpaces_noop (by intro d hdm; cases hdm; decide)]
      simp only [mathOp]
      rw [skipSpaces_toChars b hv.2]
      rw [ihb f _ hv.2 (by omega) (by simp only [nextNotName]; decide)]
      simp only [ok_bind]
      rw [skipSpaces_noop (by intro d hdm; cases hdm; decide)]
      rfl
  | broadcast a b iha ihb =>
    intro fuel rest hv hd hrest
    cases fuel with
    | zero => omega
    | succ f =>
      simp only [Expr.validSrc, Bool.and_eq_true] at hv
      simp only [Expr.depth] at hd
      have hchars : Expr.toChars (.broadcast a b) ++ rest =
          '(' :: (a.toChars ++ ('^' :: (b.toChars ++ (')' :: rest)))) := by
        simp [Expr.toChars]
      rw [hchars]
      simp only [parseValueExpr]
      rw [if_neg (by decide), if_neg (by decide)]
      simp only [if_true]
      rw [skipSpaces_toChars a hv.1]
      rw [iha f _ hv.1 (by omega) (by simp only [nextNotName]; decide)]
      simp only [ok_bind]
      rw [skipSpaces_noop (by intro d hdm; cases hdm; decide)]
      simp only [mathOp]
      rw [skipSpaces_toChars b hv.2]
      rw [ihb f _ hv.2 (by omega) (by simp only [nextNotName]; decide)]
      simp only [ok_bind]
      rw [skipSpaces_noop (by intro d hdm; cases hdm; decide)]
      rfl

/-! ### C8: dim-level round trip -/

/-- A dim's string form is its core plus the broadcast suffix. -/
theorem toChars_split (d : DimSpec) :
    d.toChars = dimCore d ++ (if d.can_broadcast then ['!'] else []) := by
  obtain ⟨v, ty, bc⟩ := d
  cases ty <;> cases bc <;> cases v <;>
    simp [DimSpec.toChars, dimCore, dimBase]

/-- Validity of a dim value (the dim-level `validSrc` unfolded). -/
theorem dimVal_valid {v : Option Expr} {ty : DimType} {bc : Bool}
    (h : DimSpec.validSrc ⟨v, ty, bc⟩ = true) :
    ∀ e, v = some e → Expr.validSrc e = true := by
  intro e he
  subst he
  simpa [DimSpec.validSrc] using h

/-- The base of a valid dim value starts with a character that is not one
of the structural tokens. -/
theorem dimBase_head (v : Option Expr)
    (hv : ∀ e, v = some e → Expr.validSrc e = true) :
    ∃ c t, dimBase v = c :: t ∧ c ≠ '.' ∧ c ≠ '*' ∧ c ≠ ' ' ∧ c ≠ '$' := by
  cases v with
  | none => exact ⟨'_', [], rfl, by decide, by decide, by decide, by decide⟩
  | some e =>
    rcases toChars_head_class e (hv e rfl) with ⟨c, t, hct, hcls⟩
    refine ⟨c, t, by simp [dimBase, hct], ?_, ?_, class_ne_space hcls, ?_⟩
    · rintro rfl
      rcases hcls with h | h | h
      · exact absurd h (by decide)
      · exact absurd h (by decide)
      · exact absurd h (by decide)
    · rintro rfl
      rcases hcls with h | h | h
      · exact absurd h (by decide)
      · exact absurd h (by decide)
      · exact absurd h (by decide)
    · rintro rfl
      rcases hcls with h | h | h
      · exact absurd h (by decide)
      · exact absurd h (by decide)
      · exact absurd h (by decide)

/-- The wildcard test of `parseExprU` is false on a valid expression. -/
theorem parseExprU_cond_false (e : Expr) (hv : Expr.validSrc e = true)
    (rest : List Char) :
    (decide ((e.toChars ++ rest).head? = some '_') &&
      nextNotName (e.toChars ++ rest).tail) = false := by
  cases e with
  | var x =>
    have hvn : validName x = true := by simpa [Expr.validSrc] using hv
    rcases validName_spec hvn with ⟨c, t, hdx, hstart, htall, hne⟩
    have hchars : Expr.toChars (.var x) = c :: t := by
      simp [Expr.toChars, hdx]
    rw [hchars]
    by_cases hcu : c = '_'
    · subst hcu
      cases t with
      | nil =>
        exfalso
        apply hne
        rw [← stringMk_data x, hdx]
      | cons t0 ts =>
        have ht0 : isNameChar t0 = true := htall t0 (by simp)
        simp [nextNotName, ht0]
    · simp [hcu]
  | lit n =>
    have hnn : ¬ n < 0 := by
      simp only [Expr.validSrc, decide_eq_true_eq] at hv
      omega
    have hpy : Expr.toChars (.lit n) = natDigitsChars n.natAbs := by
      simp [Expr.toChars, pyInt, hnn, pyNat]
    rcases hne2 : natDigitsChars n.natAbs with _ | ⟨c, t⟩
    · exact absurd hne2 (natDigitsChars_ne_nil _)
    have hcd : c.isDigit = true :=
      natDigitsChars_digits _ c (by rw [hne2]; simp)
    have hcu : c ≠ '_' := by
      rintro rfl
      exact absurd hcd (by decide)
    rw [hpy, hne2]
    simp [hcu]
  | data => simp [Expr.validSrc] at hv
  | add a b => simp [Expr.toChars]
  | sub a b => simp [Expr.toChars]
  | mul a b => simp [Expr.toChars]
  | concat a b => simp [Expr.toChars]
  | broadcast a b => simp [Expr.toChars]

/-- Parsing a valid `expr` string form: the wildcard or the value. -/
theorem parseExprU_roundtrip (v : Option Expr) (fuel : Nat)
    (rest : List Char)
    (hv : ∀ e, v = some e → Expr.validSrc e = true)
    (hfuel : valDepth v < fuel)
    (hrest : nextNotName rest = true) :
    parseExprU fuel (dimBase v ++ rest) = .ok (v, rest) := by
  cases v with
  | none =>
    simp only [dimBase, List.cons_append, List.nil_append, parseExprU]
    rw [if_pos (by simp [hrest])]
    rfl
  | some e =>
    have hve := hv e rfl
    simp only [dimBase, parseExprU]
    rw [if_neg (by rw [parseExprU_cond_false e hve rest]; decide)]
    rw [parseValueExpr_roundtrip e fuel rest hve
      (by simpa [valDepth] using hfuel) hrest]
    rfl

/-- A `postDim` boundary is a `nextNotName` boundary. -/
theorem postDim_nextNotName {rest : List Char} (h : postDim rest = true) :
    nextNotName rest = true := by
  cases rest with
  | nil => rfl
  | cons c l =>
    simp only [postDim, Bool.or_eq_true, decide_eq_true_eq] at h
    rcases h with rfl | rfl <;> (simp only [nextNotName]; decide)

/-- A `postDim` boundary does not start with `*`. -/
theorem postDim_not_star {rest : List Char} (h : postDim rest = true) :
    ¬ (rest.head? = some '*') := by
  cases rest with
  | nil => simp
  | cons c l =>
    simp only [postDim, Bool.or_eq_true, decide_eq_true_eq] at h
    rcases h with rfl | rfl <;> simp

/-- Parsing the core of a valid dim consumes exactly it and restores the
value and mode. -/
theorem parseDim_roundtrip (v : Option Expr) (ty : DimType) (fuel : Nat)
    (rest : List Char)
    (hv : ∀ e, v = some e → Expr.validSrc e = true)
    (hfuel : valDepth v < fuel)
    (hrest : postDim rest = true) :
    parseDim fuel (dimCore ⟨v, ty, false⟩ ++ rest) =
      .ok (⟨v, ty, false⟩, rest) := by
  rcases dimBase_head v hv with ⟨c, t, hbase, hdot, hstar, _, _⟩
  cases ty with
  | variadic =>
    simp only [dimCore, List.cons_append, parseDim]
    rw [if_neg (by simp [List.take_succ_cons])]
    rw [if_pos (by simp)]
    simp only [List.tail_cons]
    rw [parseExprU_roundtrip v fuel rest hv hfuel
      (postDim_nextNotName hrest)]
    rfl
  | single =>
    simp only [dimCore]
    rw [hbase]
    simp only [List.cons_append, parseDim]
    rw [if_neg (by simp [List.take_succ_cons, hdot])]
    rw [if_neg (by simp [hstar])]
    rw [← List.cons_append, ← hbase]
    rw [parseExprU_roundtrip v fuel rest hv hfuel
      (postDim_nextNotName hrest)]
    simp only [ok_bind]
    rw [if_neg (by simpa using postDim_not_star hrest)]
  | repeated =>
    simp only [dimCore]
    rw [hbase]
    simp only [List.cons_append, List.append_assoc, List.nil_append,
      parseDim]
    rw [if_neg (by simp [List.take_succ_cons, hdot])]
    rw [if_neg (by simp [hstar])]
    rw [show (c :: (t ++ '*' :: rest) : List Char) =
      dimBase v ++ ('*' :: rest) by rw [hbase]; simp]
    rw [parseExprU_roundtrip v fuel ('*' :: rest) hv hfuel
      (by simp only [nextNotName]; decide)]
    simp only [ok_bind]
    rw [if_pos (by simp)]
    rfl

/-- A `dimBoundary` is a `postDim` boundary. -/
theorem dimBoundary_postDim {rest : List Char}
    (h : dimBoundary rest = true) : postDim rest = true := by
  cases rest with
  | nil => rfl
  | cons c l =>
    simp only [dimBoundary, decide_eq_true_eq] at h
    subst h
    rfl

/-- The string form of a broadcastable dim is its core plus `!`. -/
theorem toChars_split_true (v : Option Expr) (ty : DimType) :
    (⟨v, ty, true⟩ : DimSpec).toChars = dimCore ⟨v, ty, false⟩ ++ ['!'] := by
  cases ty <;> cases v <;> simp [DimSpec.toChars, dimCore, dimBase]

/-- The string form of a non-broadcastable dim is its core. -/
theorem toChars_split_false (v : Option Expr) (ty : DimType) :
    (⟨v, ty, false⟩ : DimSpec).toChars = dimCore ⟨v, ty, false⟩ := by
  cases ty <;> cases v <;> simp [DimSpec.toChars, dimCore, dimBase]

/-- Parsing the full string form of a valid dim (with its broadcast
suffix) restores it exactly. -/
theorem parseCBDim_roundtrip (d : DimSpec) (fuel : Nat) (rest : List Char)
    (hv : DimSpec.validSrc d = true) (hfuel : d.depthD < fuel)
    (hrest : dimBoundary rest = true) :
    parseCBDim fuel (d.toChars ++ rest) = .ok (d, rest) := by
  obtain ⟨v, ty, bc⟩ := d
  have hfuel2 : valDepth v < fuel := by
    simpa [DimSpec.depthD] using hfuel
  have hv2 : ∀ e, v = some e → Expr.validSrc e = true := dimVal_valid hv
  cases bc with
  | true =>
    rw [toChars_split_true, List.append_assoc, List.singleton_append]
    unfold parseCBDim
    rw [parseDim_roundtrip v ty fuel ('!' :: rest) hv2 hfuel2
      (by simp only [postDim]; decide)]
    simp only [ok_bind]
    simp [DimSpec.make_can_broadcast]
  | false =>
    rw [toChars_split_false]
    unfold parseCBDim
    rw [parseDim_roundtrip v ty fuel rest hv2 hfuel2
      (dimBoundary_postDim hrest)]
    simp only [ok_bind]
    rw [if_neg ?hb]
    case hb =>
      cases rest with
      | nil => simp
      | cons c l =>
        simp only [dimBoundary, decide_eq_true_eq] at hrest
        subst hrest
        simp

/-! ### C8: last characters, joined dims, and the whole-spec round trip -/

/-- The last element of a list is a member. -/
theorem mem_of_getLast?_eq {α : Type} {l : List α} {a : α}
    (h : l.getLast? = some a) : a ∈ l := by
  have h2 : a ∈ l.getLast? := h
  rcases List.mem_getLast?_eq_getLast h2 with ⟨hne, heq⟩
  rw [heq]
  exact List.getLast_mem hne

/-- Dropping a head does not change the last element of a nonempty list. -/
theorem getLast?_cons_of_ne_nil {α : Type} (x : α) (l : List α)
    (h : l ≠ []) : (x :: l).getLast? = l.getLast? := by
  cases l with
  | nil => exact absurd rfl h
  | cons y ys => exact List.getLast?_cons_cons

/-- A name character is not a space. -/
theorem nameChar_ne_space {c : Char} (h : isNameChar c = true) : c ≠ ' ' := by
  rintro rfl
  exact absurd h (by decide)

/-- A name-start character is not a space. -/
theorem nameStart_ne_space {c : Char} (h : isNameStart c = true) :
    c ≠ ' ' := by
  rintro rfl
  exact absurd h (by decide)

/-- A digit is not a space. -/
theorem digit_ne_space {c : Char} (h : c.isDigit = true) : c ≠ ' ' := by
  rintro rfl
  exact absurd h (by decide)

/-- The string form of a valid expression does not end in a space. -/
theorem expr_last_ne_space (e : Expr) (hv : Expr.validSrc e = true) :
    ∀ c, e.toChars.getLast? = some c → c ≠ ' ' := by
  cases e with
  | lit n =>
    intro c hc
    have hnn : ¬ n < 0 := by
      simp only [Expr.validSrc, decide_eq_true_eq] at hv
      omega
    have hpy : Expr.toChars (.lit n) = natDigitsChars n.natAbs := by
      simp [Expr.toChars, pyInt, hnn, pyNat]
    rw [hpy] at hc
    exact digit_ne_space (natDigitsChars_digits _ c (mem_of_getLast?_eq hc))
  | var x =>
    intro c hc
    have hvn : validName x = true := by simpa [Expr.validSrc] using hv
    rcases validName_spec hvn with ⟨c0, t, hdx, hstart, htall, _⟩
    rw [show Expr.toChars (.var x) = x.data from rfl, hdx] at hc
    rcases List.mem_cons.mp (mem_of_getLast?_eq hc) with rfl | hm
    · exact nameStart_ne_space hstart
    · exact nameChar_ne_space (htall c hm)
  | data => simp [Expr.validSrc] at hv
  | add a b =>
    intro c hc
    rw [show Expr.toChars (.add a b) =
      ('(' :: (a.toChars ++ '+' :: b.toChars)) ++ [')'] by
        simp [Expr.toChars]] at hc
    rw [List.getLast?_concat] at hc
    cases hc
    decide
  | sub a b =>
    intro c hc
    rw [show Expr.toChars (.sub a b) =
      ('(' :: (a.toChars ++ '-' :: b.toChars)) ++ [')'] by
        simp [Expr.toChars]] at hc
    rw [List.getLast?_concat] at hc
    cases hc
    decide
  | mul a b =>
    intro c hc
    rw [show Expr.toChars (.mul a b) =
      ('(' :: (a.toChars ++ '*' :: b.toChars)) ++ [')'] by
        simp [Expr.toChars]] at hc
    rw [List.getLast?_concat] at hc
    cases hc
    decide
  | concat a b =>
    intro c hc
    rw [show Expr.toChars (.concat a b) =
      ('(' :: (a.toChars ++ '|' :: '|' :: b.toChars)) ++ [')'] by
        simp [Expr.toChars]] at hc
    rw [List.getLast?_concat] at hc
    cases hc
    decide
  | broadcast a b =>
    intro c hc
    rw [show Expr.toChars (.broadcast a b) =
      ('(' :: (a.toChars ++ '^' :: b.toChars)) ++ [')'] by
        simp [Expr.toChars]] at hc
    rw [List.getLast?_concat] at hc
    cases hc
    decide

/-- The string form of a valid dim starts with a character that is not a
space, a dollar, or a dot (so a dim string is never mistaken for a
whole-spec special form). -/
theorem dim_toChars_head (d : DimSpec) (hv : DimSpec.validSrc d = true) :
    ∃ c t, d.toChars = c :: t ∧ c ≠ ' ' ∧ c ≠ '$' ∧ c ≠ '.' := by
  obtain ⟨v, ty, bc⟩ := d
  rcases dimBase_head v (dimVal_valid hv) with ⟨c, t, hb, hdot, hstar, hsp, hdol⟩
  have hsplit : DimSpec.toChars ⟨v, ty, bc⟩ =
      dimCore ⟨v, ty, false⟩ ++ (if bc then ['!'] else []) := by
    cases bc
    · rw [toChars_split_false]
      simp
    · rw [toChars_split_true]
      simp
  rw [hsplit]
  cases ty with
  | variadic =>
    refine ⟨'*', dimBase v ++ (if bc then ['!'] else []), ?_, by decide,
      by decide, by decide⟩
    simp [dimCore]
  | single =>
    refine ⟨c, t ++ (if bc then ['!'] else []), ?_, hsp, hdol, hdot⟩
    simp only [dimCore]
    rw [hb, List.cons_append]
  | repeated =>
    refine ⟨c, (t ++ ['*']) ++ (if bc then ['!'] else []), ?_, hsp, hdol, hdot⟩
    simp only [dimCore]
    rw [hb, List.cons_append, List.cons_append]

/-- The string form of a valid dim does not end in a space. -/
theorem dim_toChars_last (d : DimSpec) (hv : DimSpec.validSrc d = true) :
    ∀ c, d.toChars.getLast? = some c → c ≠ ' ' := by
  obtain ⟨v, ty, bc⟩ := d
  intro c hc
  cases bc with
  | true =>
    rw [toChars_split_true, List.getLast?_concat] at hc
    cases hc
    decide
  | false =>
    rw [toChars_split_false] at hc
    cases ty with
    | repeated =>
      simp only [dimCore] at hc
      rw [List.getLast?_concat] at hc
      cases hc
      decide
    | variadic =>
      simp only [dimCore] at hc
      cases v with
      | none =>
        simp [dimBase] at hc
        subst hc
        decide
      | some e =>
        have hve := dimVal_valid hv e rfl
        rcases toChars_head_class e hve with ⟨c0, t, hct, _⟩
        rw [show dimBase (some e) = e.toChars from rfl, hct,
          List.getLast?_cons_cons, ← hct] at hc
        exact expr_last_ne_space e hve c hc
    | single =>
      simp only [dimCore] at hc
      cases v with
      | none =>
        simp [dimBase] at hc
        subst hc
        decide
      | some e =>
        exact expr_last_ne_space e (dimVal_valid hv e rfl) c hc

/-- Unfolding a two-element-or-more join. -/
theorem joinCharsSep_cons_cons (x y : List Char) (ls : List (List Char)) :
    joinCharsSep ' ' (x :: y :: ls) = x ++ ' ' :: joinCharsSep ' ' (y :: ls) :=
  rfl

/-- The joined dims of a nonempty valid list start with the first dim's
head character. -/
theorem join_head_cons (d : DimSpec) (rest : List DimSpec)
    (hv : DimSpec.validSrc d = true) :
    ∃ c t, joinCharsSep ' ' ((d :: rest).map DimSpec.toChars) = c :: t ∧
      c ≠ ' ' ∧ c ≠ '$' ∧ c ≠ '.' := by
  rcases dim_toChars_head d hv with ⟨c, t, hct, h1, h2, h3⟩
  cases rest with
  | nil => exact ⟨c, t, hct, h1, h2, h3⟩
  | cons d2 r2 =>
    refine ⟨c, t ++ ' ' :: joinCharsSep ' '
      (DimSpec.toChars d2 :: r2.map DimSpec.toChars), ?_, h1, h2, h3⟩
    simp only [List.map_cons]
    rw [joinCharsSep_cons_cons, hct, List.cons_append]

/-- The joined dims of a nonempty valid list are nonempty. -/
theorem join_ne_nil (d : DimSpec) (rest : List DimSpec)
    (hv : DimSpec.validSrc d = true) :
    joinCharsSep ' ' ((d :: rest).map DimSpec.toChars) ≠ [] := by
  rcases join_head_cons d rest hv with ⟨c, t, hct, _⟩
  rw [hct]
  simp

/-- The joined dims of a valid list do not end in a space. -/
theorem join_last_ne_space : ∀ (ds : List DimSpec),
    (∀ d ∈ ds, DimSpec.validSrc d = true) →
    ∀ c, (joinCharsSep ' ' (ds.map DimSpec.toChars)).getLast? = some c →
      c ≠ ' '
  | [], _, c, hc => by simp [joinCharsSep] at hc
  | [d], hv, c, hc => dim_toChars_last d (hv d (by simp)) c hc
  | d :: d2 :: r2, hv, c, hc => by
    simp only [List.map_cons] at hc
    rw [joinCharsSep_cons_cons, List.getLast?_append_cons] at hc
    have hne : joinCharsSep ' '
        (DimSpec.toChars d2 :: r2.map DimSpec.toChars) ≠ [] := by
      have h2 := join_ne_nil d2 r2 (hv d2 (by simp))
      simpa [List.map_cons] using h2
    rw [getLast?_cons_of_ne_nil _ _ hne] at hc
    exact join_last_ne_space (d2 :: r2)
      (fun x hx => hv x (List.mem_cons_of_mem d hx)) c
      (by simpa [List.map_cons] using hc)

/-- The leading/trailing-space strip of `parse_shape_spec` is the identity
on a string whose ends are not spaces. -/
theorem strip_noop {cs : List Char}
    (hh : ∀ c, cs.head? = some c → c ≠ ' ')
    (hl : ∀ c, cs.getLast? = some c → c ≠ ' ') :
    ((cs.dropWhile (fun c => c = ' ')).reverse.dropWhile
      (fun c => c = ' ')).reverse = cs := by
  have h1 : cs.dropWhile (fun c => c = ' ') = cs := by
    cases cs with
    | nil => rfl
    | cons c l => simp [List.dropWhile_cons, hh c rfl]
  rw [h1]
  have h2 : cs.reverse.dropWhile (fun c => c = ' ') = cs.reverse := by
    cases hr : cs.reverse with
    | nil => rfl
    | cons c l =>
      have hlast : cs.getLast? = some c := by
        rw [← List.head?_reverse, hr]
        rfl
      simp [List.dropWhile_cons, hl c hlast]
  rw [h2, List.reverse_reverse]

/-- A member of a join is no longer than the join. -/
theorem mem_length_le_join (ls : List (List Char)) (l : List Char)
    (h : l ∈ ls) : l.length ≤ (joinCharsSep ' ' ls).length := by
  induction ls with
  | nil => cases h
  | cons x xs ih =>
    cases xs with
    | nil =>
      have hx : l = x := by simpa using h
      subst hx
      exact Nat.le.refl
    | cons y ys =>
      rw [joinCharsSep_cons_cons, List.length_append, List.length_cons]
      rcases List.mem_cons.mp h with rfl | h2
      · omega
      · have h3 := ih h2
        omega

/-- A join of nonempty pieces has at least as many characters as
pieces. -/
theorem count_le_join : ∀ (ls : List (List Char)),
    (∀ l ∈ ls, l ≠ []) → ls.length ≤ (joinCharsSep ' ' ls).length
  | [], _ => by simp [joinCharsSep]
  | [x], h => by
    have hx := List.length_pos.mpr (h x (by simp))
    simp only [joinCharsSep, List.length_cons, List.length_nil]
    omega
  | x :: y :: ys, h => by
    have h2 := count_le_join (y :: ys) (fun l hl => h l (List.mem_cons_of_mem x hl))
    have hx := List.length_pos.mpr (h x (by simp))
    rw [joinCharsSep_cons_cons, List.length_append, List.length_cons]
    simp only [List.length_cons] at h2 ⊢
    omega

/-- A valid expression's string form is longer than its nesting depth, so
input-length fuel always suffices. -/
theorem depth_lt_length (e : Expr) (hv : Expr.validSrc e = true) :
    e.depth < e.toChars.length := by
  induction e with
  | lit n =>
    have hnn : ¬ n < 0 := by
      simp only [Expr.validSrc, decide_eq_true_eq] at hv
      omega
    have hpy : Expr.toChars (.lit n) = natDigitsChars n.natAbs := by
      simp [Expr.toChars, pyInt, hnn, pyNat]
    rw [hpy]
    simp only [Expr.depth]
    exact List.length_pos.mpr (natDigitsChars_ne_nil _)
  | var x =>
    have hvn : validName x = true := by simpa [Expr.validSrc] using hv
    rcases validName_spec hvn with ⟨c, t, hdx, _, _, _⟩
    simp only [Expr.depth, Expr.toChars, hdx]
    simp
  | data => simp [Expr.validSrc] at hv
  | add a b iha ihb =>
    simp only [Expr.validSrc, Bool.and_eq_true] at hv
    have ha := iha hv.1
    have hb := ihb hv.2
    simp only [Expr.depth, Expr.toChars, List.length_cons, List.length_append]
    rcases Nat.le_total a.depth b.depth with hab | hab
    · rw [Nat.max_eq_right hab]
      omega
    · rw [Nat.max_eq_left hab]
      omega
  | sub a b iha ihb =>
    simp only [Expr.validSrc, Bool.and_eq_true] at hv
    have ha := iha hv.1
    have hb := ihb hv.2
    simp only [Expr.depth, Expr.toChars, List.length_cons, List.length_append]
    rcases Nat.le_total a.depth b.depth with hab | hab
    · rw [Nat.max_eq_right hab]
      omega
    · rw [Nat.max_eq_left hab]
      omega
  | mul a b iha ihb =>
    simp only [Expr.validSrc, Bool.and_eq_true] at hv
    have ha := iha hv.1
    have hb := ihb hv.2
    simp only [Expr.depth, Expr.toChars, List.length_cons, List.length_append]
    rcases Nat.le_total a.depth b.depth with hab | hab
    · rw [Nat.max_eq_right hab]
      omega
    · rw [Nat.max_eq_left hab]
      omega
  | concat a b iha ihb =>
    simp only [Expr.validSrc, Bool.and_eq_true] at hv
    have ha := iha hv.1
    have hb := ihb hv.2
    simp only [Expr.depth, Expr.toChars, List.length_cons, List.length_append]
    rcases Nat.le_total a.depth b.depth with hab | hab
    · rw [Nat.max_eq_right hab]
      omega
    · rw [Nat.max_eq_left hab]
      omega
  | broadcast a b iha ihb =>
    simp only [Expr.validSrc, Bool.and_eq_true] at hv
    have ha := iha hv.1
    have hb := ihb hv.2
    simp only [Expr.depth, Expr.toChars, List.length_cons, List.length_append]
    rcases Nat.le_total a.depth b.depth with hab | hab
    · rw [Nat.max_eq_right hab]
      omega
    · rw [Nat.max_eq_left hab]
      omega

/-- A valid dim's string form is longer than its expression's depth. -/
theorem depthD_lt_length (d : DimSpec) (hv : DimSpec.validSrc d = true) :
    d.depthD < d.toChars.length := by
  rcases dim_toChars_head d hv with ⟨c, t, hct, _⟩
  obtain ⟨v, ty, bc⟩ := d
  cases v with
  | none => simp [DimSpec.depthD, valDepth, hct]
  | some e =>
    have hve := dimVal_valid hv e rfl
    have h := depth_lt_length e hve
    have hlen : e.toChars.length ≤ (DimSpec.toChars ⟨some e, ty, bc⟩).length := by
      cases bc with
      | false =>
        rw [toChars_split_false]
        cases ty <;>
          · simp only [dimCore, dimBase, List.length_append, List.length_cons]
            omega
      | true =>
        rw [toChars_split_true, List.length_append]
        cases ty <;>
          · simp only [dimCore, dimBase, List.length_append, List.length_cons]
            omega
    simp only [DimSpec.depthD, valDepth]
    omega

/-- Parsing the space-joined string forms of valid dims restores the list,
given enough fuel. -/
theorem parseDimsGo_roundtrip : ∀ (ds : List DimSpec) (exprFuel loopFuel : Nat),
    ds ≠ [] → (∀ d ∈ ds, DimSpec.validSrc d = true) →
    (∀ d ∈ ds, d.depthD < exprFuel) → ds.length ≤ loopFuel →
    parseDimsGo exprFuel loopFuel (joinCharsSep ' ' (ds.map DimSpec.toChars))
      = .ok ds
  | [], _, _, hne, _, _, _ => absurd rfl hne
  | [d], exprFuel, loopFuel, _, hv, hef, hlf => by
    obtain ⟨lf, rfl⟩ : ∃ lf, loopFuel = lf + 1 := by
      cases loopFuel with
      | zero => simp at hlf
      | succ n => exact ⟨n, rfl⟩
    have hcb := parseCBDim_roundtrip d exprFuel [] (hv d (by simp))
      (hef d (by simp)) rfl
    rw [List.append_nil] at hcb
    rw [show joinCharsSep ' ' (List.map DimSpec.toChars [d]) =
      DimSpec.toChars d from rfl]
    unfold parseDimsGo
    rw [hcb]
    rfl
  | d :: d2 :: r2, exprFuel, loopFuel, _, hv, hef, hlf => by
    obtain ⟨lf, rfl⟩ : ∃ lf, loopFuel = lf + 1 := by
      cases loopFuel with
      | zero => simp at hlf
      | succ n => exact ⟨n, rfl⟩
    simp only [List.map_cons]
    rw [joinCharsSep_cons_cons]
    have hcb := parseCBDim_roundtrip d exprFuel
      (' ' :: joinCharsSep ' ' (DimSpec.toChars d2 :: r2.map DimSpec.toChars))
      (hv d (by simp)) (hef d (by simp))
      (by simp only [dimBoundary]; decide)
    have hrec := parseDimsGo_roundtrip (d2 :: r2) exprFuel lf (by simp)
      (fun x hx => hv x (List.mem_cons_of_mem d hx))
      (fun x hx => hef x (List.mem_cons_of_mem d hx))
      (by simp only [List.length_cons] at hlf ⊢; omega)
    simp only [List.map_cons] at hrec
    rcases join_head_cons d2 r2 (hv d2 (by simp)) with ⟨c0, t0, hct0, hc0, _, _⟩
    simp only [List.map_cons] at hct0
    have hskip : skipSpaces (joinCharsSep ' '
        (DimSpec.toChars d2 :: r2.map DimSpec.toChars)) =
        joinCharsSep ' ' (DimSpec.toChars d2 :: r2.map DimSpec.toChars) := by
      refine skipSpaces_noop ?_
      intro x hx
      rw [hct0] at hx
      simp only [List.head?_cons, Option.some.injEq] at hx
      subst hx
      exact hc0
    unfold parseDimsGo
    rw [hcb]
    simp only [ok_bind]
    rw [if_neg (by simp)]
    have hif : (' ' :: joinCharsSep ' ' (DimSpec.toChars d2 ::
        r2.map DimSpec.toChars)).head? = some ' ' := rfl
    rw [if_pos hif]
    simp only [List.tail_cons]
    rw [hskip, hrec]
    rfl

/-- The data of a packed character list. -/
theorem data_stringMk (l : List Char) : (String.mk l).data = l := rfl

/-- Parsing the space-joined string forms of valid dims as a whole spec
restores exactly those dims. -/
theorem parse_join (ds : List DimSpec)
    (hv : ∀ d ∈ ds, DimSpec.validSrc d = true) :
    parse_shape_spec (String.mk (joinCharsSep ' ' (ds.map DimSpec.toChars)))
      = .ok ⟨ds⟩ := by
  cases ds with
  | nil => rfl
  | cons d rest =>
    rcases join_head_cons d rest (hv d (by simp)) with ⟨c, t, hct, hsp, hdol, hdot⟩
    have hh : ∀ x,
        (joinCharsSep ' ' ((d :: rest).map DimSpec.toChars)).head? = some x →
        x ≠ ' ' := by
      intro x hx
      rw [hct] at hx
      simp only [List.head?_cons, Option.some.injEq] at hx
      subst hx
      exact hsp
    have hl := join_last_ne_space (d :: rest) hv
    simp only [parse_shape_spec, data_stringMk]
    rw [strip_noop hh hl]
    rw [if_neg ?h1, if_neg ?h2, if_neg ?h3]
    case h1 =>
      rw [hct]
      simp
    case h2 =>
      rw [hct]
      simp [hdol]
    case h3 =>
      rw [hct]
      simp [hdot]
    have hrec := parseDimsGo_roundtrip (d :: rest)
      ((joinCharsSep ' ' ((d :: rest).map DimSpec.toChars)).length + 1)
      ((joinCharsSep ' ' ((d :: rest).map DimSpec.toChars)).length + 1)
      (by simp) hv
      (fun x hx =>
        Nat.lt_succ_of_lt (lt_of_lt_of_le (depthD_lt_length x (hv x hx))
          (mem_length_le_join _ _ (List.mem_map_of_mem DimSpec.toChars hx))))
      (by
        have h1 := count_le_join ((d :: rest).map DimSpec.toChars)
          (by
            intro l hl2
            rcases List.mem_map.mp hl2 with ⟨x, hx, rfl⟩
            rcases dim_toChars_head x (hv x hx) with ⟨c0, t0, hc0, _⟩
            rw [hc0]
            simp)
        rw [List.length_map] at h1
        omega)
    rw [hrec]
    rfl

/-- Stripping the brackets from a shape spec's string form leaves the
space-joined dims. -/
theorem pyStr1m1_toStr (s : ShapeSpec) :
    pyStr1m1 (ShapeSpec.toStr s) =
      String.mk (joinCharsSep ' ' (s.dims.map DimSpec.toChars)) := by
  simp only [pyStr1m1, ShapeSpec.toStr, ShapeSpec.toChars, data_stringMk]
  refine congrArg String.mk ?_
  show (joinCharsSep ' ' (List.map DimSpec.toChars s.dims) ++
    [']']).dropLast = joinCharsSep ' ' (List.map DimSpec.toChars s.dims)
  exact List.dropLast_concat

/-- C8 counterexample: the literal-3 spec is valid and its Python string
form is the bracketed form, which the grammar rejects, so
parse(str(spec)) is an error, not the spec. -/
theorem C8_counterexample :
    ShapeSpec.validSrc ⟨[DimSpec.create_literal 3]⟩ = true ∧
    ShapeSpec.toStr ⟨[DimSpec.create_literal 3]⟩ = "[3]" ∧
    parse_shape_spec (ShapeSpec.toStr ⟨[DimSpec.create_literal 3]⟩) =
      .error "parse error: unexpected character" := by
  refine ⟨by decide, by decide, by decide⟩

/-- C8: round-trip law, amended. `parse(str(dim_spec))` recovers a valid
DimSpec exactly, but `ShapeSpec.__str__` wraps the dims in square
brackets, which `parse_shape_spec` rejects (see the counterexample); the
law that holds for a ShapeSpec — and the one the repository's own test
exercises — is `parse(str(spec)[1:-1]) == spec`. -/
theorem C8_roundtrip (d : DimSpec) (s : ShapeSpec)
    (hd : DimSpec.validSrc d = true) (hs : ShapeSpec.validSrc s = true) :
    parse_shape_spec (DimSpec.toStr d) = .ok ⟨[d]⟩ ∧
    parse_shape_spec (pyStr1m1 (ShapeSpec.toStr s)) = .ok s := by
  constructor
  · have h := parse_join [d] (by
      intro x hx
      have hx2 : x = d := by simpa using hx
      subst hx2
      exact hd)
    exact h
  · simp only [ShapeSpec.validSrc, Bool.or_eq_true, decide_eq_true_eq] at hs
    rcases hs with hs | hs
    · obtain ⟨dims⟩ := s
      simp only at hs
      subst hs
      decide
    · have h := parse_join s.dims (fun x hx => List.all_eq_true.mp hs x hx)
      rw [pyStr1m1_toStr]
      exact h

/-- C8 witness: the amended round trip evaluated at the variadic
broadcast-tolerant dim `*i!` and at the shape spec `[2 _*]`. -/
theorem C8_roundtrip_witness :
    DimSpec.validSrc ⟨some (.var "i"), .variadic, true⟩ = true ∧
    ShapeSpec.validSrc ⟨[⟨some (.lit 2), .single, false⟩,
      ⟨none, .repeated, false⟩]⟩ = true ∧
    (parse_shape_spec (DimSpec.toStr ⟨some (.var "i"), .variadic, true⟩) =
      .ok ⟨[⟨some (.var "i"), .variadic, true⟩]⟩ ∧
    parse_shape_spec (pyStr1m1 (ShapeSpec.toStr ⟨[⟨some (.lit 2), .single,
        false⟩, ⟨none, .repeated, false⟩]⟩)) =
      .ok ⟨[⟨some (.lit 2), .single, false⟩, ⟨none, .repeated, false⟩]⟩) :=
  ⟨by decide, by decide,
    C8_roundtrip ⟨some (.var "i"), .variadic, true⟩
      ⟨[⟨some (.lit 2), .single, false⟩, ⟨none, .repeated, false⟩]⟩
      (by decide) (by decide)⟩

/-! ### C9 -/

/-- C9: in the keyword dispatch of `_get_tensors_and_bindings`, an int or
an all-int tuple (including the empty tuple and a 2-tuple of ints) becomes
a pre-bound variable value and never a (tensor, spec) pair, while any
other value that is not a 2-tuple raises the unexpected-kwarg error. -/
theorem C9_kwarg_classification (v : PyVal) :
    (∀ n, v = .int n → classifyKwarg v = .binding (.int n)) ∧
    (∀ xs, v = .tup xs → xs.all PyVal.isInt = true →
      classifyKwarg v = .binding (.tup (pyInts xs))) ∧
    ((∀ n, v ≠ .int n) →
      (∀ xs, v = .tup xs → xs.all PyVal.isInt = false ∧ xs.length ≠ 2) →
      classifyKwarg v = .unexpectedKwarg) := by
  refine ⟨?_, ?_, ?_⟩
  · rintro n rfl; rfl
  · rintro xs rfl hall
    simp [classifyKwarg, hall]
  · intro hni hnt
    cases v with
    | int n => exact absurd rfl (hni n)
    | tup xs =>
      obtain ⟨hall, hlen⟩ := hnt xs rfl
      rcases xs with _ | ⟨a, _ | ⟨b, _ | ⟨c, rest⟩⟩⟩ <;>
        simp_all [classifyKwarg]
    | str s => rfl
    | obj => rfl
    | none => rfl

/-- C9 witness: the dispatch applied to an int, a 2-tuple of ints, and a
string keyword value. -/
theorem C9_kwarg_classification_witness :
    classifyKwarg (.int 5) = .binding (.int 5) ∧
    classifyKwarg (.tup [.int 2, .int 3]) = .binding (.tup [2, 3]) ∧
    classifyKwarg (.str "spam") = .unexpectedKwarg :=
  ⟨(C9_kwarg_classification (.int 5)).1 5 rfl,
   (C9_kwarg_classification (.tup [.int 2, .int 3])).2.1
     [.int 2, .int 3] rfl rfl,
   (C9_kwarg_classification (.str "spam")).2.2
     (fun _ h => PyVal.noConfusion h) (fun _ h => PyVal.noConfusion h)⟩

/-! ### C10 -/

/-- C10: an empty observed shape against the single repeated-variable spec
"i*" succeeds, returning a mapping that omits `i` even though the spec
references `i`: the zero-width repeated slice binds nothing and is skipped
during value checking. -/
theorem C10_zero_width_repeated :
    parse_shape_spec "i*" = .ok ⟨[⟨some (.var "i"), .repeated, false⟩]⟩ ∧
    check_shapes_core
      [("arg0", ([], ⟨[⟨some (.var "i"), .repeated, false⟩]⟩))] [] = .ok [] ∧
    "i" ∈ ShapeSpec.varList ⟨[⟨some (.var "i"), .repeated, false⟩]⟩ ∧
    lookupB [] "i" = none :=
  ⟨by decide, by decide,
   by simp [ShapeSpec.varList, DimSpec.varList, Expr.varList], rfl⟩

/-! ### C3: idempotence of the solver

The proof replays each entry's final successful value check — performed at
some intermediate bindings state during the first run — at the returned
bindings, showing that the rerun's first pass re-checks every entry
without adding a binding, so the loop stops at once with the same dict. -/

/-- Extension is reflexive. -/
theorem extendsB_refl (β : Bindings) : extendsB β β := fun _ _ h => h

/-- Extension is transitive. -/
theorem extendsB_trans {a b c : Bindings} (h1 : extendsB a b)
    (h2 : extendsB b c) : extendsB a c :=
  fun x v h => h2 x v (h1 x v h)

/-- Appending bindings is an extension. -/
theorem extendsB_append (β Δ : Bindings) : extendsB β (β ++ Δ) := by
  intro x v h
  rw [lookupB_append_isSome (by simp [h]) Δ]
  exact h

/-- A name is a key exactly when its lookup succeeds. -/
theorem lookupB_isSome_iff_mem (β : Bindings) (x : String) :
    (lookupB β x).isSome = true ↔ x ∈ keysB β := by
  induction β with
  | nil => simp [lookupB, keysB]
  | cons p rest ih =>
    by_cases hp : p.1 = x
    · subst hp
      simp [lookupB, keysB]
    · simp only [lookupB, hp, if_false, keysB, List.map_cons, List.mem_cons]
      rw [ih]
      constructor
      · intro h
        exact Or.inr h
      · rintro (h | h)
        · exact absurd h.symm hp
        · exact h

/-- Keys survive extension. -/
theorem extendsB_keys {β B : Bindings} (hex : extendsB β B) {x : String}
    (h : x ∈ keysB β) : x ∈ keysB B := by
  rw [← lookupB_isSome_iff_mem] at h ⊢
  cases hv : lookupB β x with
  | none => rw [hv] at h; cases h
  | some v => rw [hex x v hv]; rfl

/-- A name unbound in the larger dict is unbound in the smaller. -/
theorem extendsB_none {β B : Bindings} (hex : extendsB β B) {x : String}
    (h : lookupB B x = none) : lookupB β x = none := by
  cases hv : lookupB β x with
  | none => rfl
  | some v =>
    rw [hex x v hv] at h
    cases h

/-- Definedness of an expression survives extension of the bindings. -/
theorem is_defined_mono {β B : Bindings} (hex : extendsB β B) (e : Expr)
    (h : e.is_defined (keysB β) = true) : e.is_defined (keysB B) = true := by
  simp only [Expr.is_defined, List.all_eq_true] at h ⊢
  intro x hx
  have h2 := h x hx
  simp only [List.elem_iff] at h2 ⊢
  exact extendsB_keys hex h2

/-- A successful evaluation survives extension of the bindings with the
same value. -/
theorem eval_extends {β B : Bindings} (hex : extendsB β B) :
    ∀ (e : Expr) (v : ShapeVariable), Expr.eval β e = .ok v →
    Expr.eval B e = .ok v
  | .lit n, v, h => h
  | .var x, v, h => by
    simp only [Expr.eval] at h ⊢
    cases hl : lookupB β x with
    | none =>
      simp only [hl] at h
      cases h
    | some w =>
      simp only [hl] at h
      cases h
      rw [hex x v hl]
  | .add a b, v, h => by
    simp only [Expr.eval] at h ⊢
    cases ha : Expr.eval β a with
    | error e => rw [ha] at h; cases h
    | ok xa =>
      rw [ha] at h
      simp only [ok_bind] at h
      cases hb : Expr.eval β b with
      | error e => rw [hb] at h; cases h
      | ok xb =>
        rw [hb] at h
        simp only [ok_bind] at h
        rw [eval_extends hex a xa ha, eval_extends hex b xb hb]
        simp only [ok_bind]
        exact h
  | .sub a b, v, h => by
    simp only [Expr.eval] at h ⊢
    cases ha : Expr.eval β a with
    | error e => rw [ha] at h; cases h
    | ok xa =>
      rw [ha] at h
      simp only [ok_bind] at h
      cases hb : Expr.eval β b with
      | error e => rw [hb] at h; cases h
      | ok xb =>
        rw [hb] at h
        simp only [ok_bind] at h
        rw [eval_extends hex a xa ha, eval_extends hex b xb hb]
        simp only [ok_bind]
        exact h
  | .mul a b, v, h => by
    simp only [Expr.eval] at h ⊢
    cases ha : Expr.eval β a with
    | error e => rw [ha] at h; cases h
    | ok xa =>
      rw [ha] at h
      simp only [ok_bind] at h
      cases hb : Expr.eval β b with
      | error e => rw [hb] at h; cases h
      | ok xb =>
        rw [hb] at h
        simp only [ok_bind] at h
        rw [eval_extends hex a xa ha, eval_extends hex b xb hb]
        simp only [ok_bind]
        exact h
  | .concat a b, v, h => by
    simp only [Expr.eval] at h ⊢
    cases ha : Expr.eval β a with
    | error e => rw [ha] at h; cases h
    | ok xa =>
      rw [ha] at h
      simp only [ok_bind] at h
      cases hb : Expr.eval β b with
      | error e => rw [hb] at h; cases h
      | ok xb =>
        rw [hb] at h
        simp only [ok_bind] at h
        rw [eval_extends hex a xa ha, eval_extends hex b xb hb]
        simp only [ok_bind]
        exact h
  | .broadcast a b, v, h => by
    simp only [Expr.eval] at h ⊢
    cases ha : Expr.eval β a with
    | error e => rw [ha] at h; cases h
    | ok xa =>
      rw [ha] at h
      simp only [ok_bind] at h
      cases hb : Expr.eval β b with
      | error e => rw [hb] at h; cases h
      | ok xb =>
        rw [hb] at h
        simp only [ok_bind] at h
        rw [eval_extends hex a xa ha, eval_extends hex b xb hb]
        simp only [ok_bind]
        exact h
  | .data, v, h => by
    simp only [Expr.eval] at h
    cases h

/-- A successful evaluation means every referenced variable is bound. -/
theorem eval_defined {β : Bindings} :
    ∀ (e : Expr) (v : ShapeVariable), Expr.eval β e = .ok v →
    e.is_defined (keysB β) = true
  | .lit n, v, h => rfl
  | .var x, v, h => by
    simp only [Expr.eval] at h
    cases hl : lookupB β x with
    | none =>
      simp only [hl] at h
      cases h
    | some w =>
      have hm : x ∈ keysB β :=
        (lookupB_isSome_iff_mem β x).mp (by rw [hl]; rfl)
      simp only [Expr.is_defined, Expr.varList, List.all_cons, List.all_nil,
        Bool.and_true]
      simpa using hm
  | .add a b, v, h => by
    simp only [Expr.eval] at h
    cases ha : Expr.eval β a with
    | error e => rw [ha] at h; cases h
    | ok xa =>
      rw [ha] at h
      simp only [ok_bind] at h
      cases hb : Expr.eval β b with
      | error e => rw [hb] at h; cases h
      | ok xb =>
        have h1 := eval_defined a xa ha
        have h2 := eval_defined b xb hb
        simp only [Expr.is_defined, Expr.varList, List.all_eq_true] at h1 h2 ⊢
        intro y hy
        rcases List.mem_append.mp hy with hy | hy
        · exact h1 y hy
        · exact h2 y hy
  | .sub a b, v, h => by
    simp only [Expr.eval] at h
    cases ha : Expr.eval β a with
    | error e => rw [ha] at h; cases h
    | ok xa =>
      rw [ha] at h
      simp only [ok_bind] at h
      cases hb : Expr.eval β b with
      | error e => rw [hb] at h; cases h
      | ok xb =>
        have h1 := eval_defined a xa ha
        have h2 := eval_defined b xb hb
        simp only [Expr.is_defined, Expr.varList, List.all_eq_true] at h1 h2 ⊢
        intro y hy
        rcases List.mem_append.mp hy with hy | hy
        · exact h1 y hy
        · exact h2 y hy
  | .mul a b, v, h => by
    simp only [Expr.eval] at h
    cases ha : Expr.eval β a with
    | error e => rw [ha] at h; cases h
    | ok xa =>
      rw [ha] at h
      simp only [ok_bind] at h
      cases hb : Expr.eval β b with
      | error e => rw [hb] at h; cases h
      | ok xb =>
        have h1 := eval_defined a xa ha
        have h2 := eval_defined b xb hb
        simp only [Expr.is_defined, Expr.varList, List.all_eq_true] at h1 h2 ⊢
        intro y hy
        rcases List.mem_append.mp hy with hy | hy
        · exact h1 y hy
        · exact h2 y hy
  | .concat a b, v, h => by
    simp only [Expr.eval] at h
    cases ha : Expr.eval β a with
    | error e => rw [ha] at h; cases h
    | ok xa =>
      rw [ha] at h
      simp only [ok_bind] at h
      cases hb : Expr.eval β b with
      | error e => rw [hb] at h; cases h
      | ok xb =>
        have h1 := eval_defined a xa ha
        have h2 := eval_defined b xb hb
        simp only [Expr.is_defined, Expr.varList, List.all_eq_true] at h1 h2 ⊢
        intro y hy
        rcases List.mem_append.mp hy with hy | hy
        · exact h1 y hy
        · exact h2 y hy
  | .broadcast a b, v, h => by
    simp only [Expr.eval] at h
    cases ha : Expr.eval β a with
    | error e => rw [ha] at h; cases h
    | ok xa =>
      rw [ha] at h
      simp only [ok_bind] at h
      cases hb : Expr.eval β b with
      | error e => rw [hb] at h; cases h
      | ok xb =>
        have h1 := eval_defined a xa ha
        have h2 := eval_defined b xb hb
        simp only [Expr.is_defined, Expr.varList, List.all_eq_true] at h1 h2 ⊢
        intro y hy
        rcases List.mem_append.mp hy with hy | hy
        · exact h1 y hy
        · exact h2 y hy
  | .data, v, h => by
    simp only [Expr.eval] at h
    cases h

/-- Width stability under extension, given variadic definedness. -/
theorem n_dims_stable {β B : Bindings} (hex : extendsB β B) (d : DimSpec)
    (hdef : variadicDefined β d) {r : Option Nat}
    (h : d.n_dims β = .ok r) : d.n_dims B = .ok r := by
  cases hty : d.type with
  | single =>
    simp only [DimSpec.n_dims, hty] at h ⊢
    exact h
  | repeated =>
    simp only [DimSpec.n_dims, hty] at h ⊢
    exact h
  | variadic =>
    rcases hdef hty with hnone | ⟨e, hval, hdefe⟩
    · simp only [DimSpec.n_dims, hty, hnone] at h ⊢
      exact h
    · simp only [DimSpec.n_dims, hty, hval] at h ⊢
      rw [if_pos hdefe] at h
      rw [if_pos (is_defined_mono hex e hdefe)]
      cases hev : Expr.eval β e with
      | error err =>
        rw [hev] at h
        simp only [error_bind] at h
        cases h
      | ok v =>
        rw [hev] at h
        simp only [ok_bind] at h
        rw [eval_extends hex e v hev]
        simp only [ok_bind]
        exact h

/-- Width-list stability under extension. -/
theorem nDimsList_stable {β B : Bindings} (hex : extendsB β B) :
    ∀ (dims : List DimSpec) (nds : List (Option Nat)),
    (∀ d ∈ dims, variadicDefined β d) →
    nDimsList β dims = .ok nds → nDimsList B dims = .ok nds
  | [], _, _, h => h
  | d :: ds, nds, hdef, h => by
    simp only [nDimsList] at h ⊢
    cases hd : d.n_dims β with
    | error e =>
      rw [hd] at h
      simp only [error_bind] at h
      cases h
    | ok w =>
      rw [hd] at h
      simp only [ok_bind] at h
      cases hds : nDimsList β ds with
      | error e =>
        rw [hds] at h
        simp only [error_bind] at h
        cases h
      | ok ws =>
        rw [hds] at h
        simp only [ok_bind] at h
        rw [n_dims_stable hex d (hdef d (List.mem_cons_self d ds)) hd,
          nDimsList_stable hex ds ws
            (fun x hx => hdef x (List.mem_cons_of_mem d hx)) hds]
        simp only [ok_bind]
        exact h

/-- Equal width lists give equal matched-index computations. -/
theorem matched_indices_eq {s : ShapeSpec} {β B : Bindings} {n : Nat}
    {nds : List (Option Nat)}
    (hβ : nDimsList β s.dims = .ok nds)
    (hB : nDimsList B s.dims = .ok nds) :
    s.matched_indices B n = s.matched_indices β n := by
  simp only [ShapeSpec.matched_indices, hβ, hB, ok_bind]

/-- Equal width lists give equal unknown-width index sets. -/
theorem unknown_indices_eq {s : ShapeSpec} {β B : Bindings}
    {nds : List (Option Nat)}
    (hβ : nDimsList β s.dims = .ok nds)
    (hB : nDimsList B s.dims = .ok nds) :
    s.unknown_n_dims_indices B = s.unknown_n_dims_indices β := by
  simp only [ShapeSpec.unknown_n_dims_indices, hβ, hB, ok_bind]

/-- A successful rank check replays at equal width lists, regardless of
the context message. -/
theorem check_rank_replay {name : String} {got : List (Option Int)}
    {s : ShapeSpec} {β B : Bindings} {msg msg2 : String}
    {nds : List (Option Nat)}
    (hβ : nDimsList β s.dims = .ok nds)
    (hB : nDimsList B s.dims = .ok nds)
    (h : _check_rank name got s β msg = .ok ()) :
    _check_rank name got s B msg2 = .ok () := by
  simp only [_check_rank, ShapeSpec.min_rank,
    ShapeSpec.unknown_n_dims_indices, hβ, ok_bind] at h
  simp only [_check_rank, ShapeSpec.min_rank,
    ShapeSpec.unknown_n_dims_indices, hB, ok_bind]
  by_cases hc : (if (!(noneIdxs nds 0).isEmpty) = true
      then got.length < sumKnown nds else got.length ≠ sumKnown nds)
  · rw [if_pos hc] at h
    cases h
  · rw [if_neg hc] at h
    rw [if_neg hc]

/-- Per-dim checkability survives binding extension. -/
theorem is_checkable_dim_mono {β B : Bindings} (hex : extendsB β B)
    (d : DimSpec) (h : d.is_checkable (keysB β) = true) :
    d.is_checkable (keysB B) = true := by
  simp only [DimSpec.is_checkable, Bool.or_eq_true] at h ⊢
  rcases h with h | h
  · exact Or.inl h
  · right
    cases hval : d.value with
    | none => simp [DimSpec.is_defined, hval]
    | some e =>
      simp only [DimSpec.is_defined, hval] at h ⊢
      exact is_defined_mono hex e h

/-- Spec checkability survives extension at equal width lists. -/
theorem is_checkable_spec_replay {s : ShapeSpec} {β B : Bindings}
    {nds : List (Option Nat)} (hex : extendsB β B)
    (hβ : nDimsList β s.dims = .ok nds)
    (hB : nDimsList B s.dims = .ok nds)
    (h : s.is_checkable β = .ok true) : s.is_checkable B = .ok true := by
  simp only [ShapeSpec.is_checkable, ShapeSpec.unknown_n_dims_indices,
    hβ, hB, ok_bind] at h ⊢
  by_cases hu : (noneIdxs nds 0).length > 1
  · rw [if_pos hu] at h
    cases h
  · rw [if_neg hu] at h ⊢
    have hall : s.dims.all (fun d => d.is_checkable (keysB β)) = true :=
      Except.ok.inj h
    have hall2 : s.dims.all (fun d => d.is_checkable (keysB B)) = true := by
      simp only [List.all_eq_true] at hall ⊢
      intro d hd
      exact is_checkable_dim_mono hex d (hall d hd)
    rw [hall2]

/-- A passing single-value check passes at any other bindings dict: the
dict only appears in the failure text. -/
theorem doCheck_replay {d : DimSpec} {vs : String} {exp : ShapeVariable}
    {β B : Bindings} {nm ms ds : String} {g : ShapeVariable}
    (h : doCheck d vs exp β nm ms ds g = .ok ()) :
    doCheck d vs exp B nm ms ds g = .ok () := by
  simp only [doCheck] at h ⊢
  cases hbc : d.can_broadcast with
  | true =>
    cases hbo : broadcastOk exp g with
    | false =>
      rw [hbc, hbo] at h
      simp at h
    | true =>
      simp
  | false =>
    by_cases heq : g = exp
    · subst heq
      simp
    · rw [hbc] at h
      simp [heq] at h

/-- The repeated-dim per-element loop passes at any other dict. -/
theorem doCheckRepeated_replay {d : DimSpec} {vs : String}
    {exp : ShapeVariable} {β B : Bindings} {nm ms : String} :
    ∀ (i : Nat) (gs : List Int),
    doCheckRepeated d vs exp β nm ms i gs = .ok () →
    doCheckRepeated d vs exp B nm ms i gs = .ok ()
  | _, [], h => h
  | i, g :: rest, h => by
    simp only [doCheckRepeated] at h ⊢
    cases hdc : doCheck d vs exp β nm ms ("dim " ++ pyNat i) (.int g) with
    | error e =>
      rw [hdc] at h
      simp only [error_bind] at h
      cases h
    | ok u =>
      cases u
      rw [hdc] at h
      simp only [ok_bind] at h
      rw [doCheck_replay hdc]
      simp only [ok_bind]
      exact doCheckRepeated_replay (i + 1) rest h

/-- A passing per-slot value check replays under extension. -/
theorem check_dim_spec_replay {gs : List Int} {d : DimSpec}
    {β B : Bindings} {name msg : String} {i : Nat} (hex : extendsB β B)
    (h : _check_dim_spec gs d β name msg i = .ok ()) :
    _check_dim_spec gs d B name msg i = .ok () := by
  cases hval : d.value with
  | none => simp only [_check_dim_spec, hval]
  | some v =>
    simp only [_check_dim_spec, hval] at h ⊢
    cases hev : Expr.eval β v with
    | error err =>
      rw [hev] at h
      simp only [error_bind] at h
      cases h
    | ok x =>
      rw [hev] at h
      simp only [ok_bind] at h
      rw [eval_extends hex v x hev]
      simp only [ok_bind]
      cases hty : d.type with
      | variadic =>
        cases x with
        | int n =>
          rw [hty] at h
          simp only at h
          cases h
        | tup t =>
          rw [hty] at h
          simp only at h ⊢
          exact doCheck_replay h
      | single =>
        cases x with
        | tup t =>
          rw [hty] at h
          simp only at h
          cases h
        | int n =>
          rw [hty] at h
          simp only at h ⊢
          cases gs with
          | nil =>
            simp only at h
            cases h
          | cons g0 tl =>
            cases tl with
            | nil =>
              simp only at h ⊢
              exact doCheck_replay h
            | cons g1 tl2 =>
              simp only at h
              cases h
      | repeated =>
        cases x with
        | tup t =>
          rw [hty] at h
          simp only at h
          cases h
        | int n =>
          rw [hty] at h
          simp only at h ⊢
          exact doCheckRepeated_replay i gs h

/-- A passing per-slot loop of `_check_shape` replays under extension. -/
theorem checkFold_replay {got : List (Option Int)} {β B : Bindings}
    {name msg : String} (hex : extendsB β B) :
    ∀ m, checkFold got β name msg m = .ok () →
    checkFold got B name msg m = .ok ()
  | [], h => h
  | (d, a, b) :: rest, h => by
    simp only [checkFold] at h ⊢
    by_cases h1 : d.value = none
    · rw [if_pos h1] at h ⊢
      exact checkFold_replay hex rest h
    · rw [if_neg h1] at h ⊢
      by_cases h2 : (d.type = DimType.repeated && a == b) = true
      · rw [if_pos h2] at h ⊢
        exact checkFold_replay hex rest h
      · rw [if_neg h2] at h ⊢
        by_cases h3 : (sliceOpt got a b).contains none = true
        · rw [if_pos h3] at h
          cases h
        · rw [if_neg h3] at h ⊢
          cases hcd : _check_dim_spec ((sliceOpt got a b).filterMap id) d β
              name msg a with
          | error e =>
            rw [hcd] at h
            simp only [error_bind] at h
            cases h
          | ok u =>
            cases u
            rw [hcd] at h
            simp only [ok_bind] at h
            rw [check_dim_spec_replay hex hcd]
            simp only [ok_bind]
            exact checkFold_replay hex rest h

/-- A passing per-slot check evaluates the slot's expression. -/
theorem check_dim_spec_eval {gs : List Int} {d : DimSpec} {β : Bindings}
    {name msg : String} {i : Nat} {e0 : Expr}
    (h : _check_dim_spec gs d β name msg i = .ok ())
    (hval : d.value = some e0) : ∃ v, Expr.eval β e0 = .ok v := by
  simp only [_check_dim_spec, hval] at h
  cases hev : Expr.eval β e0 with
  | error err =>
    rw [hev] at h
    simp only [error_bind] at h
    cases h
  | ok v => exact ⟨v, rfl⟩

/-- A passing `_check_shape` loop evaluates the expression of every slot
it does not skip. -/
theorem checkFold_slot_eval {got : List (Option Int)} {β : Bindings}
    {name msg : String} :
    ∀ m, checkFold got β name msg m = .ok () →
    ∀ d a b, (d, a, b) ∈ m → ∀ e0, d.value = some e0 →
    ¬(d.type = DimType.repeated && a == b) = true →
    ∃ v, Expr.eval β e0 = .ok v
  | [], h, d, a, b, hm, e0, hval, hskip => by cases hm
  | (d0, a0, b0) :: rest, h, d, a, b, hm, e0, hval, hskip => by
    simp only [checkFold] at h
    rcases List.mem_cons.mp hm with heq | hm2
    · have hcomp : d0 = d ∧ a0 = a ∧ b0 = b := by
        have := heq.symm
        simpa [Prod.ext_iff] using this
      obtain ⟨rfl, rfl, rfl⟩ := hcomp
      rw [if_neg (by simp [hval])] at h
      rw [if_neg hskip] at h
      by_cases h3 : (sliceOpt got a0 b0).contains none = true
      · rw [if_pos h3] at h
        cases h
      · rw [if_neg h3] at h
        cases hcd : _check_dim_spec ((sliceOpt got a0 b0).filterMap id) d0 β
            name msg a0 with
        | error e =>
          rw [hcd] at h
          simp only [error_bind] at h
          cases h
        | ok u =>
          exact check_dim_spec_eval hcd hval
    · by_cases h1 : d0.value = none
      · rw [if_pos h1] at h
        exact checkFold_slot_eval rest h d a b hm2 e0 hval hskip
      · rw [if_neg h1] at h
        by_cases h2 : (d0.type = DimType.repeated && a0 == b0) = true
        · rw [if_pos h2] at h
          exact checkFold_slot_eval rest h d a b hm2 e0 hval hskip
        · rw [if_neg h2] at h
          by_cases h3 : (sliceOpt got a0 b0).contains none = true
          · rw [if_pos h3] at h
            cases h
          · rw [if_neg h3] at h
            cases hcd : _check_dim_spec ((sliceOpt got a0 b0).filterMap id)
                d0 β name msg a0 with
            | error e =>
              rw [hcd] at h
              simp only [error_bind] at h
              cases h
            | ok u =>
              cases u
              rw [hcd] at h
              simp only [ok_bind] at h
              exact checkFold_slot_eval rest h d a b hm2 e0 hval hskip

/-- Evaluating a bare variable is exactly a lookup. -/
theorem eval_var_lookup {β : Bindings} {x : String} {v : ShapeVariable}
    (h : Expr.eval β (.var x) = .ok v) : lookupB β x = some v := by
  simp only [Expr.eval] at h
  cases hl : lookupB β x with
  | none =>
    simp only [hl] at h
    cases h
  | some w =>
    simp only [hl] at h
    cases h
    rfl

/-- Every slot of an allocation carries one of the spec's dims. -/
theorem allocSpec_mem_dim : ∀ (dims : List DimSpec) (ws : List Nat)
    (i : Nat) (d : DimSpec) (a b : Nat),
    (d, a, b) ∈ allocSpec dims ws i → d ∈ dims
  | [], ws, i, d, a, b, h => by simp [allocSpec] at h
  | d0 :: ds, [], i, d, a, b, h => by simp [allocSpec] at h
  | d0 :: ds, w :: wsr, i, d, a, b, h => by
    simp only [allocSpec] at h
    rcases List.mem_cons.mp h with heq | hm
    · obtain ⟨h1, -, -⟩ : d = d0 ∧ a = i ∧ b = i + w := by
        simpa [Prod.ext_iff] using heq
      subst h1
      exact List.mem_cons_self _ _
    · exact List.mem_cons_of_mem _ (allocSpec_mem_dim ds wsr _ d a b hm)

/-- Every dim of the spec owns a slot of the allocation. -/
theorem allocSpec_mem_of_dim : ∀ (dims : List DimSpec) (ws : List Nat)
    (i : Nat), dims.length = ws.length → ∀ d, d ∈ dims →
    ∃ a b, (d, a, b) ∈ allocSpec dims ws i
  | [], _, _, _, d, hd => by cases hd
  | d0 :: ds, [], i, hlen, d, hd => by simp at hlen
  | d0 :: ds, w :: wsr, i, hlen, d, hd => by
    simp only [List.length_cons, Nat.succ.injEq] at hlen
    rcases List.mem_cons.mp hd with rfl | hm
    · exact ⟨i, i + w, by simp [allocSpec]⟩
    · rcases allocSpec_mem_of_dim ds wsr (i + w) hlen d hm with ⟨a, b, hab⟩
      exact ⟨a, b, by simp [allocSpec, hab]⟩

/-- A successful `matched_indices` is the contiguous allocation of the
per-dim widths with the slack width at the unknown slots. -/
theorem matched_indices_ok_form {s : ShapeSpec} {β : Bindings} {n : Nat}
    {m : List (DimSpec × Nat × Nat)}
    (h : s.matched_indices β n = .ok m) :
    ∃ nds, nDimsList β s.dims = .ok nds ∧
      m = allocSpec s.dims
        (nds.map (fun w => w.getD (n - sumKnown nds))) 0 := by
  simp only [ShapeSpec.matched_indices] at h
  cases hnds : nDimsList β s.dims with
  | error e =>
    rw [hnds] at h
    simp only [error_bind] at h
    cases h
  | ok nds =>
    rw [hnds] at h
    simp only [ok_bind] at h
    refine ⟨nds, rfl, ?_⟩
    by_cases h1 : sumKnown nds > n
    · rw [if_pos h1] at h
      cases h
    · rw [if_neg h1] at h
      by_cases h2 : (noneIdxs nds 0).length > 1
      · rw [if_pos h2] at h
        cases h
      · rw [if_neg h2] at h
        have hlen : s.dims.length = nds.length :=
          (nDimsList_ok_length β s.dims nds hnds).symm
        rw [allocGo_spec (n - sumKnown nds) s.dims nds 0 hlen] at h
        simp only at h
        by_cases h3 : 0 + (nds.map
            (fun w => w.getD (n - sumKnown nds))).sum ≠ n
        · rw [if_pos h3] at h
          cases h
        · rw [if_neg h3] at h
          cases h
          rfl

/-- Inverting a successful `_check_shape`: it returns its bindings, and
the rank check, the unknown-width guard, the allocation and the per-slot
loop all passed at those bindings. -/
theorem check_shape_ok_inv {got : List (Option Int)} {s : ShapeSpec}
    {β β' : Bindings} {name msg : String}
    (h : _check_shape got s β name msg = .ok β') :
    β' = β ∧
    _check_rank name got s β (if msg ≠ "" then "\n" ++ msg else msg) =
      .ok () ∧
    (∃ u, s.unknown_n_dims_indices β = .ok u ∧ ¬ u.length > 1) ∧
    ∃ m, s.matched_indices β got.length = .ok m ∧
      checkFold got β name (if msg ≠ "" then "\n" ++ msg else msg) m =
        .ok () := by
  simp only [_check_shape] at h
  cases hr : _check_rank name got s β
      (if msg ≠ "" then "\n" ++ msg else msg) with
  | error e =>
    rw [hr] at h
    simp only [error_bind] at h
    cases h
  | ok u0 =>
    cases u0
    rw [hr] at h
    simp only [ok_bind] at h
    cases hu : s.unknown_n_dims_indices β with
    | error e =>
      rw [hu] at h
      simp only [error_bind] at h
      cases h
    | ok u =>
      rw [hu] at h
      simp only [ok_bind] at h
      by_cases h1 : u.length > 1
      · rw [if_pos h1] at h
        cases h
      · rw [if_neg h1] at h
        cases hm : s.matched_indices β got.length with
        | error e =>
          rw [hm] at h
          simp only [error_bind] at h
          cases h
        | ok m =>
          rw [hm] at h
          simp only [ok_bind] at h
          cases hcf : checkFold got β name
              (if msg ≠ "" then "\n" ++ msg else msg) m with
          | error e =>
            rw [hcf] at h
            simp only [error_bind] at h
            cases h
          | ok u2 =>
            cases u2
            rw [hcf] at h
            simp only [ok_bind] at h
            cases h
            exact ⟨rfl, rfl, ⟨u, rfl, h1⟩, m, rfl, hcf⟩

/-- The per-dim checkability facts behind a positive spec checkability. -/
theorem is_checkable_spec_all {s : ShapeSpec} {β : Bindings}
    (h : s.is_checkable β = .ok true) :
    ∀ d ∈ s.dims, d.is_checkable (keysB β) = true := by
  simp only [ShapeSpec.is_checkable] at h
  cases hu : s.unknown_n_dims_indices β with
  | error e =>
    rw [hu] at h
    simp only [error_bind] at h
    cases h
  | ok u =>
    rw [hu] at h
    simp only [ok_bind] at h
    by_cases h1 : u.length > 1
    · rw [if_pos h1] at h
      cases h
    · rw [if_neg h1] at h
      have hall := Except.ok.inj h
      simp only [List.all_eq_true] at hall
      exact hall

/-- A binding step is the identity when the slot is not a bare variable,
the variable is already bound, or the slot is a zero-width repeated
slice. -/
theorem bindStep_noop (got : List (Option Int)) (name msg : String)
    (d : DimSpec) (a b : Nat) (B : Bindings)
    (h : ∀ x, d.value = some (Expr.var x) →
      (lookupB B x).isSome = true ∨ (d.type = DimType.repeated ∧ b = a)) :
    bindStep got name msg d a b B = .ok B := by
  obtain ⟨val, ty, bc⟩ := d
  cases val with
  | none => rfl
  | some e =>
    cases e with
    | var x =>
      rcases h x rfl with hx | ⟨hrep, hba⟩
      · simp only [bindStep]
        rw [if_pos hx]
      · have hty : ty = DimType.repeated := hrep
        subst hty
        subst hba
        by_cases hx : (lookupB B x).isSome = true
        · simp only [bindStep]
          rw [if_pos hx]
        · have hslice : sliceOpt got b b = [] := by
            simp [sliceOpt]
          simp only [bindStep, hslice]
          rw [if_neg hx]
          cases bc <;> simp
    | lit n => rfl
    | add p q => rfl
    | sub p q => rfl
    | mul p q => rfl
    | concat p q => rfl
    | broadcast p q => rfl
    | data => rfl

/-- The bind loop is the identity when every slot is. -/
theorem bindFold_noop {got : List (Option Int)} {name msg : String}
    {B : Bindings} :
    ∀ m, (∀ d a b, (d, a, b) ∈ m → ∀ x, d.value = some (Expr.var x) →
      (lookupB B x).isSome = true ∨ (d.type = DimType.repeated ∧ b = a)) →
    bindFold got name msg m B = .ok B
  | [], _ => rfl
  | (d, a, b) :: rest, h => by
    simp only [bindFold]
    rw [bindStep_noop got name msg d a b B (h d a b (List.mem_cons_self _ _))]
    simp only [ok_bind]
    exact bindFold_noop rest
      (fun d2 a2 b2 hm => h d2 a2 b2 (List.mem_cons_of_mem _ hm))

/-- Per-dim checkability of a bound dim puts its bare variable in the
keys when broadcast tolerance is on. -/
theorem checkable_bc_bound {d : DimSpec} {β : Bindings} {x : String}
    (hval : d.value = some (Expr.var x)) (hbc : d.can_broadcast = true)
    (hck : d.is_checkable (keysB β) = true) :
    (lookupB β x).isSome = true := by
  simp only [DimSpec.is_checkable, hval, hbc, Bool.or_eq_true] at hck
  rcases hck with hck | hck
  · simp at hck
  · simp only [DimSpec.is_defined, hval] at hck
    simp only [Expr.is_defined, Expr.varList, List.all_cons, List.all_nil,
      Bool.and_true] at hck
    rw [lookupB_isSome_iff_mem]
    simpa using hck

/-- The full per-entry replay: once an entry has passed its final value
check at a state the returned bindings extend, every step the rerun's
first pass performs on it succeeds at the returned bindings without
binding anything. -/
theorem entry_replay {got : List (Option Int)} {spec : ShapeSpec}
    {β B : Bindings} {name msg : String} (hex : extendsB β B)
    (hck : spec.is_checkable β = .ok true)
    (hcs : _check_shape got spec β name msg = .ok β) :
    (∃ u, spec.unknown_n_dims_indices B = .ok u ∧ ¬ u.length > 1) ∧
    (∀ msg2, _check_rank name got spec B msg2 = .ok ()) ∧
    _bind_shape got spec B name msg = .ok B ∧
    spec.is_checkable B = .ok true ∧
    _check_shape got spec B name msg = .ok B := by
  obtain ⟨-, hr, ⟨u, hu, hul⟩, m, hm, hcf⟩ := check_shape_ok_inv hcs
  obtain ⟨nds, hnds, hmform⟩ := matched_indices_ok_form hm
  have hlen : spec.dims.length = nds.length :=
    (nDimsList_ok_length β spec.dims nds hnds).symm
  have hckall := is_checkable_spec_all hck
  have vdef : ∀ d ∈ spec.dims, variadicDefined β d := by
    intro d hd hdty
    cases hdv : d.value with
    | none => exact Or.inl rfl
    | some e0 =>
      right
      refine ⟨e0, rfl, ?_⟩
      rcases allocSpec_mem_of_dim spec.dims
        (nds.map (fun w => w.getD (got.length - sumKnown nds))) 0
        (by simp [hlen]) d hd with ⟨a, b, hab⟩
      rw [← hmform] at hab
      rcases checkFold_slot_eval m hcf d a b hab e0 hdv
        (by simp [hdty]) with ⟨v, hev⟩
      exact eval_defined e0 v hev
  have hndsB : nDimsList B spec.dims = .ok nds :=
    nDimsList_stable hex spec.dims nds vdef hnds
  have huB : spec.unknown_n_dims_indices B = .ok u := by
    rw [unknown_indices_eq hnds hndsB]
    exact hu
  have hmB : spec.matched_indices B got.length = .ok m := by
    rw [matched_indices_eq hnds hndsB]
    exact hm
  have hslot : ∀ d a b, (d, a, b) ∈ m → ∀ x,
      d.value = some (Expr.var x) →
      (lookupB B x).isSome = true ∨
      (d.type = DimType.repeated ∧ b = a) := by
    intro d a b hab x hval
    have hd : d ∈ spec.dims := by
      rw [hmform] at hab
      exact allocSpec_mem_dim _ _ _ _ _ _ hab
    cases hbc : d.can_broadcast with
    | true =>
      left
      have hsomeβ := checkable_bc_bound hval hbc (hckall d hd)
      rcases Option.isSome_iff_exists.mp hsomeβ with ⟨v, hv⟩
      rw [hex x v hv]
      rfl
    | false =>
      by_cases hguard : (d.type = DimType.repeated && a == b) = true
      · right
        simp only [Bool.and_eq_true, decide_eq_true_eq, beq_iff_eq] at hguard
        exact ⟨hguard.1, hguard.2.symm⟩
      · left
        rcases checkFold_slot_eval m hcf d a b hab (.var x) hval hguard
          with ⟨v, hev⟩
        have hv := eval_var_lookup hev
        rw [hex x v hv]
        rfl
  refine ⟨⟨u, huB, hul⟩, ?_, ?_, ?_, ?_⟩
  · intro msg2
    exact check_rank_replay hnds hndsB hr
  · simp only [_bind_shape, hmB, ok_bind]
    exact bindFold_noop m hslot
  · exact is_checkable_spec_replay hex hnds hndsB hck
  · simp only [_check_shape]
    rw [check_rank_replay hnds hndsB hr]
    simp only [ok_bind, huB]
    rw [if_neg hul]
    simp only [hmB, ok_bind]
    rw [checkFold_replay hex m hcf]
    simp only [ok_bind]

/-- Check witnesses transfer along extension. -/
theorem ChkW_mono {msg : String}
    {e : String × (List (Option Int) × ShapeSpec)} {B B' : Bindings}
    (hex : extendsB B B') (h : ChkW msg e B) : ChkW msg e B' :=
  let ⟨β, h1, h2, h3⟩ := h
  ⟨β, extendsB_trans h1 hex, h2, h3⟩

/-- With no duplicate entry names, a name determines its entry. -/
theorem nodup_entry_eq {T : Tensors} (hnd : (T.map Prod.fst).Nodup) :
    ∀ {e e2 : String × (List (Option Int) × ShapeSpec)},
    e ∈ T → e2 ∈ T → e.1 = e2.1 → e = e2 := by
  induction T with
  | nil =>
    intro e e2 he
    cases he
  | cons t rest ih =>
    intro e e2 he he2 hn
    have hnd2 : t.1 ∉ rest.map Prod.fst ∧ (rest.map Prod.fst).Nodup := by
      rw [List.map_cons] at hnd
      exact List.nodup_cons.mp hnd
    rcases List.mem_cons.mp he with rfl | hee
    · rcases List.mem_cons.mp he2 with rfl | hee2
      · rfl
      · exfalso
        apply hnd2.1
        rw [hn]
        exact List.mem_map_of_mem Prod.fst hee2
    · rcases List.mem_cons.mp he2 with rfl | hee2
      · exfalso
        apply hnd2.1
        rw [← hn]
        exact List.mem_map_of_mem Prod.fst hee
      · exact ih hnd2.2 hee hee2 hn

/-- The kind of a value bound from an observation: tuples come from
variadic slots, ints from the others. -/
theorem bindValueOf_kind {ty : DimType} {gs : List Int} {v : ShapeVariable}
    (h : bindValueOf ty gs = some v) :
    (ty ≠ DimType.variadic ∧ ∃ n, v = ShapeVariable.int n) ∨
    (ty = DimType.variadic ∧ ∃ t, v = ShapeVariable.tup t) := by
  cases ty with
  | variadic =>
    right
    refine ⟨rfl, ?_⟩
    simp only [bindValueOf] at h
    cases h
    exact ⟨gs, rfl⟩
  | repeated =>
    left
    refine ⟨by simp, ?_⟩
    cases gs with
    | nil => simp [bindValueOf] at h
    | cons g0 tl =>
      simp only [bindValueOf] at h
      cases h
      exact ⟨g0, rfl⟩
  | single =>
    left
    refine ⟨by simp, ?_⟩
    cases gs with
    | nil => simp [bindValueOf] at h
    | cons g0 tl =>
      cases tl with
      | nil =>
        simp only [bindValueOf] at h
        cases h
        exact ⟨g0, rfl⟩
      | cons g1 tl2 => simp [bindValueOf] at h

/-- A bare variable slot references its variable. -/
theorem varList_of_var {d : DimSpec} {x : String}
    (h : d.value = some (Expr.var x)) : x ∈ d.varList := by
  simp [DimSpec.varList, h, Expr.varList]

/-- A variable of a non-variadic dim of some entry is int-kind. -/
theorem mem_specIntVars {T : Tensors}
    {e : String × (List (Option Int) × ShapeSpec)} (hT : e ∈ T)
    {d : DimSpec} (hd : d ∈ e.2.2.dims) (hty : d.type ≠ DimType.variadic)
    {x : String} (hx : x ∈ d.varList) : x ∈ specIntVars T := by
  simp only [specIntVars, List.mem_flatten]
  refine ⟨((e.2.2.dims.filter (fun d2 => d2.type ≠ DimType.variadic)).map
    DimSpec.varList).flatten, List.mem_map_of_mem _ hT, ?_⟩
  simp only [List.mem_flatten]
  exact ⟨d.varList, List.mem_map_of_mem _ (List.mem_filter.mpr
    ⟨hd, by simpa using hty⟩), hx⟩

/-- A variable of a variadic dim of some entry is tuple-kind. -/
theorem mem_specTupleVars {T : Tensors}
    {e : String × (List (Option Int) × ShapeSpec)} (hT : e ∈ T)
    {d : DimSpec} (hd : d ∈ e.2.2.dims) (hty : d.type = DimType.variadic)
    {x : String} (hx : x ∈ d.varList) : x ∈ specTupleVars T := by
  simp only [specTupleVars, List.mem_flatten]
  refine ⟨((e.2.2.dims.filter (fun d2 => d2.type = DimType.variadic)).map
    DimSpec.varList).flatten, List.mem_map_of_mem _ hT, ?_⟩
  simp only [List.mem_flatten]
  exact ⟨d.varList, List.mem_map_of_mem _ (List.mem_filter.mpr
    ⟨hd, by simpa using hty⟩), hx⟩

/-- The binding loop appends only observation bindings read off matched
bare-variable slots. -/
theorem bindFold_prov {got : List (Option Int)} {name msg : String} :
    ∀ (m : List (DimSpec × Nat × Nat)) (β β' : Bindings),
    bindFold got name msg m β = .ok β' →
    ∃ Δ, β' = β ++ Δ ∧ ∀ p ∈ Δ, ∃ d a b, (d, a, b) ∈ m ∧
      d.value = some (Expr.var p.1) ∧
      bindValueOf d.type ((sliceOpt got a b).filterMap id) = some p.2
  | [], β, β', h => by
    simp only [bindFold] at h
    cases h
    exact ⟨[], by simp, by simp⟩
  | (d, a, b) :: rest, β, β', h => by
    simp only [bindFold] at h
    cases hstep : bindStep got name msg d a b β with
    | error e =>
      rw [hstep] at h
      cases h
    | ok β1 =>
      rw [hstep] at h
      simp only [ok_bind] at h
      rcases bindStep_cases hstep with rfl | ⟨x, v, hval, hbc, hnone, hbv, rfl⟩
      · rcases bindFold_prov rest β1 β' h with ⟨Δ, rfl, hΔ⟩
        exact ⟨Δ, rfl, fun p hp =>
          let ⟨d2, a2, b2, hm, h1, h2⟩ := hΔ p hp
          ⟨d2, a2, b2, List.mem_cons_of_mem _ hm, h1, h2⟩⟩
      · rcases bindFold_prov rest _ β' h with ⟨Δ, rfl, hΔ⟩
        refine ⟨(x, v) :: Δ, by simp, ?_⟩
        intro p hp
        rcases List.mem_cons.mp hp with rfl | hp
        · exact ⟨d, a, b, List.mem_cons_self _ _, hval, hbv⟩
        · rcases hΔ p hp with ⟨d2, a2, b2, hm, h1, h2⟩
          exact ⟨d2, a2, b2, List.mem_cons_of_mem _ hm, h1, h2⟩

/-- Binding a shape only extends the bindings. -/
theorem bind_shape_extends {got : List (Option Int)} {spec : ShapeSpec}
    {β β' : Bindings} {name msg : String}
    (h : _bind_shape got spec β name msg = .ok β') : extendsB β β' := by
  simp only [_bind_shape] at h
  cases hm : spec.matched_indices β got.length with
  | error e =>
    rw [hm] at h
    simp only [error_bind] at h
    cases h
  | ok m =>
    rw [hm] at h
    simp only [ok_bind] at h
    rcases bindFold_extends got name msg m β β' h with ⟨Δ, rfl⟩
    exact extendsB_append β Δ

/-- Binding a shape of one of the entries preserves provenance. -/
theorem bind_shape_prov {T : Tensors} {pre : Bindings}
    {e : String × (List (Option Int) × ShapeSpec)} (hT : e ∈ T)
    {β β' : Bindings} {msg : String}
    (hprov : ProvB T pre β)
    (h : _bind_shape e.2.1 e.2.2 β e.1 msg = .ok β') :
    ProvB T pre β' := by
  simp only [_bind_shape] at h
  cases hm : ShapeSpec.matched_indices e.2.2 β e.2.1.length with
  | error er =>
    rw [hm] at h
    simp only [error_bind] at h
    cases h
  | ok m =>
    rw [hm] at h
    simp only [ok_bind] at h
    obtain ⟨nds, hnds, hform⟩ := matched_indices_ok_form hm
    rcases bindFold_prov m β β' h with ⟨Δ2, rfl, hΔ2⟩
    rcases hprov with ⟨Δ, rfl, hΔ⟩
    refine ⟨Δ ++ Δ2, by simp, ?_⟩
    intro p hp
    rcases List.mem_append.mp hp with hp | hp
    · exact hΔ p hp
    · rcases hΔ2 p hp with ⟨d, a, b, hab, hval, hbv⟩
      have hd : d ∈ e.2.2.dims := by
        rw [hform] at hab
        exact allocSpec_mem_dim _ _ _ _ _ _ hab
      have hvar : p.1 ∈ d.varList := varList_of_var hval
      rcases bindValueOf_kind hbv with ⟨hty, n, hn⟩ | ⟨hty, t, ht⟩
      · exact Or.inl ⟨⟨n, hn⟩, mem_specIntVars hT hd hty hvar⟩
      · exact Or.inr ⟨⟨t, ht⟩, mem_specTupleVars hT hd hty hvar⟩

/-- The tail of one `processEntry` call (checkability test and value
check) preserves the invariant from the post-binding state. -/
theorem processEntry_tail_inv {T : Tensors} {pre : Bindings} {msg : String}
    (hnd : (T.map Prod.fst).Nodup)
    {e : String × (List (Option Int) × ShapeSpec)} (he : e ∈ T)
    {st1 st' : SolverState}
    (hprov1 : ProvB T pre st1.bindings)
    (hchk1 : ∀ e2 ∈ T, e2.1 ∈ st1.checked → ChkW msg e2 st1.bindings)
    (h : (do
      let ck ← ShapeSpec.is_checkable e.2.2 st1.bindings
      if !ck then .ok st1 else do
        let _ ← _check_shape e.2.1 e.2.2 st1.bindings e.1 msg
        .ok { st1 with checked := st1.checked ++ [e.1] } :
      Except String SolverState) = .ok st') :
    LoopInv T pre msg st' ∧ extendsB st1.bindings st'.bindings := by
  cases hck : ShapeSpec.is_checkable e.2.2 st1.bindings with
  | error er =>
    rw [hck] at h
    simp only [error_bind] at h
    cases h
  | ok ck =>
    rw [hck] at h
    simp only [ok_bind] at h
    cases ck with
    | false =>
      simp only [Bool.not_false, if_true] at h
      cases h
      exact ⟨⟨hprov1, hchk1⟩, extendsB_refl _⟩
    | true =>
      simp only [Bool.not_true] at h
      rw [if_neg (by simp)] at h
      cases hcs : _check_shape e.2.1 e.2.2 st1.bindings e.1 msg with
      | error er =>
        rw [hcs] at h
        simp only [error_bind] at h
        cases h
      | ok β2 =>
        rw [hcs] at h
        simp only [ok_bind] at h
        cases h
        have hβ2 : β2 = st1.bindings := (check_shape_ok_inv hcs).1
        rw [hβ2] at hcs
        refine ⟨⟨hprov1, ?_⟩, extendsB_refl _⟩
        intro e2 he2 hmem
        simp only at hmem
        rcases List.mem_append.mp hmem with hmem | hmem
        · exact hchk1 e2 he2 hmem
        · have hne : e2.1 = e.1 := by simpa using hmem
          have : e2 = e := nodup_entry_eq hnd he2 he hne
          subst this
          exact ⟨st1.bindings, extendsB_refl _, hck, hcs⟩

/-- One `processEntry` call preserves the loop invariant and only extends
the bindings. -/
theorem processEntry_inv {T : Tensors} {pre : Bindings} {msg : String}
    (hnd : (T.map Prod.fst).Nodup)
    {e : String × (List (Option Int) × ShapeSpec)} (he : e ∈ T)
    {st st' : SolverState}
    (hinv : LoopInv T pre msg st)
    (h : processEntry msg st e = .ok st') :
    LoopInv T pre msg st' ∧ extendsB st.bindings st'.bindings := by
  obtain ⟨hprov, hchk⟩ := hinv
  simp only [processEntry] at h
  by_cases h1 : st.checked.contains e.1 = true
  · rw [if_pos h1] at h
    cases h
    exact ⟨⟨hprov, hchk⟩, extendsB_refl _⟩
  · rw [if_neg h1] at h
    cases hu : ShapeSpec.unknown_n_dims_indices e.2.2 st.bindings with
    | error er =>
      rw [hu] at h
      simp only [error_bind] at h
      cases h
    | ok u =>
      rw [hu] at h
      simp only [ok_bind] at h
      by_cases h2 : u.length > 1
      · rw [if_pos h2] at h
        cases h
        exact ⟨⟨hprov, hchk⟩, extendsB_refl _⟩
      · rw [if_neg h2] at h
        by_cases h3 : st.binded.contains e.1 = true
        · rw [if_pos h3] at h
          exact processEntry_tail_inv hnd he hprov hchk h
        · rw [if_neg h3] at h
          cases hr : _check_rank e.1 e.2.1 e.2.2 st.bindings msg with
          | error er =>
            rw [hr] at h
            simp only [error_bind] at h
            cases h
          | ok u0 =>
            cases u0
            rw [hr] at h
            simp only [ok_bind] at h
            cases hb : _bind_shape e.2.1 e.2.2 st.bindings e.1 msg with
            | error er =>
              rw [hb] at h
              simp only [error_bind] at h
              cases h
            | ok βn =>
              rw [hb] at h
              simp only [ok_bind] at h
              have hex1 : extendsB st.bindings βn := bind_shape_extends hb
              have hprov1 : ProvB T pre βn := bind_shape_prov he hprov hb
              have hres := @processEntry_tail_inv T pre msg hnd e he
                ⟨βn, st.binded ++ [e.1], st.checked⟩ st' hprov1
                (fun e2 he2 hm => ChkW_mono hex1 (hchk e2 he2 hm)) h
              exact ⟨hres.1, extendsB_trans hex1 hres.2⟩

/-- One pass over a sublist of the entries preserves the invariant. -/
theorem onePass_inv {T : Tensors} {pre : Bindings} {msg : String}
    (hnd : (T.map Prod.fst).Nodup) :
    ∀ (Ts : Tensors) (st st' : SolverState), (∀ e ∈ Ts, e ∈ T) →
    LoopInv T pre msg st → onePass msg Ts st = .ok st' →
    LoopInv T pre msg st' ∧ extendsB st.bindings st'.bindings
  | [], st, st', _, hinv, h => by
    simp only [onePass] at h
    cases h
    exact ⟨hinv, extendsB_refl _⟩
  | e :: rest, st, st', hsub, hinv, h => by
    simp only [onePass] at h
    cases hpe : processEntry msg st e with
    | error er =>
      rw [hpe] at h
      simp only [error_bind] at h
      cases h
    | ok st1 =>
      rw [hpe] at h
      simp only [ok_bind] at h
      have h1 := processEntry_inv hnd (hsub e (List.mem_cons_self _ _))
        hinv hpe
      have h2 := onePass_inv hnd rest st1 st'
        (fun e2 he2 => hsub e2 (List.mem_cons_of_mem _ he2)) h1.1 h
      exact ⟨h2.1, extendsB_trans h1.2 h2.2⟩

/-- The whole fixed-point loop preserves the invariant. -/
theorem solverLoop_inv {T : Tensors} {pre : Bindings} {msg : String}
    (hnd : (T.map Prod.fst).Nodup) :
    ∀ (fuel : Nat) (st st' : SolverState),
    LoopInv T pre msg st → solverLoop msg T fuel st = .ok st' →
    LoopInv T pre msg st' ∧ extendsB st.bindings st'.bindings
  | 0, st, st', hinv, h => by
    simp only [solverLoop] at h
    cases h
    exact ⟨hinv, extendsB_refl _⟩
  | fuel + 1, st, st', hinv, h => by
    simp only [solverLoop] at h
    cases hop : onePass msg T st with
    | error er =>
      rw [hop] at h
      simp only [error_bind] at h
      cases h
    | ok st1 =>
      rw [hop] at h
      simp only [ok_bind] at h
      have h1 := onePass_inv hnd T st st1 (fun _ he => he) hinv hop
      by_cases hlen : st1.bindings.length = st.bindings.length
      · rw [if_pos hlen] at h
        cases h
        exact h1
      · rw [if_neg hlen] at h
        have h2 := solverLoop_inv hnd fuel st1 st' h1.1 h
        exact ⟨h2.1, extendsB_trans h1.2 h2.2⟩

/-- An empty conflict set is exactly disjointness of the two kind sets. -/
theorem conflicts_empty_iff {T : Tensors} {β : Bindings} :
    varKindConflicts T β = [] ↔
    ∀ x ∈ intVarsList T β, x ∉ tupleVarsList T β := by
  rw [List.eq_nil_iff_forall_not_mem]
  constructor
  · intro h x hx hxt
    refine h x ?_
    simp only [varKindConflicts, mem_sortDedup, List.mem_filter]
    exact ⟨hx, by simpa using hxt⟩
  · intro h x hx
    simp only [varKindConflicts, mem_sortDedup, List.mem_filter] at hx
    exact h x hx.1 (by simpa using hx.2)

/-- Int-kind pre-bound names distribute over appended dicts. -/
theorem bindingIntVars_append (a b : Bindings) :
    bindingIntVars (a ++ b) = bindingIntVars a ++ bindingIntVars b := by
  simp [bindingIntVars, List.filterMap_append]

/-- Tuple-kind pre-bound names distribute over appended dicts. -/
theorem bindingTupleVars_append (a b : Bindings) :
    bindingTupleVars (a ++ b) = bindingTupleVars a ++ bindingTupleVars b := by
  simp [bindingTupleVars, List.filterMap_append]

/-- Observation bindings add no int-kind names beyond the spec's own. -/
theorem intVars_sub_of_prov {T : Tensors} {pre B : Bindings}
    (hprov : ProvB T pre B) :
    ∀ x ∈ intVarsList T B, x ∈ intVarsList T pre := by
  rcases hprov with ⟨Δ, rfl, hΔ⟩
  intro x hx
  simp only [intVarsList, List.mem_append] at hx ⊢
  rcases hx with hx | hx
  · rw [bindingIntVars_append] at hx
    rcases List.mem_append.mp hx with hx | hx
    · exact Or.inl hx
    · right
      simp only [bindingIntVars, List.mem_filterMap] at hx
      rcases hx with ⟨p, hp, hpf⟩
      cases hv : p.2 with
      | int n =>
        rw [hv] at hpf
        simp only [Option.some.injEq] at hpf
        subst hpf
        rcases hΔ p hp with ⟨_, hspec⟩ | ⟨⟨t2, ht2⟩, _⟩
        · exact hspec
        · rw [ht2] at hv
          cases hv
      | tup t =>
        rw [hv] at hpf
        simp at hpf
  · exact Or.inr hx

/-- Observation bindings add no tuple-kind names beyond the spec's own. -/
theorem tupleVars_sub_of_prov {T : Tensors} {pre B : Bindings}
    (hprov : ProvB T pre B) :
    ∀ x ∈ tupleVarsList T B, x ∈ tupleVarsList T pre := by
  rcases hprov with ⟨Δ, rfl, hΔ⟩
  intro x hx
  simp only [tupleVarsList, List.mem_append] at hx ⊢
  rcases hx with hx | hx
  · rw [bindingTupleVars_append] at hx
    rcases List.mem_append.mp hx with hx | hx
    · exact Or.inl hx
    · right
      simp only [bindingTupleVars, List.mem_filterMap] at hx
      rcases hx with ⟨p, hp, hpf⟩
      cases hv : p.2 with
      | tup t =>
        rw [hv] at hpf
        simp only [Option.some.injEq] at hpf
        subst hpf
        rcases hΔ p hp with ⟨⟨n2, hn2⟩, _⟩ | ⟨_, hspec⟩
        · rw [hn2] at hv
          cases hv
        · exact hspec
      | int n =>
        rw [hv] at hpf
        simp at hpf
  · exact Or.inr hx

/-- A passing variable-kind check passes again with the observation
bindings added. -/
theorem check_variable_types_prov {T : Tensors} {pre B : Bindings}
    (hprov : ProvB T pre B)
    (h : _check_variable_types T pre = .ok ()) :
    _check_variable_types T B = .ok () := by
  simp only [_check_variable_types] at h ⊢
  by_cases h1 : (varKindConflicts T pre).isEmpty = true
  · have hpre : varKindConflicts T pre = [] := List.isEmpty_iff.mp h1
    have hdisj := conflicts_empty_iff.mp hpre
    have hB : varKindConflicts T B = [] := by
      rw [conflicts_empty_iff]
      intro x hx hxt
      exact hdisj x (intVars_sub_of_prov hprov x hx)
        (tupleVars_sub_of_prov hprov x hxt)
    rw [if_pos (by simp [hB])]
  · rw [if_neg h1] at h
    cases h

/-- The rerun processes a fresh entry completely: rank check, a no-op
bind, and the value check, marking it bound and checked. -/
theorem rerun_processEntry {msg : String} {B : Bindings}
    {e : String × (List (Option Int) × ShapeSpec)} {acc : List String}
    (hok : EntryOk msg e B) (hnacc : e.1 ∉ acc) :
    processEntry msg ⟨B, acc, acc⟩ e =
      .ok ⟨B, acc ++ [e.1], acc ++ [e.1]⟩ := by
  obtain ⟨⟨u, hu, hul⟩, hrank, hbind, hck, hcs⟩ := hok
  have hnc : ¬ acc.contains e.1 = true := by simpa using hnacc
  simp only [processEntry]
  rw [if_neg hnc]
  rw [hu]
  simp only [ok_bind]
  rw [if_neg hul]
  rw [if_neg hnc]
  rw [hrank msg]
  simp only [ok_bind]
  rw [hbind]
  simp only [ok_bind]
  rw [hck]
  simp only [ok_bind, Bool.not_true]
  rw [if_neg (by simp)]
  rw [hcs]
  simp only [ok_bind]

/-- The rerun's first pass sweeps all entries into the bound and checked
sets without touching the bindings. -/
theorem rerun_onePass {msg : String} {B : Bindings} :
    ∀ (Ts : Tensors) (acc : List String),
    (∀ e ∈ Ts, EntryOk msg e B) →
    (∀ e ∈ Ts, e.1 ∉ acc) →
    (Ts.map Prod.fst).Nodup →
    onePass msg Ts ⟨B, acc, acc⟩ =
      .ok ⟨B, acc ++ Ts.map Prod.fst, acc ++ Ts.map Prod.fst⟩
  | [], acc, _, _, _ => by simp [onePass]
  | e :: rest, acc, hok, hnacc, hnd => by
    simp only [onePass]
    rw [rerun_processEntry (hok e (List.mem_cons_self _ _))
      (hnacc e (List.mem_cons_self _ _))]
    simp only [ok_bind]
    have hnd2 : e.1 ∉ rest.map Prod.fst ∧ (rest.map Prod.fst).Nodup := by
      rw [List.map_cons] at hnd
      exact List.nodup_cons.mp hnd
    have hrec := rerun_onePass rest (acc ++ [e.1])
      (fun e2 he2 => hok e2 (List.mem_cons_of_mem _ he2))
      (fun e2 he2 => by
        intro hmem
        rcases List.mem_append.mp hmem with hmem | hmem
        · exact hnacc e2 (List.mem_cons_of_mem _ he2) hmem
        · have heq : e2.1 = e.1 := by simpa using hmem
          refine hnd2.1 ?_
          rw [← heq]
          exact List.mem_map_of_mem Prod.fst he2)
      hnd2.2
    rw [hrec]
    simp [List.append_assoc]

/-- C3: idempotence of `check_shapes`. If a run over entries with unique
names returns the bindings `B`, rerunning with `B` supplied as the
pre-bindings (the original pre-bindings together with every returned
pair, as Python keyword arguments merge them) succeeds and returns
exactly `B` again. -/
theorem C3_idempotent (T : Tensors) (pre B : Bindings)
    (hnd : (T.map Prod.fst).Nodup)
    (h : check_shapes_core T pre = .ok B) :
    check_shapes_core T B = .ok B := by
  simp only [check_shapes_core] at h
  cases hvt : _check_variable_types T pre with
  | error er =>
    rw [hvt] at h
    simp only [error_bind] at h
    cases h
  | ok u0 =>
    cases u0
    rw [hvt] at h
    simp only [ok_bind] at h
    by_cases hTe : T.isEmpty = true
    · rw [if_pos hTe] at h
      cases h
      simp only [check_shapes_core, hvt, ok_bind]
      rw [if_pos hTe]
    · rw [if_neg hTe] at h
      cases hsl : solverLoop (contextMsg T) T T.length ⟨pre, [], []⟩ with
      | error er =>
        rw [hsl] at h
        simp only [error_bind] at h
        cases h
      | ok st =>
        rw [hsl] at h
        simp only [ok_bind] at h
        by_cases hubE : (T.filterMap fun e =>
            if st.binded.contains e.1 = true then none
            else some e.1).isEmpty = true
        · rw [if_neg (show ¬ (!(T.filterMap fun e =>
              if st.binded.contains e.1 = true then none
              else some e.1).isEmpty) = true by rw [hubE]; decide)] at h
          by_cases hunE : (T.filterMap fun e =>
              if st.checked.contains e.1 = true then none
              else some e.1).isEmpty = true
          · rw [if_neg (show ¬ (!(T.filterMap fun e =>
                if st.checked.contains e.1 = true then none
                else some e.1).isEmpty) = true by rw [hunE]; decide)] at h
            cases h
            have hunNil : (T.filterMap fun e =>
                if st.checked.contains e.1 = true then none
                else some e.1) = [] := List.isEmpty_iff.mp hunE
            have hinv := @solverLoop_inv T pre (contextMsg T) hnd T.length
              ⟨pre, [], []⟩ st
              ⟨⟨[], by simp, by simp⟩,
                fun e he hmem => absurd hmem (List.not_mem_nil _)⟩ hsl
            have hchkAll : ∀ e ∈ T, ChkW (contextMsg T) e st.bindings := by
              intro e he
              apply hinv.1.2 e he
              have hfm := List.filterMap_eq_nil_iff.mp hunNil e he
              by_cases hc : st.checked.contains e.1 = true
              · simpa using hc
              · rw [if_neg hc] at hfm
                cases hfm
            have hok : ∀ e ∈ T, EntryOk (contextMsg T) e st.bindings := by
              intro e he
              rcases hchkAll e he with ⟨β, hex, hck, hcs⟩
              exact entry_replay hex hck hcs
            simp only [check_shapes_core]
            rw [check_variable_types_prov hinv.1.1 hvt]
            simp only [ok_bind]
            rw [if_neg hTe]
            have hpos : 0 < T.length := by
              cases hT0 : T with
              | nil =>
                rw [hT0] at hTe
                simp at hTe
              | cons a t => simp
            obtain ⟨n, hTn⟩ : ∃ n, T.length = n + 1 :=
              ⟨T.length - 1, by omega⟩
            rw [hTn]
            simp only [solverLoop]
            rw [rerun_onePass T [] hok (fun e _ => List.not_mem_nil _) hnd]
            simp only [ok_bind, List.nil_append]
            simp only [if_true]
            simp only [ok_bind]
            have hub2 : (T.filterMap fun e =>
                if (T.map Prod.fst).contains e.1 = true then none
                else some e.1) = [] := by
              rw [List.filterMap_eq_nil_iff]
              intro e he
              rw [if_pos (by
                simpa using List.mem_map_of_mem Prod.fst he)]
            have hnb : ¬ (!(T.filterMap fun e =>
                if (T.map Prod.fst).contains e.1 = true then none
                else some e.1).isEmpty) = true := by
              rw [hub2]
              decide
            rw [if_neg hnb, if_neg hnb]
          · rw [if_pos (show (!(T.filterMap fun e =>
                if st.checked.contains e.1 = true then none
                else some e.1).isEmpty) = true by
              cases hx : (T.filterMap fun e =>
                  if st.checked.contains e.1 = true then none
                  else some e.1).isEmpty
              · rfl
              · exact absurd hx hunE)] at h
            cases h
        · rw [if_pos (show (!(T.filterMap fun e =>
              if st.binded.contains e.1 = true then none
              else some e.1).isEmpty) = true by
            cases hx : (T.filterMap fun e =>
                if st.binded.contains e.1 = true then none
                else some e.1).isEmpty
            · rfl
            · exact absurd hx hubE)] at h
          cases h

/-- C3 witness: the single-entry system shape (3, 4) against "i j",
whose first run (from no pre-bindings) returns i=3, j=4, rerun with that
mapping pre-bound. -/
theorem C3_idempotent_witness :
    check_shapes_core
      [("arg0", ([some 3, some 4], ⟨[DimSpec.create_variable "i",
        DimSpec.create_variable "j"]⟩))]
      [("i", ShapeVariable.int 3), ("j", ShapeVariable.int 4)] =
      .ok [("i", ShapeVariable.int 3), ("j", ShapeVariable.int 4)] :=
  C3_idempotent
    [("arg0", ([some 3, some 4], ⟨[DimSpec.create_variable "i",
      DimSpec.create_variable "j"]⟩))]
    [] [("i", ShapeVariable.int 3), ("j", ShapeVariable.int 4)]
    (by decide) (by decide)

end Eincheck
